import Mathlib

/-! The flag-syntax classifier of `internal/generator.go`.

A shallow embedding of the code generator of go-git-cmd-wrapper: the six
regular expressions that classify a raw flag syntax, the builders of the
classified flags (`newMeta...`), the name derivation `toGoName` and the
classification loop `jsonCmdModelToCmdMetas`.

Conventions of the embedding.

* A Go `string` is a `List Char`, the list of its runes.  The strings of the
  generator come out of `encoding/json`, which only yields valid UTF-8, so the
  rune view loses nothing.  Go compares strings byte by byte; on UTF-8 this is
  the lexicographic order of the code points, the order of `List Char`.
* A Go panic (indexing a sub-match that is not there) is the result `none`.
* What lies outside the sources at hand is taken as a parameter: the Unicode
  case tables outside ASCII (`CaseTables`), the algorithm behind `sort.Sort`
  (`SortImpl`, any function that returns an ordered permutation), the execution
  of the file template by `text/template` and `ioutil.WriteFile` (`Outside`),
  the accumulator `types.Cmd` of the generated code (`Accumulator`, whose
  `AddOptions` appends one token), and the letters and digits of Unicode
  outside ASCII, by which Go reads an identifier (`LetterTables`).
* The templates are kept as the syntax of what they render (the package
  clause, the imports, and for each flag the comment lines and the Go function
  below them), with the scanning, scoping and typing of that fragment of Go
  (section "The generated code").
-/

namespace Generator

/-- A Go string, as the list of its runes. -/
abbrev Str := List Char

/-! ## Data model -/

/-- One flag record of the table: `type JSONCmdModel struct`. -/
structure JSONCmdModel where
  MethodName : Str
  Argument : Str
  Arguments : Str
  Description : Str
deriving DecidableEq, Repr

/-- A classified flag: `type CmdMeta struct`.  The Go field `Type` is called
`CmdType` here, after the parameter of `newMeta` that fills it. -/
structure CmdMeta where
  CmdType : Str
  Method : Str
  Argument : Str
  Cmd : Str
  Comments : List Str
  CmdComment : Str
deriving DecidableEq, Repr

/-! ## Character classes of the regular expressions -/

/-- The class `\d`: an ASCII digit. -/
def isDigit (c : Char) : Bool := decide (48 ≤ c.toNat ∧ c.toNat ≤ 57)

/-- The class `\w` of Go (RE2): `[0-9A-Za-z_]`, ASCII only. -/
def isWord (c : Char) : Bool :=
  decide (48 ≤ c.toNat ∧ c.toNat ≤ 57) || decide (65 ≤ c.toNat ∧ c.toNat ≤ 90) ||
    decide (97 ≤ c.toNat ∧ c.toNat ≤ 122) || decide (c.toNat = 95)

/-- The class `[\w\d\-]` of the flag token. -/
def clsFlag (c : Char) : Bool := isWord c || isDigit c || decide (c.toNat = 45)

/-- The class `[\w\d\- ]` of the placeholder of `expCmdEqualNoOptional`. -/
def clsNameSpace (c : Char) : Bool :=
  isWord c || isDigit c || decide (c.toNat = 45) || decide (c.toNat = 32)

/-- The class `[\w\d\-()|]` of the choices of `expCmdEqualOptionalWithoutName`;
`expCmdEqualWithoutName` writes the same set as `[\w\d\-|()]`. -/
def clsChoice (c : Char) : Bool :=
  isWord c || isDigit c || decide (c.toNat = 45) || decide (c.toNat = 40) ||
    decide (c.toNat = 41) || decide (c.toNat = 124)

/-- The class `[\w\d\-)]` of the placeholder of `expCmdEqualOptionalWithName`
and `expCmdWithParameter`. -/
def clsNameParen (c : Char) : Bool :=
  isWord c || isDigit c || decide (c.toNat = 45) || decide (c.toNat = 41)

/-- The class `[\[(]`. -/
def clsOpen (c : Char) : Bool := decide (c.toNat = 91) || decide (c.toNat = 40)

/-- The class `[\])]`. -/
def clsClose (c : Char) : Bool := decide (c.toNat = 93) || decide (c.toNat = 41)

/-! ## Regular expressions

The fragment of the syntax of `regexp` that the six patterns use, and a
backtracking matcher for it.  The matcher tries the alternatives in the order
of preference of Go (greedy operators take the longer alternative first), so
the first match it finds is the leftmost-first match whose sub-matches
`FindStringSubmatch` reports. -/

/-- Syntax of the patterns. -/
inductive Re where
  /-- The anchor `^` (no multi-line flag: start of the text). -/
  | bol : Re
  /-- The anchor `$` (no multi-line flag: end of the text). -/
  | eol : Re
  /-- A literal character. -/
  | chr : Char → Re
  /-- A character class `[...]`. -/
  | cls : (Char → Bool) → Re
  /-- A greedy repetition `[...]+` of a character class. -/
  | plus : (Char → Bool) → Re
  /-- A greedy option `r?`. -/
  | opt : Re → Re
  /-- The concatenation `r s`. -/
  | seq : Re → Re → Re
  /-- The capturing group number `i`. -/
  | grp : Nat → Re → Re

/-- The sub-matches found so far, by group number. -/
abbrev Caps := List Str

/-- What remains to be matched: called with the offset reached, the rest of the
text and the sub-matches. -/
abbrev Cont := Nat → List Char → Caps → Option Caps

/-- Greedy `[...]+` at offset `pos`: one character of the class, then as many
more as the rest of the pattern allows, the longest first. -/
def plusRun (p : Char → Bool) : Nat → List Char → Caps → Cont → Option Caps
  | _, [], _, _ => none
  | pos, c :: cs, caps, k =>
    if p c then
      match plusRun p (pos + 1) cs caps k with
      | some r => some r
      | none => k (pos + 1) cs caps
    else none

/-- The backtracking matcher: `r.run pos inp caps k` matches `r` at offset `pos`
against the rest `inp` of the text, then goes on with `k`. -/
def Re.run : Re → Nat → List Char → Caps → Cont → Option Caps
  | .bol, pos, inp, caps, k => if pos = 0 then k pos inp caps else none
  | .eol, pos, inp, caps, k =>
    match inp with
    | [] => k pos [] caps
    | _ :: _ => none
  | .chr c, pos, inp, caps, k =>
    match inp with
    | [] => none
    | d :: ds => if d = c then k (pos + 1) ds caps else none
  | .cls p, pos, inp, caps, k =>
    match inp with
    | [] => none
    | d :: ds => if p d then k (pos + 1) ds caps else none
  | .plus p, pos, inp, caps, k => plusRun p pos inp caps k
  | .opt r, pos, inp, caps, k =>
    match r.run pos inp caps k with
    | some m => some m
    | none => k pos inp caps
  | .seq r s, pos, inp, caps, k =>
    r.run pos inp caps (fun pos1 inp1 caps1 => s.run pos1 inp1 caps1 k)
  | .grp i r, pos, inp, caps, k =>
    r.run pos inp caps (fun pos1 inp1 caps1 => k pos1 inp1 (caps1.set i (inp.take (pos1 - pos))))

/-- A compiled pattern: its syntax and its number of capturing groups. -/
structure Regexp where
  re : Re
  numSubexp : Nat

/-- One attempt of a match that starts at offset `pos`; sub-match 0 is the
whole match. -/
def Regexp.attempt (e : Regexp) (pos : Nat) (inp : List Char) : Option Caps :=
  e.re.run pos inp (List.replicate (e.numSubexp + 1) [])
    (fun pos1 _ caps => some (caps.set 0 (inp.take (pos1 - pos))))

/-- The search for the leftmost match: the start offsets in increasing order. -/
def Regexp.search (e : Regexp) : Nat → List Char → Option Caps
  | pos, [] => e.attempt pos []
  | pos, c :: cs =>
    match e.attempt pos (c :: cs) with
    | some m => some m
    | none => e.search (pos + 1) cs

/-- `(*Regexp).FindStringSubmatch`: the sub-matches of the leftmost match, or
`none` (the nil slice) when the text has no match. -/
def Regexp.FindStringSubmatch (e : Regexp) (s : Str) : Option Caps := e.search 0 s

/-- `(*Regexp).MatchString`. -/
def Regexp.MatchString (e : Regexp) (s : Str) : Bool := (e.FindStringSubmatch s).isSome

/-- The pattern `-{1,2}`, which is `--?`. -/
def reHyphens : Re := .seq (.chr '-') (.opt (.chr '-'))

/-- The common start `(-{1,2}([\w\d\-]+))` of the six patterns. -/
def reFlag : Re := .grp 1 (.seq reHyphens (.grp 2 (.plus clsFlag)))

/-- `--quiet`: the pattern `^(-{1,2}([\w\d\-]+))$`. -/
def expCmdSimple : Regexp :=
  ⟨.seq .bol (.seq reFlag .eol), 2⟩

/-- `--strategy=<strategy>`: the pattern `^(-{1,2}([\w\d\-]+))=<([\w\d\- ]+)>$`. -/
def expCmdEqualNoOptional : Regexp :=
  ⟨.seq .bol (.seq reFlag (.seq (.chr '=') (.seq (.chr '<')
    (.seq (.grp 3 (.plus clsNameSpace)) (.seq (.chr '>') .eol))))), 3⟩

/-- `--no-recurse-submodules[=yes|on-demand|no]`: the pattern
`^(-{1,2}([\w\d\-]+))\[=[\w\d\-()|]+]$`. -/
def expCmdEqualOptionalWithoutName : Regexp :=
  ⟨.seq .bol (.seq reFlag (.seq (.chr '[') (.seq (.chr '=')
    (.seq (.plus clsChoice) (.seq (.chr ']') .eol))))), 2⟩

/-- `--recurse-submodules-default=[yes|on-demand]`, `--sign=(true|false|if-asked)`:
the pattern `^(-{1,2}([\w\d\-]+))=[\[(][\w\d\-|()]+[])]$`. -/
def expCmdEqualWithoutName : Regexp :=
  ⟨.seq .bol (.seq reFlag (.seq (.chr '=') (.seq (.cls clsOpen)
    (.seq (.plus clsChoice) (.seq (.cls clsClose) .eol))))), 2⟩

/-- `--log[=<n>]`: the pattern `^(-{1,2}([\w\d\-]+))\[=<([\w\d\-)]+)>]$`. -/
def expCmdEqualOptionalWithName : Regexp :=
  ⟨.seq .bol (.seq reFlag (.seq (.chr '[') (.seq (.chr '=') (.seq (.chr '<')
    (.seq (.grp 3 (.plus clsNameParen)) (.seq (.chr '>') (.seq (.chr ']') .eol))))))), 3⟩

/-- `--foo <bar>`: the pattern `^(-{1,2}([\w\d\-]+)) ?<([\w\d\-)]+)>$`. -/
def expCmdWithParameter : Regexp :=
  ⟨.seq .bol (.seq reFlag (.seq (.opt (.chr ' ')) (.seq (.chr '<')
    (.seq (.grp 3 (.plus clsNameParen)) (.seq (.chr '>') .eol))))), 3⟩

/-! ## Name derivation -/

/-- The Unicode case tables of Go outside ASCII (`unicode.ToUpper` and
`unicode.ToLower` on a rune above U+007F). -/
structure CaseTables where
  upper : Char → Char
  lower : Char → Char

/-- Case tables that leave every rune above U+007F alone; they agree with Go
on ASCII text and serve to evaluate the code on such text. -/
def CaseTables.ascii : CaseTables := ⟨id, id⟩

/-- `unicode.ToUpper`: on ASCII, `a`..`z` move down by 32. -/
def toUpperRune (tb : CaseTables) (c : Char) : Char :=
  if c.toNat < 128 then
    if 97 ≤ c.toNat ∧ c.toNat ≤ 122 then Char.ofNat (c.toNat - 32) else c
  else tb.upper c

/-- `unicode.ToLower`: on ASCII, `A`..`Z` move up by 32. -/
def toLowerRune (tb : CaseTables) (c : Char) : Char :=
  if c.toNat < 128 then
    if 65 ≤ c.toNat ∧ c.toNat ≤ 90 then Char.ofNat (c.toNat + 32) else c
  else tb.lower c

/-- `strings.ToLower`. -/
def toLower (tb : CaseTables) (s : Str) : Str := s.map (toLowerRune tb)

/-- `unicode.IsSpace`: the White_Space property. -/
def isSpace (c : Char) : Bool :=
  decide (9 ≤ c.toNat ∧ c.toNat ≤ 13) || decide (c.toNat = 32) || decide (c.toNat = 133) ||
    decide (c.toNat = 160) || decide (c.toNat = 5760) ||
    decide (8192 ≤ c.toNat ∧ c.toNat ≤ 8202) || decide (c.toNat = 8232) ||
    decide (c.toNat = 8233) || decide (c.toNat = 8239) || decide (c.toNat = 8287) ||
    decide (c.toNat = 12288)

/-- `strings.TrimSpace`: the white space at both ends removed. -/
def trimSpace (s : Str) : Str :=
  ((s.dropWhile isSpace).reverse.dropWhile isSpace).reverse

/-- `strings.Replace(s, " ", "-", -1)`: every space becomes a hyphen. -/
def replaceSpaces (s : Str) : Str := s.map (fun c => if c = ' ' then '-' else c)

/-- The loop of `toGoName` over the runes of `kebabTrim`: `i` tells whether the
rune is the first one (the Go index is a byte offset, zero for the first rune
only), `isToUpper` and `camelCase` are the variables of the source. -/
def toGoNameLoop (tb : CaseTables) (upperFirst : Bool) :
    Nat → Bool → Str → List Char → Str
  | _, _, camelCase, [] => camelCase
  | i, isToUpper, camelCase, runeValue :: rest =>
    if i = 0 ∧ upperFirst = true then
      toGoNameLoop tb upperFirst (i + 1) isToUpper (camelCase ++ [toUpperRune tb runeValue]) rest
    else if isToUpper = true then
      toGoNameLoop tb upperFirst (i + 1) false (camelCase ++ [toUpperRune tb runeValue]) rest
    else if runeValue = '-' then
      toGoNameLoop tb upperFirst (i + 1) true camelCase rest
    else
      toGoNameLoop tb upperFirst (i + 1) isToUpper (camelCase ++ [runeValue]) rest

/-- `func toGoName(kebab string, upperFirst bool) string`. -/
def toGoName (tb : CaseTables) (kebab : Str) (upperFirst : Bool) : Str :=
  toGoNameLoop tb upperFirst 0 false [] (replaceSpaces (trimSpace kebab))

/-- The pieces of `strings.Split(s, "\n")` from a piece `cur` already begun. -/
def splitLinesFrom : Str → List Char → List Str
  | cur, [] => [cur]
  | cur, c :: cs => if c = '\n' then cur :: splitLinesFrom [] cs else splitLinesFrom (cur ++ [c]) cs

/-- `strings.Split(s, "\n")`. -/
def splitLines (s : Str) : List Str := splitLinesFrom [] s

/-! ## Builders of the classified flags -/

/-- `func newMeta(rawMethodName, rawArg, cmd, cmdType, description, arguments string) CmdMeta`. -/
def newMeta (tb : CaseTables) (rawMethodName rawArg cmd cmdType description arguments : Str) :
    CmdMeta :=
  let method := toGoName tb rawMethodName true
  let arg : Str :=
    if rawArg.length ≠ 0 then
      if toLower tb method = toLower tb (toGoName tb rawArg false) then "value".toList
      else toGoName tb rawArg false
    else []
  { CmdType := cmdType
    Method := method
    Argument := arg
    Cmd := cmd
    Comments := splitLines description
    CmdComment := arguments }

/-- `func methodName(raw string, jsonCmdModel JSONCmdModel) string`. -/
def methodName (raw : Str) (jsonCmdModel : JSONCmdModel) : Str :=
  if jsonCmdModel.MethodName.length = 0 then raw else jsonCmdModel.MethodName

/-- `func newMetaCmd(regexp, jsonCmdModel, builder) CmdMeta`; the builder fails
where the Go builder would index its slice out of range. -/
def newMetaCmd (regexp : Regexp) (jsonCmdModel : JSONCmdModel)
    (builder : List Str → Option CmdMeta) : Option CmdMeta :=
  builder ((regexp.FindStringSubmatch jsonCmdModel.Argument).getD [])

/-- `func newMetaCmdSimple(jsonCmdModel JSONCmdModel) CmdMeta`. -/
def newMetaCmdSimple (tb : CaseTables) (jsonCmdModel : JSONCmdModel) : Option CmdMeta :=
  newMetaCmd expCmdSimple jsonCmdModel fun subMatch => do
    let m2 ← subMatch[2]?
    let m1 ← subMatch[1]?
    pure (newMeta tb (methodName m2 jsonCmdModel) [] m1 "SIMPLE".toList
      jsonCmdModel.Description jsonCmdModel.Arguments)

/-- `func newMetaCmdEqualNoOptional(jsonCmdModel JSONCmdModel) CmdMeta`. -/
def newMetaCmdEqualNoOptional (tb : CaseTables) (jsonCmdModel : JSONCmdModel) : Option CmdMeta :=
  newMetaCmd expCmdEqualNoOptional jsonCmdModel fun subMatch => do
    let m2 ← subMatch[2]?
    let m3 ← subMatch[3]?
    let m1 ← subMatch[1]?
    pure (newMeta tb (methodName m2 jsonCmdModel) m3 m1 "EQUAL_NO_OPTIONAL".toList
      jsonCmdModel.Description jsonCmdModel.Arguments)

/-- `func newMetaCmdEqualOptionalWithoutName(jsonCmdModel JSONCmdModel) CmdMeta`. -/
def newMetaCmdEqualOptionalWithoutName (tb : CaseTables) (jsonCmdModel : JSONCmdModel) :
    Option CmdMeta :=
  newMetaCmd expCmdEqualOptionalWithoutName jsonCmdModel fun subMatch => do
    let m2 ← subMatch[2]?
    let m1 ← subMatch[1]?
    pure (newMeta tb (methodName m2 jsonCmdModel) "value".toList m1
      "EQUAL_OPTIONAL_WITHOUT_NAME".toList jsonCmdModel.Description jsonCmdModel.Arguments)

/-- `func newMetaCmdEqualWithoutName(jsonCmdModel JSONCmdModel) CmdMeta`. -/
def newMetaCmdEqualWithoutName (tb : CaseTables) (jsonCmdModel : JSONCmdModel) : Option CmdMeta :=
  newMetaCmd expCmdEqualWithoutName jsonCmdModel fun subMatch => do
    let m2 ← subMatch[2]?
    let m1 ← subMatch[1]?
    pure (newMeta tb (methodName m2 jsonCmdModel) "value".toList m1
      "EQUAL_WITHOUT_NAME".toList jsonCmdModel.Description jsonCmdModel.Arguments)

/-- `func newMetaCmdEqualOptionalWithName(jsonCmdModel JSONCmdModel) CmdMeta`. -/
def newMetaCmdEqualOptionalWithName (tb : CaseTables) (jsonCmdModel : JSONCmdModel) :
    Option CmdMeta :=
  newMetaCmd expCmdEqualOptionalWithName jsonCmdModel fun subMatch => do
    let m2 ← subMatch[2]?
    let m3 ← subMatch[3]?
    let m1 ← subMatch[1]?
    pure (newMeta tb (methodName m2 jsonCmdModel) m3 m1 "EQUAL_OPTIONAL_WITH_NAME".toList
      jsonCmdModel.Description jsonCmdModel.Arguments)

/-- `func newMetaCmdWithParameter(jsonCmdModel JSONCmdModel) CmdMeta`. -/
def newMetaCmdWithParameter (tb : CaseTables) (jsonCmdModel : JSONCmdModel) : Option CmdMeta :=
  newMetaCmd expCmdWithParameter jsonCmdModel fun subMatch => do
    let m2 ← subMatch[2]?
    let m3 ← subMatch[3]?
    let m1 ← subMatch[1]?
    pure (newMeta tb (methodName m2 jsonCmdModel) m3 m1 "WITH_PARAMETER".toList
      jsonCmdModel.Description jsonCmdModel.Arguments)

/-! ## The classification loop -/

/-- `func (r ByMethodName) Less(i, j int) bool`, on the two entries compared. -/
def ByMethodName.Less (x y : CmdMeta) : Bool := decide (x.Method < y.Method)

/-- The algorithm of `sort.Sort`, of which the standard library promises only
that the result is a rearrangement of the slice in which no entry is `Less`
than an earlier one (the sort need not be stable). -/
structure SortImpl where
  sort : List CmdMeta → List CmdMeta
  perm : ∀ l, List.Perm (sort l) l
  ordered : ∀ l, List.Pairwise (fun x y => ByMethodName.Less y x = false) (sort l)

/-- The body of the loop of `jsonCmdModelToCmdMetas`: the six checks in the
order of the source, the first pattern that matches builds the entry; a record
that matches none is logged and leaves `metas` as it is. -/
def classifyInto (tb : CaseTables) (metas : List CmdMeta) (jsonCmdModel : JSONCmdModel) :
    Option (List CmdMeta) :=
  if expCmdSimple.MatchString jsonCmdModel.Argument then
    (newMetaCmdSimple tb jsonCmdModel).map fun m => metas ++ [m]
  else if expCmdEqualNoOptional.MatchString jsonCmdModel.Argument then
    (newMetaCmdEqualNoOptional tb jsonCmdModel).map fun m => metas ++ [m]
  else if expCmdEqualOptionalWithoutName.MatchString jsonCmdModel.Argument then
    (newMetaCmdEqualOptionalWithoutName tb jsonCmdModel).map fun m => metas ++ [m]
  else if expCmdEqualWithoutName.MatchString jsonCmdModel.Argument then
    (newMetaCmdEqualWithoutName tb jsonCmdModel).map fun m => metas ++ [m]
  else if expCmdEqualOptionalWithName.MatchString jsonCmdModel.Argument then
    (newMetaCmdEqualOptionalWithName tb jsonCmdModel).map fun m => metas ++ [m]
  else if expCmdWithParameter.MatchString jsonCmdModel.Argument then
    (newMetaCmdWithParameter tb jsonCmdModel).map fun m => metas ++ [m]
  else some metas

/-- The loop of `jsonCmdModelToCmdMetas` from the slice `metas` built so far. -/
def classifyAll (tb : CaseTables) : List CmdMeta → List JSONCmdModel → Option (List CmdMeta)
  | metas, [] => some metas
  | metas, jsonCmdModel :: rest =>
    match classifyInto tb metas jsonCmdModel with
    | none => none
    | some metas1 => classifyAll tb metas1 rest

/-- `func jsonCmdModelToCmdMetas(jsonCmdModels []JSONCmdModel) []CmdMeta`. -/
def jsonCmdModelToCmdMetas (tb : CaseTables) (srt : SortImpl)
    (jsonCmdModels : List JSONCmdModel) : Option (List CmdMeta) :=
  (classifyAll tb [] jsonCmdModels).map srt.sort

/-! ## The rest of the generator: imports, table, main loop -/

/-- `func hasImportFMT(jsonCmdModels []JSONCmdModel) bool`. -/
def hasImportFMT : List JSONCmdModel → Bool
  | [] => false
  | jsonCmdModel :: rest =>
    if expCmdEqualNoOptional.MatchString jsonCmdModel.Argument ||
        expCmdEqualOptionalWithoutName.MatchString jsonCmdModel.Argument ||
        expCmdEqualWithoutName.MatchString jsonCmdModel.Argument ||
        expCmdEqualOptionalWithName.MatchString jsonCmdModel.Argument then true
    else hasImportFMT rest

/-- One subcommand record of the table: `type JSONModel struct`. -/
structure JSONModel where
  CommandName : Str
  Enabled : Bool
  Options : List JSONCmdModel
deriving DecidableEq, Repr

/-- What the file template is executed on: `type GenCmdModel struct`. -/
structure GenCmdModel where
  Name : Str
  ImportFMT : Bool
  Metas : List CmdMeta
deriving DecidableEq, Repr

/-- `func newGenCmdModel(jsonModel JSONModel) GenCmdModel`. -/
def newGenCmdModel (tb : CaseTables) (srt : SortImpl) (jsonModel : JSONModel) :
    Option GenCmdModel :=
  (jsonCmdModelToCmdMetas tb srt jsonModel.Options).map fun metas =>
    { Name := jsonModel.CommandName
      Metas := metas
      ImportFMT := hasImportFMT jsonModel.Options }

/-- What `main` meets outside the repository: the execution of the file template
by `text/template` inside `generateFileContent`, which gives the text of the
file (an error is `none`), and `ioutil.WriteFile`, which is told the writes
made before and answers whether the write succeeds. -/
structure Outside where
  execute : GenCmdModel → Option Str
  writeFile : List (Str × Str) → Str → Str → Bool

/-- `func generateFileContent(model GenCmdModel) (string, error)`. -/
def generateFileContent (out : Outside) (model : GenCmdModel) : Option Str := out.execute model

/-- The path `fmt.Sprintf("../%[1]s/%[1]s_gen.go", jsonModel.CommandName)`. -/
def genFilePath (commandName : Str) : Str :=
  "../".toList ++ commandName ++ "/".toList ++ commandName ++ "_gen.go".toList

/-- The loop of `main` over the table, after the writes `done`: the calls of
`ioutil.WriteFile` (path and data) in the order they are made.  `log.Fatal`
(an error of the template or of a write) and a panic end the run. -/
def mainLoop (tb : CaseTables) (srt : SortImpl) (out : Outside) :
    List (Str × Str) → List JSONModel → List (Str × Str)
  | done, [] => done
  | done, jsonModel :: rest =>
    if jsonModel.CommandName.length ≠ 0 ∧ jsonModel.Enabled = true then
      match newGenCmdModel tb srt jsonModel with
      | none => done
      | some cmdModel =>
        match generateFileContent out cmdModel with
        | none => done
        | some data =>
          if out.writeFile done (genFilePath jsonModel.CommandName) data then
            mainLoop tb srt out (done ++ [(genFilePath jsonModel.CommandName, data)]) rest
          else done ++ [(genFilePath jsonModel.CommandName, data)]
    else mainLoop tb srt out done rest

/-! ## The generated code

The templates are Go source text with holes for `Name`, `Comments`,
`CmdComment`, `Method`, `Argument` and `Cmd`.  They are kept here as the syntax
of what they render (the package clause, the imports, and for each flag the
comment lines and the function below them), with a meaning for that small
fragment of Go: whether a text written after `// ` stays a comment, which
object each identifier of a body denotes, whether a body is well typed, whether
the file compiles, and what a function does to the accumulator of options. -/

/-- The accumulator of command options that the generated functions receive
(`*types.Cmd`; the package `types` is outside the sources at hand).  The
generated code uses its method `AddOptions`, which adds one option token;
`text` is what the verb `%s` of `fmt` prints for the accumulator itself. -/
structure Accumulator (σ : Type) where
  AddOptions : σ → Str → σ
  Options : σ → List Str
  append : ∀ g option, Options (AddOptions g option) = Options g ++ [option]
  text : σ → Str

/-- An operand of a generated body, as written. -/
inductive GoExpr where
  /-- The string literal `"text"`. -/
  | lit (text : Str) : GoExpr
  /-- The identifier `name`. -/
  | ident (name : Str) : GoExpr
  /-- The call `fmt.Sprintf(format, arg)`. -/
  | sprintf (format arg : GoExpr) : GoExpr

/-- A statement of a generated body, as written. -/
inductive GoStmt where
  /-- The call `g.AddOptions(arg)`. -/
  | addOptions (arg : GoExpr) : GoStmt
  /-- The statement `if len(x) == 0 { thn } else { els }`. -/
  | ifLenZero (x : GoExpr) (thn els : GoStmt) : GoStmt

/-- A generated function with the comment lines above it.  Each element of
`comments` is a text that stands after `// ` on a line of its own.  Without
parameter name the function is `func name(g *types.Cmd) { body }`; with the
parameter name `p` it is
`func name(p string) func(*types.Cmd) { return func(g *types.Cmd) { body } }`. -/
structure GoFunc where
  comments : List Str
  name : Str
  param : Option Str
  body : List GoStmt

/-- Where the Go scanner stands in a text written after `// `. -/
inductive CommentState where
  /-- Inside a line comment. -/
  | comment
  /-- At the start of a line, after blanks only. -/
  | lineStart
  /-- After one `/` at the start of a line. -/
  | slash
  /-- After `//` at the start of a line. -/
  | slashes
deriving DecidableEq, Repr

/-- A text written after `// ` at the top level of a Go file, up to the end of
the text (the template goes to a new line after it): whether all of it is
comment and blank lines.  A line comment ends at a line break, so what follows
a line break in the text is source text of its own; it is kept when it is a
blank line or a line comment that begins with `// ` or is `//` alone, and
anything else is left out (`false`).  The Go compiler refuses the NUL
character and a byte order mark anywhere, also in a comment. -/
def commentScan : CommentState → List Char → Bool
  | st, [] => decide (st ≠ .slash)
  | st, c :: rest =>
    if c.toNat = 0 ∨ c.toNat = 65279 then false
    else match st with
      | .comment => commentScan (if c = '\n' then .lineStart else .comment) rest
      | .lineStart =>
        if c = ' ' ∨ c = '\t' ∨ c = '\n' then commentScan .lineStart rest
        else if c = '/' then commentScan .slash rest
        else false
      | .slash => if c = '/' then commentScan .slashes rest else false
      | .slashes =>
        if c = ' ' then commentScan .comment rest
        else if c = '\n' then commentScan .lineStart rest
        else false

/-- The text, written after `// `, stays a comment. -/
def commentText (t : Str) : Bool := commentScan .comment t

/-- What an identifier denotes. -/
inductive Denot where
  | accumulator | value | fmtPackage | typesPackage | lenBuiltin | unknown
deriving DecidableEq, Repr

/-- The scopes around a generated body, the innermost first: the parameter `g`
of the function that receives the accumulator, then the parameter of the
function around it (if it has one), then the imported packages and the
built-in `len`. -/
def resolve (param : Option Str) (name : Str) : Denot :=
  if name = "g".toList then .accumulator
  else if param = some name then .value
  else if name = "fmt".toList then .fmtPackage
  else if name = "types".toList then .typesPackage
  else if name = "len".toList then .lenBuiltin
  else .unknown

/-- The keywords of Go. -/
def goKeywords : List Str :=
  ["break", "default", "func", "interface", "select", "case", "defer", "go", "map", "struct",
    "chan", "else", "goto", "package", "switch", "const", "fallthrough", "if", "range", "type",
    "continue", "for", "import", "return", "var"].map String.toList

/-- The letters and the digits of Unicode outside ASCII (`unicode.IsLetter` and
`unicode.IsDigit` on a rune above U+007F), by which the Go scanner reads an
identifier. -/
structure LetterTables where
  letter : Char → Bool
  digit : Char → Bool

/-- Tables without a letter or digit above U+007F; they agree with Go on ASCII
text and serve to evaluate the generated code on such text. -/
def LetterTables.ascii : LetterTables := ⟨fun _ => false, fun _ => false⟩

/-- A letter of a Go identifier: a Unicode letter or the underscore. -/
def isLetter (u : LetterTables) (c : Char) : Bool :=
  if c.toNat < 128 then isWord c && !isDigit c else u.letter c

/-- A digit of a Go identifier. -/
def isUnicodeDigit (u : LetterTables) (c : Char) : Bool :=
  if c.toNat < 128 then isDigit c else u.digit c

/-- An identifier of Go that can name a function or a parameter and be used as
an operand: a letter, then letters and digits; not a keyword and not the blank
identifier. -/
def isIdentifier (u : LetterTables) (s : Str) : Bool :=
  match s with
  | [] => false
  | c :: cs =>
    isLetter u c && cs.all (fun d => isLetter u d || isUnicodeDigit u d) &&
      !goKeywords.contains s && !(s == "_".toList)

/-- The two types of the operands. -/
inductive GoType where
  | string | cmdPointer
deriving DecidableEq, Repr

/-- The type of an operand, if it has one.  A string literal is taken as
written, so it must hold no quote, backslash or newline. -/
def GoExpr.typeOf (param : Option Str) : GoExpr → Option GoType
  | .lit text =>
    if text.any (fun c => c == '"' || c == '\\' || c == '\n') then none else some .string
  | .ident name =>
    match resolve param name with
    | .accumulator => some .cmdPointer
    | .value => some .string
    | _ => none
  | .sprintf format arg =>
    if resolve param "fmt".toList = .fmtPackage ∧ format.typeOf param = some .string ∧
        (arg.typeOf param).isSome = true then some .string
    else none

/-- The body compiles: `AddOptions` takes a string, `len` is the built-in and
is applied to a string, and both branches of a conditional compile. -/
def GoStmt.wellTyped (param : Option Str) : GoStmt → Bool
  | .addOptions arg => decide (arg.typeOf param = some .string)
  | .ifLenZero x thn els =>
    decide (resolve param "len".toList = .lenBuiltin) && decide (x.typeOf param = some .string) &&
      thn.wellTyped param && els.wellTyped param

/-- `fmt.Sprintf(format, arg)` for a format with the verbs `%s` and `%%` only
and exactly one `%s`; `used` tells whether the argument is consumed.  Other
formats are left out (`none`). -/
def sprintfText (arg : Str) : Bool → List Char → Option Str
  | used, [] => if used then some [] else none
  | used, [c] => if c = '%' then none else if used then some [c] else none
  | used, c :: d :: rest =>
    if c = '%' then
      if d = 's' then
        if used then none else (sprintfText arg true rest).map (fun t => arg ++ t)
      else if d = '%' then (sprintfText arg used rest).map (fun t => '%' :: t)
      else none
    else (sprintfText arg used (d :: rest)).map (fun t => c :: t)

/-- The text of an operand when the function is called with the value `v` on
the accumulator `g`. -/
def GoExpr.text {σ : Type} (A : Accumulator σ) (param : Option Str) (v : Str) (g : σ) :
    GoExpr → Option Str
  | .lit text => some text
  | .ident name =>
    match resolve param name with
    | .accumulator => some (A.text g)
    | _ => some v
  | .sprintf format arg =>
    match format.text A param v g, arg.text A param v g with
    | some f, some a => sprintfText a false f
    | _, _ => none

/-- The effect of a statement on the accumulator. -/
def GoStmt.exec {σ : Type} (A : Accumulator σ) (param : Option Str) (v : Str) :
    GoStmt → σ → Option σ
  | .addOptions arg, g => (arg.text A param v g).map (fun s => A.AddOptions g s)
  | .ifLenZero x thn els, g =>
    match x.text A param v g with
    | some s => if s.length = 0 then thn.exec A param v g else els.exec A param v g
    | none => none

/-- The statements of a body one after the other. -/
def execAll {σ : Type} (A : Accumulator σ) (param : Option Str) (v : Str) :
    List GoStmt → σ → Option σ
  | [], g => some g
  | s :: rest, g =>
    match s.exec A param v g with
    | some g1 => execAll A param v rest g1
    | none => none

/-- The names of the function and of its parameter are identifiers, and the
parameter does not hide the package `types` of the signature inside. -/
def GoFunc.namesOK (u : LetterTables) (f : GoFunc) : Bool :=
  isIdentifier u f.name &&
    (match f.param with
     | none => true
     | some p => isIdentifier u p && decide (resolve (some p) "types".toList = .typesPackage))

/-- The function compiles, taken by itself in a file that imports `types` and
`fmt`: its comment lines stay comments, its names are in order and its body is
well typed.  The value `false` also stands for a text outside the fragment
kept here. -/
def GoFunc.compiles (u : LetterTables) (f : GoFunc) : Bool :=
  f.comments.all commentText && f.namesOK u && f.body.all (GoStmt.wellTyped f.param)

/-- An operand calls `fmt.Sprintf`. -/
def GoExpr.usesFmt : GoExpr → Bool
  | .lit _ => false
  | .ident _ => false
  | .sprintf _ _ => true

/-- A statement calls `fmt.Sprintf`. -/
def GoStmt.usesFmt : GoStmt → Bool
  | .addOptions arg => arg.usesFmt
  | .ifLenZero x thn els => x.usesFmt || thn.usesFmt || els.usesFmt

/-- The body of the function calls `fmt.Sprintf`. -/
def GoFunc.usesFmt (f : GoFunc) : Bool := f.body.any GoStmt.usesFmt

/-- A generated file: the name in the package clause, whether `fmt` is imported
next to `types`, and the functions in the order of the file. -/
structure GoFile where
  packageName : Str
  importFMT : Bool
  funcs : List GoFunc

/-- The file compiles, taken by itself with the two packages it imports: the
package name is an identifier; the import of `types` is used, which every
function does and nothing else; `fmt` is imported if and only if a function
calls `fmt.Sprintf`; every function compiles; and no two functions have the
same name.  That a function is not called `init`, `fmt` or `types` is not
looked at: a method name begins with an upper-cased character. -/
def GoFile.compiles (u : LetterTables) (file : GoFile) : Bool :=
  isIdentifier u file.packageName && !file.funcs.isEmpty &&
    (file.importFMT == file.funcs.any GoFunc.usesFmt) &&
    file.funcs.all (GoFunc.compiles u) &&
    decide ((file.funcs.map GoFunc.name).Nodup)

/-- The function `name` of the generated file applied to the value `v` (which a
function without parameter ignores) and then to the accumulator `g`.  The
result is `none` when the file does not compile or is outside the fragment
kept here, or has no such function. -/
def GoFile.call {σ : Type} (A : Accumulator σ) (u : LetterTables) (file : GoFile) (name : Str)
    (v : Str) (g : σ) : Option σ :=
  if file.compiles u = true then
    match file.funcs.find? (fun f => f.name == name) with
    | some f => execAll A f.param v f.body g
    | none => none
  else none

/-- The lines `// {{if eq $index 0 }}{{ $.Method }} {{end}}{{ $element }} ` that
`{{- range $index, $element := .Comments}}` writes at the head of each of the
four templates, as the texts after `// `, from the index `index` on. -/
def commentLines (method : Str) : Nat → List Str → List Str
  | _, [] => []
  | index, element :: rest =>
    ((if index = 0 then method ++ " ".toList else []) ++ element ++ " ".toList) ::
      commentLines method (index + 1) rest

/-- The comment lines that each of the four templates writes above the
function, as the texts after `// `: those of `Comments`, then the line
`// {{ .CmdComment }}`. -/
def templateComments (m : CmdMeta) : List Str :=
  commentLines m.Method 0 m.Comments ++ [m.CmdComment]

/-- The template `templateCmdSimple`, rendered for a classified flag. -/
def templateCmdSimple (m : CmdMeta) : GoFunc :=
  { comments := templateComments m
    name := m.Method
    param := none
    body := [.addOptions (.lit m.Cmd)] }

/-- The template `templateCmdEqualNoOptional`, rendered for a classified flag. -/
def templateCmdEqualNoOptional (m : CmdMeta) : GoFunc :=
  { comments := templateComments m
    name := m.Method
    param := some m.Argument
    body := [.addOptions (.sprintf (.lit (m.Cmd ++ "=%s".toList)) (.ident m.Argument))] }

/-- The template `templateCmdEqualOptional`, rendered for a classified flag. -/
def templateCmdEqualOptional (m : CmdMeta) : GoFunc :=
  { comments := templateComments m
    name := m.Method
    param := some m.Argument
    body := [.ifLenZero (.ident m.Argument)
      (.addOptions (.lit m.Cmd))
      (.addOptions (.sprintf (.lit (m.Cmd ++ "=%s".toList)) (.ident m.Argument)))] }

/-- The template `templateCmdWithParameter`, rendered for a classified flag. -/
def templateCmdWithParameter (m : CmdMeta) : GoFunc :=
  { comments := templateComments m
    name := m.Method
    param := some m.Argument
    body := [.addOptions (.lit m.Cmd), .addOptions (.ident m.Argument)] }

/-- The choice of the template in the `range .Metas` of `fileTemplate`, by the
type of the classified flag; `none` is the branch that writes ` BUG`. -/
def fileTemplateBranch (m : CmdMeta) : Option GoFunc :=
  if m.CmdType = "SIMPLE".toList then some (templateCmdSimple m)
  else if m.CmdType = "EQUAL_NO_OPTIONAL".toList then some (templateCmdEqualNoOptional m)
  else if m.CmdType = "EQUAL_WITHOUT_NAME".toList then some (templateCmdEqualNoOptional m)
  else if m.CmdType = "EQUAL_OPTIONAL_WITHOUT_NAME".toList then some (templateCmdEqualOptional m)
  else if m.CmdType = "EQUAL_OPTIONAL_WITH_NAME".toList then some (templateCmdEqualOptional m)
  else if m.CmdType = "WITH_PARAMETER".toList then some (templateCmdWithParameter m)
  else none

/-- `func All(g *types.Cmd)` of package `add`. -/
def add.All {σ : Type} (A : Accumulator σ) (g : σ) : σ := A.AddOptions g "--all".toList

/-- `func DryRun(g *types.Cmd)` of package `add`. -/
def add.DryRun {σ : Type} (A : Accumulator σ) (g : σ) : σ := A.AddOptions g "--dry-run".toList

/-- `func Edit(g *types.Cmd)` of package `add`. -/
def add.Edit {σ : Type} (A : Accumulator σ) (g : σ) : σ := A.AddOptions g "--edit".toList

/-- `func Force(g *types.Cmd)` of package `add`. -/
def add.Force {σ : Type} (A : Accumulator σ) (g : σ) : σ := A.AddOptions g "--force".toList

/-- `func IgnoreErrors(g *types.Cmd)` of package `add`. -/
def add.IgnoreErrors {σ : Type} (A : Accumulator σ) (g : σ) : σ := A.AddOptions g "--ignore-errors".toList

/-- `func IgnoreMissing(g *types.Cmd)` of package `add`. -/
def add.IgnoreMissing {σ : Type} (A : Accumulator σ) (g : σ) : σ := A.AddOptions g "--ignore-missing".toList

/-- `func IntentToAdd(g *types.Cmd)` of package `add`. -/
def add.IntentToAdd {σ : Type} (A : Accumulator σ) (g : σ) : σ := A.AddOptions g "--intent-to-add".toList

/-- `func Interactive(g *types.Cmd)` of package `add`. -/
def add.Interactive {σ : Type} (A : Accumulator σ) (g : σ) : σ := A.AddOptions g "--interactive".toList

/-- `func NoAll(g *types.Cmd)` of package `add`. -/
def add.NoAll {σ : Type} (A : Accumulator σ) (g : σ) : σ := A.AddOptions g "--no-all".toList

/-- `func Patch(g *types.Cmd)` of package `add`. -/
def add.Patch {σ : Type} (A : Accumulator σ) (g : σ) : σ := A.AddOptions g "--patch".toList

/-- `func Refresh(g *types.Cmd)` of package `add`. -/
def add.Refresh {σ : Type} (A : Accumulator σ) (g : σ) : σ := A.AddOptions g "--refresh".toList

/-- `func Update(g *types.Cmd)` of package `add`. -/
def add.Update {σ : Type} (A : Accumulator σ) (g : σ) : σ := A.AddOptions g "--update".toList

/-- `func Verbose(g *types.Cmd)` of package `add`. -/
def add.Verbose {σ : Type} (A : Accumulator σ) (g : σ) : σ := A.AddOptions g "--verbose".toList

/-- The functions of `add/add_gen.go` in the order of the file: the name of each
and the token it passes to `AddOptions`. -/
def addGen : List (Str × Str) :=
  [("All".toList, "--all".toList),
   ("DryRun".toList, "--dry-run".toList),
   ("Edit".toList, "--edit".toList),
   ("Force".toList, "--force".toList),
   ("IgnoreErrors".toList, "--ignore-errors".toList),
   ("IgnoreMissing".toList, "--ignore-missing".toList),
   ("IntentToAdd".toList, "--intent-to-add".toList),
   ("Interactive".toList, "--interactive".toList),
   ("NoAll".toList, "--no-all".toList),
   ("Patch".toList, "--patch".toList),
   ("Refresh".toList, "--refresh".toList),
   ("Update".toList, "--update".toList),
   ("Verbose".toList, "--verbose".toList)]

/-! ## Definitions for the statements

What the theorems below say about the code is written with these: the parts
of a raw syntax (its flag token and what follows it), the forms of the six
shapes, the texts of the claims, and a sort to evaluate the code with. -/

/-- A continuation whose failure does not depend on the sub-matches found. -/
def capsFree (k : Cont) : Prop :=
  ∀ pos inp c1 c2, k pos inp c1 = none → k pos inp c2 = none

/-- Group 2 of a flag token: what follows the hyphens taken by `-{1,2}`, which
takes two of them whenever a character is left for the group. -/
def flagBody : Str → Str
  | '-' :: '-' :: c :: b => c :: b
  | _ :: b => b
  | [] => []

/-- The flag token of a raw syntax: its longest prefix in the class `[\w\d\-]`. -/
def flagToken (s : Str) : Str := s.takeWhile clsFlag

/-- What follows the flag token in a raw syntax. -/
def flagRest (s : Str) : Str := s.dropWhile clsFlag

/-- The prefix taken as flag token begins with a hyphen and holds a character more. -/
def flagTokenOK (s : Str) : Prop := (flagToken s).head? = some '-' ∧ 2 ≤ (flagToken s).length

instance (s : Str) : Decidable (flagTokenOK s) := by unfold flagTokenOK; infer_instance

/-- The placeholder of `=<name>`, when the rest of the syntax has that form. -/
def restEqualNoOptional : List Char → Option Str
  | a :: b :: r =>
    if a = '=' ∧ b = '<' ∧ r.takeWhile clsNameSpace ≠ [] ∧ r.dropWhile clsNameSpace = ['>'] then
      some (r.takeWhile clsNameSpace)
    else none
  | _ => none

/-- The texts `w c` with `w` a non-empty run of the class `p` and `c` in the
class `q`; the two classes may overlap. -/
def plusThenClose (p q : Char → Bool) : List Char → Bool
  | [] => false
  | a :: rest =>
    p a && (plusThenClose p q rest ||
      (match rest with
       | [b] => q b
       | _ => false))

/-- The placeholder of `[=<name>]`, when the rest of the syntax has that form. -/
def restEqualOptionalWithName : List Char → Option Str
  | a :: b :: c :: r =>
    if a = '[' ∧ b = '=' ∧ c = '<' ∧ r.takeWhile clsNameParen ≠ [] ∧
        r.dropWhile clsNameParen = ['>', ']'] then
      some (r.takeWhile clsNameParen)
    else none
  | _ => none

/-- The rest of the syntax has the form `[=choices]`. -/
def restEqualOptionalWithoutName : List Char → Bool
  | a :: b :: r =>
    decide (a = '[' ∧ b = '=' ∧ r.takeWhile clsChoice ≠ [] ∧ r.dropWhile clsChoice = [']'])
  | _ => false

/-- The rest of the syntax has the form `=(choices)`, with either bracket at
either end. -/
def restEqualWithoutName : List Char → Bool
  | a :: b :: r => decide (a = '=') && clsOpen b && plusThenClose clsChoice clsClose r
  | _ => false

/-- The placeholder of `<name>`, when the text has that form. -/
def restParameter : List Char → Option Str
  | b :: r =>
    if b = '<' ∧ r.takeWhile clsNameParen ≠ [] ∧ r.dropWhile clsNameParen = ['>'] then
      some (r.takeWhile clsNameParen)
    else none
  | [] => none

/-- The placeholder of ` <name>` or `<name>`, when the rest of the syntax has
that form. -/
def restWithParameter : List Char → Option Str
  | a :: r => if a = ' ' then restParameter r else restParameter (a :: r)
  | [] => none

/-- The characters `[A-Za-z0-9_-]` of flag tokens and placeholders. -/
def nameChar (c : Char) : Bool :=
  decide (65 ≤ c.toNat ∧ c.toNat ≤ 90) || decide (97 ≤ c.toNat ∧ c.toNat ≤ 122) ||
    decide (48 ≤ c.toNat ∧ c.toNat ≤ 57) || decide (c = '_') || decide (c = '-')

/-- The characters `[A-Za-z0-9_-|()]` of a choice text. -/
def choiceChar (c : Char) : Bool :=
  nameChar c || decide (c = '|') || decide (c = '(') || decide (c = ')')

/-- A flag token: one or two hyphens followed by one or more characters of
`[A-Za-z0-9_-]`. -/
def FlagTokenText (t : Str) : Prop :=
  ∃ b : Str, b ≠ [] ∧ b.all nameChar = true ∧ (t = '-' :: b ∨ t = '-' :: '-' :: b)

/-- The sort of the witnesses: insertion sort by `Method`, which is also what
`sort.Sort` runs on a short slice. -/
def insertionSortImpl : SortImpl where
  sort := List.insertionSort (fun x y : CmdMeta => x.Method ≤ y.Method)
  perm := List.perm_insertionSort _
  ordered := by
    intro l
    haveI : IsTotal CmdMeta (fun x y : CmdMeta => x.Method ≤ y.Method) :=
      ⟨fun a b => le_total a.Method b.Method⟩
    haveI : IsTrans CmdMeta (fun x y : CmdMeta => x.Method ≤ y.Method) :=
      ⟨fun a b c h1 h2 => le_trans h1 h2⟩
    have h := List.sorted_insertionSort (fun x y : CmdMeta => x.Method ≤ y.Method) l
    refine List.Pairwise.imp ?_ h
    intro a b hab
    simp [ByMethodName.Less, hab]

/-- The six checks of `jsonCmdModelToCmdMetas` in the order of the source,
each with the type that its builder gives to the classified flag. -/
def shapes : List (Regexp × Str) :=
  [(expCmdSimple, "SIMPLE".toList),
   (expCmdEqualNoOptional, "EQUAL_NO_OPTIONAL".toList),
   (expCmdEqualOptionalWithoutName, "EQUAL_OPTIONAL_WITHOUT_NAME".toList),
   (expCmdEqualWithoutName, "EQUAL_WITHOUT_NAME".toList),
   (expCmdEqualOptionalWithName, "EQUAL_OPTIONAL_WITH_NAME".toList),
   (expCmdWithParameter, "WITH_PARAMETER".toList)]

/-- The type assigned to a raw syntax when the checks are made in the order
`order`: that of the first pattern that matches. -/
def shapeIn (order : List (Regexp × Str)) (s : Str) : Option Str :=
  (order.find? (fun e => e.1.MatchString s)).map Prod.snd

/-- What follows the flag token tells the six shapes apart: the number of the
only shape that the rest of a raw syntax can belong to (0 when there is none). -/
def shapeKey : List Char → Nat
  | [] => 1
  | a :: r =>
    if a = '<' ∨ a = ' ' then 6
    else if a = '=' then
      match r with
      | b :: _ => if b = '<' then 2 else 4
      | [] => 0
    else if a = '[' then
      match r with
      | _ :: c :: _ => if c = '<' then 5 else 3
      | _ => 0
    else 0

/-- A lowercase ASCII letter. -/
def isLowerLetter (c : Char) : Bool := decide (97 ≤ c.toNat ∧ c.toNat ≤ 122)

/-- The words joined by single hyphens. -/
def joinHyphen : List Str → Str
  | [] => []
  | [w] => w
  | w :: w2 :: ws => w ++ '-' :: joinHyphen (w2 :: ws)

/-- A word with its first letter moved to upper case (32 code points down). -/
def capitalize : Str → Str
  | [] => []
  | c :: cs => Char.ofNat (c.toNat - 32) :: cs

/-- The words one after the other, each with its first letter in upper case. -/
def camelWords : List Str → Str
  | [] => []
  | w :: ws => capitalize w ++ camelWords ws

/-- The words one after the other, each preceded by a hyphen. -/
def hyphenWords : List Str → Str
  | [] => []
  | w :: ws => '-' :: (w ++ hyphenWords ws)

/-- The rule of the specification for `toGoName`, read on the trimmed text in
which the spaces are hyphens: a hyphen is removed, the character that follows
a hyphen is upper-cased, and so is the first character when `upperFirst` is
set; every other character is copied.  `prev` is the character before the
text, if any. -/
def toGoNameRule (tb : CaseTables) (upperFirst : Bool) : Option Char → List Char → Str
  | _, [] => []
  | prev, r :: rest =>
    (if r = '-' then []
      else [if prev = some '-' ∨ (prev = none ∧ upperFirst = true) then toUpperRune tb r else r])
      ++ toGoNameRule tb upperFirst (some r) rest

/-- No two hyphens side by side. -/
def noDoubleHyphen : List Char → Bool
  | a :: b :: r => !(decide (a = '-') && decide (b = '-')) && noDoubleHyphen (b :: r)
  | _ => true

/-- No two hyphens side by side. -/
def NoDoubleHyphen (t : List Char) : Prop := noDoubleHyphen t = true

instance (t : List Char) : Decidable (NoDoubleHyphen t) := by
  unfold NoDoubleHyphen; infer_instance

/-- The classified flag of a record, as the list the loop of
`jsonCmdModelToCmdMetas` appends for it: one entry, or none. -/
def entries (tb : CaseTables) (j : JSONCmdModel) : List CmdMeta :=
  (classifyInto tb [] j).getD []

/-- One of the six patterns matches the raw syntax of the record. -/
def matchesSome (j : JSONCmdModel) : Bool :=
  expCmdSimple.MatchString j.Argument || expCmdEqualNoOptional.MatchString j.Argument ||
    expCmdEqualOptionalWithoutName.MatchString j.Argument ||
    expCmdEqualWithoutName.MatchString j.Argument ||
    expCmdEqualOptionalWithName.MatchString j.Argument ||
    expCmdWithParameter.MatchString j.Argument

/-- The list of the tokens as accumulator, to evaluate the generated code with. -/
def listAccumulator : Accumulator (List Str) where
  AddOptions := fun g option => g ++ [option]
  Options := fun g => g
  append := fun _ _ => rfl
  text := fun _ => "&".toList

/-- The classified flags as the generated file shows them: type, method name
and flag token. -/
def shown (metas : List CmdMeta) : List (Str × Str × Str) :=
  metas.map fun m => (m.CmdType, m.Method, m.Cmd)

/-- The table of `add` as the generated file lets it be read: one record for
each function, with its flag token as raw syntax and no override; `other`
gives the two free texts of the record. -/
def addRecords (other : Str → Str × Str) : List JSONCmdModel :=
  addGen.map fun e => ⟨[], e.2, (other e.2).1, (other e.2).2⟩

/-- The types whose templates call `fmt.Sprintf`. -/
def fmtTypes : List Str :=
  ["EQUAL_NO_OPTIONAL".toList, "EQUAL_OPTIONAL_WITHOUT_NAME".toList, "EQUAL_WITHOUT_NAME".toList,
    "EQUAL_OPTIONAL_WITH_NAME".toList]

/-- The six types that `fileTemplate` handles. -/
def knownTypes : List Str :=
  ["SIMPLE".toList, "EQUAL_NO_OPTIONAL".toList, "EQUAL_WITHOUT_NAME".toList,
    "EQUAL_OPTIONAL_WITHOUT_NAME".toList, "EQUAL_OPTIONAL_WITH_NAME".toList,
    "WITH_PARAMETER".toList]

theorem plusRun_capsFree (p : Char → Bool) (k : Cont) (hk : capsFree k) :
    capsFree (fun pos inp caps => plusRun p pos inp caps k) := by
  intro pos inp
  induction inp generalizing pos with
  | nil => intro c1 c2 _; rfl
  | cons c cs ih =>
    intro c1 c2 h
    simp only [plusRun] at h ⊢
    by_cases hp : p c = true
    · simp only [hp, if_true] at h ⊢
      cases h1 : plusRun p (pos + 1) cs c1 k with
      | some r => rw [h1] at h; simp at h
      | none =>
        rw [h1] at h
        have h2 : plusRun p (pos + 1) cs c2 k = none := ih (pos + 1) c1 c2 h1
        rw [h2]
        exact hk _ _ c1 c2 h
    · simp [hp]

theorem run_capsFree (r : Re) : ∀ k : Cont, capsFree k →
    capsFree (fun pos inp caps => r.run pos inp caps k) := by
  induction r with
  | bol =>
    intro k hk pos inp c1 c2 h
    simp only [Re.run] at h ⊢
    by_cases h0 : pos = 0
    · simp only [h0, if_true] at h ⊢; exact hk _ _ c1 c2 h
    · simp [h0]
  | eol =>
    intro k hk pos inp c1 c2 h
    cases inp with
    | nil => simp only [Re.run] at h ⊢; exact hk _ _ c1 c2 h
    | cons d ds => simp [Re.run]
  | chr c =>
    intro k hk pos inp c1 c2 h
    cases inp with
    | nil => simp [Re.run]
    | cons d ds =>
      simp only [Re.run] at h ⊢
      by_cases hd : d = c
      · simp only [hd, if_true] at h ⊢; exact hk _ _ c1 c2 h
      · simp [hd]
  | cls p =>
    intro k hk pos inp c1 c2 h
    cases inp with
    | nil => simp [Re.run]
    | cons d ds =>
      simp only [Re.run] at h ⊢
      by_cases hd : p d = true
      · simp only [hd, if_true] at h ⊢; exact hk _ _ c1 c2 h
      · simp [hd]
  | plus p =>
    intro k hk pos inp c1 c2 h
    simp only [Re.run] at h ⊢
    exact plusRun_capsFree p k hk pos inp c1 c2 h
  | opt r ih =>
    intro k hk pos inp c1 c2 h
    simp only [Re.run] at h ⊢
    cases h1 : r.run pos inp c1 k with
    | some m => rw [h1] at h; simp at h
    | none =>
      rw [h1] at h
      have h2 : r.run pos inp c2 k = none := ih k hk pos inp c1 c2 h1
      rw [h2]
      exact hk _ _ c1 c2 h
  | seq r s ihr ihs =>
    intro k hk pos inp c1 c2 h
    simp only [Re.run] at h ⊢
    exact ihr _ (ihs k hk) pos inp c1 c2 h
  | grp i r ih =>
    intro k hk pos inp c1 c2 h
    simp only [Re.run] at h ⊢
    refine ih _ ?_ pos inp c1 c2 h
    intro pos1 inp1 d1 d2 hd
    exact hk _ _ _ _ hd

/-- Greedy `[...]+` before a continuation that refuses a text beginning in the
class: the repetition takes the longest run of class characters, and it is
there that the continuation decides. -/
theorem plusRun_eq (p : Char → Bool) (k : Cont)
    (hk : ∀ pos c cs caps, p c = true → k pos (c :: cs) caps = none) :
    ∀ (inp : List Char) (pos : Nat) (caps : Caps),
      plusRun p pos inp caps k =
        if inp.takeWhile p = [] then none
        else k (pos + (inp.takeWhile p).length) (inp.dropWhile p) caps := by
  intro inp
  induction inp with
  | nil => intro pos caps; simp [plusRun]
  | cons c cs ih =>
    intro pos caps
    by_cases hp : p c = true
    · simp only [plusRun, hp, if_true, List.takeWhile_cons_of_pos, List.dropWhile_cons_of_pos]
      rw [ih]
      cases hcs : cs with
      | nil => simp
      | cons d ds =>
        by_cases hd : p d = true
        · simp only [List.takeWhile_cons_of_pos, List.dropWhile_cons_of_pos, hd,
            List.length_cons, reduceCtorEq, if_false]
          have e : pos + 1 + ((List.takeWhile p ds).length + 1) =
              pos + ((List.takeWhile p ds).length + 1 + 1) := by omega
          rw [e, hk (pos + 1) d ds caps hd]
          cases k (pos + ((List.takeWhile p ds).length + 1 + 1)) (List.dropWhile p ds) caps <;> rfl
        · simp [hd]
    · simp [plusRun, hp]

theorem take_length_takeWhile (p : Char → Bool) (l : List Char) :
    l.take (l.takeWhile p).length = l.takeWhile p := by
  induction l with
  | nil => rfl
  | cons c cs ih =>
    by_cases hp : p c = true
    · simp [List.takeWhile_cons_of_pos, hp, ih]
    · simp [hp]

/-- A capturing group around `[...]+`, before a continuation that refuses a
text beginning in the class: the group is the longest run of class characters. -/
theorem grpPlus_run (i : Nat) (p : Char → Bool) (k : Cont)
    (hk : ∀ pos c cs caps, p c = true → k pos (c :: cs) caps = none)
    (inp : List Char) (pos : Nat) (caps : Caps) :
    (Re.grp i (.plus p)).run pos inp caps k =
      if inp.takeWhile p = [] then none
      else k (pos + (inp.takeWhile p).length) (inp.dropWhile p)
        (caps.set i (inp.takeWhile p)) := by
  simp only [Re.run]
  rw [plusRun_eq p (fun pos1 inp1 caps1 => k pos1 inp1 (caps1.set i (inp.take (pos1 - pos))))
    (fun pos1 c cs caps1 hc => hk pos1 c cs _ hc)]
  have e : pos + (inp.takeWhile p).length - pos = (inp.takeWhile p).length := by omega
  rw [e, take_length_takeWhile]

/-- The repetition inside the two groups of a flag token. -/
theorem flagTail_run (whole : List Char) (pos0 : Nat) (k : Cont)
    (hk : ∀ pos c cs caps, clsFlag c = true → k pos (c :: cs) caps = none)
    (inp : List Char) (pos : Nat) (caps : Caps) :
    plusRun clsFlag pos inp caps (fun pos1 inp1 caps1 =>
        k pos1 inp1 ((caps1.set 2 (inp.take (pos1 - pos))).set 1 (whole.take (pos1 - pos0)))) =
      if inp.takeWhile clsFlag = [] then none
      else k (pos + (inp.takeWhile clsFlag).length) (inp.dropWhile clsFlag)
        ((caps.set 2 (inp.takeWhile clsFlag)).set 1
          (whole.take (pos + (inp.takeWhile clsFlag).length - pos0))) := by
  rw [plusRun_eq clsFlag (fun pos1 inp1 caps1 =>
        k pos1 inp1 ((caps1.set 2 (inp.take (pos1 - pos))).set 1 (whole.take (pos1 - pos0))))
    (fun pos1 c cs caps1 hc => hk pos1 c cs _ hc)]
  have e : pos + (inp.takeWhile clsFlag).length - pos = (inp.takeWhile clsFlag).length := by omega
  rw [e, take_length_takeWhile]

/-- The common start `(-{1,2}([\w\d\-]+))` of the patterns, before a
continuation that refuses a text beginning in the class `[\w\d\-]`: group 1 is
the longest run of class characters, which has to begin with a hyphen and to
hold two characters, and the continuation decides on what follows it. -/
theorem reFlag_run (k : Cont)
    (hk : ∀ pos c cs caps, clsFlag c = true → k pos (c :: cs) caps = none)
    (hfree : capsFree k) (inp : List Char) (pos : Nat) (caps : Caps) :
    reFlag.run pos inp caps k =
      if (inp.takeWhile clsFlag).head? = some '-' ∧ 2 ≤ (inp.takeWhile clsFlag).length then
        k (pos + (inp.takeWhile clsFlag).length) (inp.dropWhile clsFlag)
          ((caps.set 2 (flagBody (inp.takeWhile clsFlag))).set 1 (inp.takeWhile clsFlag))
      else none := by
  have hy : clsFlag '-' = true := by decide
  cases inp with
  | nil => simp [reFlag, reHyphens, Re.run]
  | cons c r1 =>
    by_cases hc : c = '-'
    · subst hc
      cases r1 with
      | nil => simp [reFlag, reHyphens, Re.run, plusRun, hy]
      | cons d r2 =>
        by_cases hd : d = '-'
        · subst hd
          simp only [reFlag, reHyphens, Re.run, if_true]
          rw [flagTail_run _ _ k hk, flagTail_run _ _ k hk]
          simp only [List.takeWhile_cons_of_pos, List.dropWhile_cons_of_pos, hy, List.length_cons,
            List.head?_cons, reduceCtorEq, if_false]
          have e1 : pos + 1 + 1 + (List.takeWhile clsFlag r2).length - pos =
              (List.takeWhile clsFlag r2).length + 1 + 1 := by omega
          have e2 : pos + 1 + ((List.takeWhile clsFlag r2).length + 1) - pos =
              (List.takeWhile clsFlag r2).length + 1 + 1 := by omega
          have e3 : pos + 1 + 1 + (List.takeWhile clsFlag r2).length =
              pos + ((List.takeWhile clsFlag r2).length + 1 + 1) := by omega
          have e4 : pos + 1 + ((List.takeWhile clsFlag r2).length + 1) =
              pos + ((List.takeWhile clsFlag r2).length + 1 + 1) := by omega
          rw [e1, e2, e3, e4]
          simp only [List.take_succ_cons, take_length_takeWhile]
          cases h2 : List.takeWhile clsFlag r2 with
          | nil => simp [flagBody]
          | cons c b =>
            simp only [reduceCtorEq, if_false, flagBody, List.length_cons]
            have e5 : 2 ≤ b.length + 1 + 1 + 1 := by omega
            simp only [e5, and_self, if_true]
            cases hk1 : k (pos + (b.length + 1 + 1 + 1)) (List.dropWhile clsFlag r2)
                ((List.set caps 2 (c :: b)).set 1 ('-' :: '-' :: c :: b)) with
            | some m => rfl
            | none => exact hfree _ _ _ _ hk1
        · simp only [reFlag, reHyphens, Re.run, if_true, hd, if_false]
          rw [flagTail_run _ _ k hk]
          by_cases hp : clsFlag d = true
          · simp only [List.takeWhile_cons_of_pos, List.dropWhile_cons_of_pos, hy, hp,
              List.length_cons, List.head?_cons, reduceCtorEq, if_false]
            have e1 : pos + 1 + ((List.takeWhile clsFlag r2).length + 1) - pos =
                (List.takeWhile clsFlag r2).length + 1 + 1 := by omega
            have e4 : pos + 1 + ((List.takeWhile clsFlag r2).length + 1) =
                pos + ((List.takeWhile clsFlag r2).length + 1 + 1) := by omega
            have e5 : 2 ≤ (List.takeWhile clsFlag r2).length + 1 + 1 := by omega
            rw [e1, e4]
            simp only [List.take_succ_cons, take_length_takeWhile, e5, and_self, if_true]
            have e6 : flagBody ('-' :: d :: List.takeWhile clsFlag r2) =
                d :: List.takeWhile clsFlag r2 := by
              unfold flagBody
              split
              · rename_i h; simp at h; exact absurd h.1 hd
              · rename_i h; simp at h; rw [← h.2]
              · rename_i h; simp at h
            rw [e6]
          · simp [hp, hy]
    · by_cases hp : clsFlag c = true
      · simp [reFlag, reHyphens, Re.run, hc, hp, List.takeWhile_cons_of_pos]
      · simp [reFlag, reHyphens, Re.run, hc, hp]

theorem search_bol (r : Re) (n : Nat) (inp : List Char) :
    ∀ pos : Nat, (Regexp.mk (.seq .bol r) n).search (pos + 1) inp = none := by
  induction inp with
  | nil => intro pos; simp [Regexp.search, Regexp.attempt, Re.run]
  | cons c cs ih => intro pos; simp [Regexp.search, Regexp.attempt, Re.run, ih]

/-- A pattern that begins with `^` is tried at the start of the text only. -/
theorem find_bol (r : Re) (n : Nat) (s : Str) :
    (Regexp.mk (.seq .bol r) n).FindStringSubmatch s =
      r.run 0 s (List.replicate (n + 1) []) (fun pos1 _ caps => some (caps.set 0 (s.take pos1))) := by
  cases s with
  | nil => simp [Regexp.FindStringSubmatch, Regexp.search, Regexp.attempt, Re.run]
  | cons c cs =>
    simp only [Regexp.FindStringSubmatch, Regexp.search, Regexp.attempt, Re.run, if_true,
      search_bol, Nat.sub_zero, Nat.zero_add]
    cases r.run 0 (c :: cs) (List.replicate (n + 1) [])
      (fun pos1 _ caps => some (caps.set 0 ((c :: cs).take pos1))) <;> rfl

theorem length_takeWhile_add_dropWhile (p : Char → Bool) (s : List Char) :
    (s.takeWhile p).length + (s.dropWhile p).length = s.length := by
  have h := congrArg List.length (List.takeWhile_append_dropWhile p s)
  rw [List.length_append] at h
  exact h

/-- The end `c$` of a pattern. -/
theorem closeEol_run (c : Char) (k : Cont) (inp : List Char) (pos : Nat) (caps : Caps) :
    (Re.seq (.chr c) .eol).run pos inp caps k =
      if inp = [c] then k (pos + 1) [] caps else none := by
  rcases inp with _ | ⟨a, _ | ⟨b, r⟩⟩
  · simp [Re.run]
  · by_cases ha : a = c <;> simp [Re.run, ha]
  · by_cases ha : a = c <;> simp [Re.run, ha]

theorem run_seq (r t : Re) (pos : Nat) (inp : List Char) (caps : Caps) (k : Cont) :
    (Re.seq r t).run pos inp caps k =
      r.run pos inp caps (fun pos1 inp1 caps1 => t.run pos1 inp1 caps1 k) := rfl

theorem run_chr_cons (c d : Char) (pos : Nat) (ds : List Char) (caps : Caps) (k : Cont) :
    (Re.chr c).run pos (d :: ds) caps k = if d = c then k (pos + 1) ds caps else none := rfl

theorem run_chr_nil (c : Char) (pos : Nat) (caps : Caps) (k : Cont) :
    (Re.chr c).run pos [] caps k = none := rfl

theorem run_cls_cons (p : Char → Bool) (d : Char) (pos : Nat) (ds : List Char) (caps : Caps)
    (k : Cont) :
    (Re.cls p).run pos (d :: ds) caps k = if p d = true then k (pos + 1) ds caps else none := rfl

theorem run_cls_nil (p : Char → Bool) (pos : Nat) (caps : Caps) (k : Cont) :
    (Re.cls p).run pos [] caps k = none := rfl

/-- A group `([...]+)` and the end `c$` of a pattern, for `c` outside the class. -/
theorem grpPlusClose_run (i : Nat) (p : Char → Bool) (c : Char) (hc : p c = false) (k : Cont)
    (inp : List Char) (pos : Nat) (caps : Caps) :
    (Re.seq (.grp i (.plus p)) (.seq (.chr c) .eol)).run pos inp caps k =
      if inp.takeWhile p ≠ [] ∧ inp.dropWhile p = [c] then
        k (pos + inp.length) [] (caps.set i (inp.takeWhile p))
      else none := by
  rw [run_seq, grpPlus_run i p _ (fun pos1 d ds caps1 hd => by
    rw [run_seq, run_chr_cons, if_neg]
    intro e; subst e; rw [hc] at hd; exact Bool.noConfusion hd)]
  rw [closeEol_run]
  by_cases h1 : inp.takeWhile p = []
  · simp [h1]
  · by_cases h2 : inp.dropWhile p = [c]
    · have hl := length_takeWhile_add_dropWhile p inp
      rw [h2] at hl
      simp only [List.length_singleton] at hl
      simp only [h1, h2, if_false, if_true, ne_eq, not_false_eq_true, and_self]
      rw [← hl, Nat.add_assoc]
    · simp [h1, h2]

/-- A group `([...]+)` and the end `cd$` of a pattern, for `c` outside the class. -/
theorem grpPlusClose2_run (i : Nat) (p : Char → Bool) (c d : Char) (hc : p c = false) (k : Cont)
    (inp : List Char) (pos : Nat) (caps : Caps) :
    (Re.seq (.grp i (.plus p)) (.seq (.chr c) (.seq (.chr d) .eol))).run pos inp caps k =
      if inp.takeWhile p ≠ [] ∧ inp.dropWhile p = [c, d] then
        k (pos + inp.length) [] (caps.set i (inp.takeWhile p))
      else none := by
  rw [run_seq, grpPlus_run i p _ (fun pos1 e es caps1 he => by
    rw [run_seq, run_chr_cons, if_neg]
    intro e; subst e; rw [hc] at he; exact Bool.noConfusion he)]
  by_cases h1 : inp.takeWhile p = []
  · simp [h1]
  · have hl := length_takeWhile_add_dropWhile p inp
    simp only [h1, if_false, ne_eq, not_false_eq_true, true_and]
    rcases hdw : inp.dropWhile p with _ | ⟨a, r⟩
    · simp [run_seq, run_chr_nil]
    · rw [run_seq, run_chr_cons, closeEol_run]
      by_cases ha : a = c
      · by_cases hr : r = [d]
        · subst ha; subst hr
          rw [hdw] at hl
          simp only [List.length_cons, List.length_nil] at hl
          simp only [if_true]
          rw [← hl]
          have e : pos + (List.takeWhile p inp).length + 1 + 1 =
              pos + ((List.takeWhile p inp).length + (0 + 1 + 1)) := by omega
          rw [e]
        · simp [ha, hr]
      · simp [ha]

/-- A repetition `[...]+` and the end `c$` of a pattern, for `c` outside the class. -/
theorem plusClose_run (p : Char → Bool) (c : Char) (hc : p c = false) (k : Cont)
    (inp : List Char) (pos : Nat) (caps : Caps) :
    (Re.seq (.plus p) (.seq (.chr c) .eol)).run pos inp caps k =
      if inp.takeWhile p ≠ [] ∧ inp.dropWhile p = [c] then k (pos + inp.length) [] caps
      else none := by
  rw [run_seq]
  show plusRun p pos inp caps _ = _
  rw [plusRun_eq p _ (fun pos1 d ds caps1 hd => by
    rw [run_seq, run_chr_cons, if_neg]
    intro e; subst e; rw [hc] at hd; exact Bool.noConfusion hd)]
  rw [closeEol_run]
  by_cases h1 : inp.takeWhile p = []
  · simp [h1]
  · by_cases h2 : inp.dropWhile p = [c]
    · have hl := length_takeWhile_add_dropWhile p inp
      rw [h2] at hl
      simp only [List.length_singleton] at hl
      simp only [h1, h2, if_false, if_true, ne_eq, not_false_eq_true, and_self]
      rw [← hl, Nat.add_assoc]
    · simp [h1, h2]

theorem restEqualNoOptional_run (k : Cont) (rem : List Char) (pos : Nat) (caps : Caps) :
    (Re.seq (.chr '=') (.seq (.chr '<')
      (.seq (.grp 3 (.plus clsNameSpace)) (.seq (.chr '>') .eol)))).run pos rem caps k =
      match restEqualNoOptional rem with
      | some q => k (pos + rem.length) [] (caps.set 3 q)
      | none => none := by
  rcases rem with _ | ⟨a, _ | ⟨b, r⟩⟩
  · simp [run_seq, run_chr_nil, restEqualNoOptional]
  · by_cases ha : a = '=' <;> simp [run_seq, run_chr_cons, run_chr_nil, restEqualNoOptional, ha]
  · by_cases ha : a = '='
    · by_cases hb : b = '<'
      · subst ha; subst hb
        rw [run_seq, run_chr_cons, if_pos rfl, run_seq, run_chr_cons, if_pos rfl,
          grpPlusClose_run 3 clsNameSpace '>' (by decide)]
        simp only [restEqualNoOptional, true_and, List.length_cons]
        by_cases h : List.takeWhile clsNameSpace r ≠ [] ∧ List.dropWhile clsNameSpace r = ['>']
        · simp only [h, and_self, if_true, ne_eq, not_false_eq_true]
          have e : pos + 1 + 1 + r.length = pos + (r.length + 1 + 1) := by omega
          rw [e]
        · simp only [h, if_false]
      · simp [run_seq, run_chr_cons, restEqualNoOptional, ha, hb]
    · simp [run_seq, run_chr_cons, restEqualNoOptional, ha]

/-- The end `[...]$` of a pattern: one character of a class, then the end of the text. -/
theorem clsEol_run (q : Char → Bool) (k : Cont) (inp : List Char) (pos : Nat) (caps : Caps) :
    (Re.seq (.cls q) .eol).run pos inp caps k =
      match inp with
      | [b] => if q b = true then k (pos + 1) [] caps else none
      | _ => none := by
  rcases inp with _ | ⟨a, _ | ⟨b, r⟩⟩
  · simp [Re.run]
  · by_cases ha : q a = true <;> simp [Re.run, ha]
  · by_cases ha : q a = true <;> simp [Re.run, ha]

/-- A repetition `[...]+`, one character of a second class and the end of the text. -/
theorem plusClsEol_run (p q : Char → Bool) (k : Cont) :
    ∀ (inp : List Char) (pos : Nat) (caps : Caps),
      (Re.seq (.plus p) (.seq (.cls q) .eol)).run pos inp caps k =
        if plusThenClose p q inp = true then k (pos + inp.length) [] caps else none := by
  intro inp
  induction inp with
  | nil => intro pos caps; simp [run_seq, Re.run, plusRun, plusThenClose]
  | cons a rest ih =>
    intro pos caps
    have ih1 := ih (pos + 1) caps
    rw [run_seq] at ih1 ⊢
    change plusRun p _ _ _ _ = _ at ih1
    change plusRun p _ _ _ _ = _
    by_cases ha : p a = true
    · simp only [plusRun, ha, if_true, ih1, plusThenClose, Bool.true_and]
      rcases rest with _ | ⟨b, _ | ⟨c, r⟩⟩
      · simp [plusThenClose, clsEol_run]
      · by_cases hb : q b = true <;> simp [plusThenClose, clsEol_run, hb, Nat.add_assoc]
      · simp only [clsEol_run, Bool.or_false, List.length_cons]
        have e : pos + 1 + (r.length + 1 + 1) = pos + (r.length + 1 + 1 + 1) := by omega
        rw [e]
        by_cases hr : plusThenClose p q (b :: c :: r) = true
        · simp only [hr, if_true]
          cases k (pos + (r.length + 1 + 1 + 1)) [] caps <;> rfl
        · simp only [hr, if_false]; simp
    · simp [plusRun, ha, plusThenClose]

theorem restEqualOptionalWithName_run (k : Cont) (rem : List Char) (pos : Nat) (caps : Caps) :
    (Re.seq (.chr '[') (.seq (.chr '=') (.seq (.chr '<')
      (.seq (.grp 3 (.plus clsNameParen)) (.seq (.chr '>') (.seq (.chr ']') .eol)))))).run
        pos rem caps k =
      match restEqualOptionalWithName rem with
      | some q => k (pos + rem.length) [] (caps.set 3 q)
      | none => none := by
  rcases rem with _ | ⟨a, _ | ⟨b, _ | ⟨c, r⟩⟩⟩
  · simp [run_seq, run_chr_nil, restEqualOptionalWithName]
  · by_cases ha : a = '[' <;>
      simp [run_seq, run_chr_cons, run_chr_nil, restEqualOptionalWithName, ha]
  · by_cases ha : a = '[' <;> by_cases hb : b = '=' <;>
      simp [run_seq, run_chr_cons, run_chr_nil, restEqualOptionalWithName, ha, hb]
  · by_cases ha : a = '['
    · by_cases hb : b = '='
      · by_cases hc : c = '<'
        · subst ha; subst hb; subst hc
          rw [run_seq, run_chr_cons, if_pos rfl, run_seq, run_chr_cons, if_pos rfl,
            run_seq, run_chr_cons, if_pos rfl,
            grpPlusClose2_run 3 clsNameParen '>' ']' (by decide)]
          simp only [restEqualOptionalWithName, true_and, List.length_cons]
          by_cases h : List.takeWhile clsNameParen r ≠ [] ∧
              List.dropWhile clsNameParen r = ['>', ']']
          · simp only [h, and_self, if_true, ne_eq, not_false_eq_true]
            have e : pos + 1 + 1 + 1 + r.length = pos + (r.length + 1 + 1 + 1) := by omega
            rw [e]
          · simp only [h, if_false]
        · simp [run_seq, run_chr_cons, restEqualOptionalWithName, ha, hb, hc]
      · simp [run_seq, run_chr_cons, restEqualOptionalWithName, ha, hb]
    · simp [run_seq, run_chr_cons, restEqualOptionalWithName, ha]

theorem restEqualOptionalWithoutName_run (k : Cont) (rem : List Char) (pos : Nat) (caps : Caps) :
    (Re.seq (.chr '[') (.seq (.chr '=')
      (.seq (.plus clsChoice) (.seq (.chr ']') .eol)))).run pos rem caps k =
      if restEqualOptionalWithoutName rem = true then k (pos + rem.length) [] caps else none := by
  rcases rem with _ | ⟨a, _ | ⟨b, r⟩⟩
  · simp [run_seq, run_chr_nil, restEqualOptionalWithoutName]
  · by_cases ha : a = '[' <;>
      simp [run_seq, run_chr_cons, run_chr_nil, restEqualOptionalWithoutName, ha]
  · by_cases ha : a = '['
    · by_cases hb : b = '='
      · subst ha; subst hb
        rw [run_seq, run_chr_cons, if_pos rfl, run_seq, run_chr_cons, if_pos rfl,
          plusClose_run clsChoice ']' (by decide)]
        simp only [restEqualOptionalWithoutName, true_and, List.length_cons, decide_eq_true_eq]
        have e : pos + 1 + 1 + r.length = pos + (r.length + 1 + 1) := by omega
        rw [e]
      · simp [run_seq, run_chr_cons, restEqualOptionalWithoutName, ha, hb]
    · simp [run_seq, run_chr_cons, restEqualOptionalWithoutName, ha]

theorem restEqualWithoutName_run (k : Cont) (rem : List Char) (pos : Nat) (caps : Caps) :
    (Re.seq (.chr '=') (.seq (.cls clsOpen)
      (.seq (.plus clsChoice) (.seq (.cls clsClose) .eol)))).run pos rem caps k =
      if restEqualWithoutName rem = true then k (pos + rem.length) [] caps else none := by
  rcases rem with _ | ⟨a, _ | ⟨b, r⟩⟩
  · simp [run_seq, run_chr_nil, restEqualWithoutName]
  · by_cases ha : a = '=' <;>
      simp [run_seq, run_chr_cons, run_cls_nil, restEqualWithoutName, ha]
  · by_cases ha : a = '='
    · by_cases hb : clsOpen b = true
      · subst ha
        rw [run_seq, run_chr_cons, if_pos rfl, run_seq, run_cls_cons, if_pos hb,
          plusClsEol_run clsChoice clsClose]
        simp only [restEqualWithoutName, hb, decide_True, Bool.true_and, List.length_cons]
        have e : pos + 1 + 1 + r.length = pos + (r.length + 1 + 1) := by omega
        rw [e]
      · simp [run_seq, run_chr_cons, run_cls_cons, restEqualWithoutName, ha, hb]
    · simp [run_seq, run_chr_cons, restEqualWithoutName, ha]

theorem restParameter_run (k : Cont) (rem : List Char) (pos : Nat) (caps : Caps) :
    (Re.seq (.chr '<') (.seq (.grp 3 (.plus clsNameParen)) (.seq (.chr '>') .eol))).run
        pos rem caps k =
      match restParameter rem with
      | some q => k (pos + rem.length) [] (caps.set 3 q)
      | none => none := by
  rcases rem with _ | ⟨b, r⟩
  · simp [run_seq, run_chr_nil, restParameter]
  · by_cases hb : b = '<'
    · subst hb
      rw [run_seq, run_chr_cons, if_pos rfl, grpPlusClose_run 3 clsNameParen '>' (by decide)]
      simp only [restParameter, true_and, List.length_cons]
      by_cases h : List.takeWhile clsNameParen r ≠ [] ∧ List.dropWhile clsNameParen r = ['>']
      · rw [if_pos h, if_pos h]
        have e : pos + 1 + r.length = pos + (r.length + 1) := by omega
        rw [e]
      · rw [if_neg h, if_neg h]
    · simp [run_seq, run_chr_cons, restParameter, hb]

theorem restWithParameter_run (k : Cont) (rem : List Char) (pos : Nat) (caps : Caps) :
    (Re.seq (.opt (.chr ' ')) (.seq (.chr '<')
      (.seq (.grp 3 (.plus clsNameParen)) (.seq (.chr '>') .eol)))).run pos rem caps k =
      match restWithParameter rem with
      | some q => k (pos + rem.length) [] (caps.set 3 q)
      | none => none := by
  rw [run_seq]
  show (match (Re.chr ' ').run pos rem caps _ with
    | some m => some m
    | none => _) = _
  rcases rem with _ | ⟨a, r⟩
  · simp [run_chr_nil, restParameter_run, restParameter, restWithParameter]
  · by_cases ha : a = ' '
    · subst ha
      rw [run_chr_cons, if_pos rfl]
      simp only [restParameter_run, restWithParameter, if_true, List.length_cons]
      have e : pos + 1 + r.length = pos + (r.length + 1) := by omega
      rw [e]
      have h0 : restParameter (' ' :: r) = none := by simp [restParameter]
      rw [h0]
      cases restParameter r with
      | none => rfl
      | some q =>
        show (match k (pos + (r.length + 1)) [] (List.set caps 3 q) with
          | some m => some m
          | none => none) = k (pos + (r.length + 1)) [] (List.set caps 3 q)
        cases k (pos + (r.length + 1)) [] (List.set caps 3 q) <;> rfl
    · rw [run_chr_cons, if_neg ha]
      simp only [restParameter_run, restWithParameter, if_neg ha]

/-- The final continuation of a search never fails. -/
theorem capsFree_final (s : List Char) :
    capsFree (fun pos1 _ caps => some (caps.set 0 (s.take pos1))) := by
  intro pos inp c1 c2 h; simp at h

/-- A pattern `^(-{1,2}([\w\d\-]+))rest`, where `rest` refuses a text that
begins in the class `[\w\d\-]`: the groups 1 and 2 come from the flag token,
then `rest` is matched against what follows the token. -/
theorem find_flag (rest : Re) (n : Nat) (s : Str)
    (hk : ∀ pos c cs caps k, clsFlag c = true → rest.run pos (c :: cs) caps k = none) :
    (Regexp.mk (.seq .bol (.seq reFlag rest)) n).FindStringSubmatch s =
      if flagTokenOK s then
        rest.run (flagToken s).length (flagRest s)
          (((List.replicate (n + 1) []).set 2 (flagBody (flagToken s))).set 1 (flagToken s))
          (fun pos1 _ caps => some (caps.set 0 (s.take pos1)))
      else none := by
  rw [find_bol, run_seq,
    reFlag_run _ (fun pos c cs caps hc => hk pos c cs caps _ hc)
      (run_capsFree rest _ (capsFree_final s))]
  simp only [flagTokenOK, flagToken, flagRest, Nat.zero_add]

theorem take_token_rest (s : Str) : s.take ((flagToken s).length + (flagRest s).length) = s := by
  unfold flagToken flagRest
  rw [length_takeWhile_add_dropWhile, List.take_length]

theorem clsFlag_ne {c d : Char} (hc : clsFlag c = true) (hd : clsFlag d = false) : c ≠ d := by
  intro e; subst e; rw [hc] at hd; exact Bool.noConfusion hd

/-! ### What `FindStringSubmatch` returns for each of the six patterns -/

theorem find_expCmdSimple (s : Str) :
    expCmdSimple.FindStringSubmatch s =
      if flagTokenOK s ∧ flagRest s = [] then some [s, flagToken s, flagBody (flagToken s)]
      else none := by
  unfold expCmdSimple
  rw [find_flag Re.eol 2 s (fun _ _ _ _ _ _ => rfl)]
  by_cases h : flagTokenOK s
  · rcases hr : flagRest s with _ | ⟨a, r⟩
    · have e := take_token_rest s
      rw [hr] at e
      simp only [List.length_nil, Nat.add_zero] at e
      simp [h, Re.run, List.replicate, List.set, e]
    · simp [h, Re.run]
  · simp [h]

theorem find_expCmdEqualNoOptional (s : Str) :
    expCmdEqualNoOptional.FindStringSubmatch s =
      if flagTokenOK s then
        (restEqualNoOptional (flagRest s)).map
          (fun q => [s, flagToken s, flagBody (flagToken s), q])
      else none := by
  unfold expCmdEqualNoOptional
  rw [find_flag _ _ _ (fun pos c cs caps k hc => by
    rw [run_seq, run_chr_cons, if_neg (clsFlag_ne hc (by decide))])]
  by_cases h : flagTokenOK s
  · rw [if_pos h, if_pos h, restEqualNoOptional_run]
    cases restEqualNoOptional (flagRest s) with
    | none => rfl
    | some q => simp [List.replicate, List.set, take_token_rest]
  · rw [if_neg h, if_neg h]

theorem find_expCmdEqualOptionalWithoutName (s : Str) :
    expCmdEqualOptionalWithoutName.FindStringSubmatch s =
      if flagTokenOK s ∧ restEqualOptionalWithoutName (flagRest s) = true then
        some [s, flagToken s, flagBody (flagToken s)]
      else none := by
  unfold expCmdEqualOptionalWithoutName
  rw [find_flag _ _ _ (fun pos c cs caps k hc => by
    rw [run_seq, run_chr_cons, if_neg (clsFlag_ne hc (by decide))])]
  by_cases h : flagTokenOK s
  · rw [if_pos h, restEqualOptionalWithoutName_run]
    by_cases h2 : restEqualOptionalWithoutName (flagRest s) = true
    · simp [h, h2, List.replicate, List.set, take_token_rest]
    · simp [h, h2]
  · simp [h]

theorem find_expCmdEqualWithoutName (s : Str) :
    expCmdEqualWithoutName.FindStringSubmatch s =
      if flagTokenOK s ∧ restEqualWithoutName (flagRest s) = true then
        some [s, flagToken s, flagBody (flagToken s)]
      else none := by
  unfold expCmdEqualWithoutName
  rw [find_flag _ _ _ (fun pos c cs caps k hc => by
    rw [run_seq, run_chr_cons, if_neg (clsFlag_ne hc (by decide))])]
  by_cases h : flagTokenOK s
  · rw [if_pos h, restEqualWithoutName_run]
    by_cases h2 : restEqualWithoutName (flagRest s) = true
    · simp [h, h2, List.replicate, List.set, take_token_rest]
    · simp [h, h2]
  · simp [h]

theorem find_expCmdEqualOptionalWithName (s : Str) :
    expCmdEqualOptionalWithName.FindStringSubmatch s =
      if flagTokenOK s then
        (restEqualOptionalWithName (flagRest s)).map
          (fun q => [s, flagToken s, flagBody (flagToken s), q])
      else none := by
  unfold expCmdEqualOptionalWithName
  rw [find_flag _ _ _ (fun pos c cs caps k hc => by
    rw [run_seq, run_chr_cons, if_neg (clsFlag_ne hc (by decide))])]
  by_cases h : flagTokenOK s
  · rw [if_pos h, if_pos h, restEqualOptionalWithName_run]
    cases restEqualOptionalWithName (flagRest s) with
    | none => rfl
    | some q => simp [List.replicate, List.set, take_token_rest]
  · rw [if_neg h, if_neg h]

theorem find_expCmdWithParameter (s : Str) :
    expCmdWithParameter.FindStringSubmatch s =
      if flagTokenOK s then
        (restWithParameter (flagRest s)).map
          (fun q => [s, flagToken s, flagBody (flagToken s), q])
      else none := by
  unfold expCmdWithParameter
  rw [find_flag _ _ _ (fun pos c cs caps k hc => by
    have h1 : c ≠ ' ' := clsFlag_ne hc (by decide)
    have h2 : c ≠ '<' := clsFlag_ne hc (by decide)
    rw [restWithParameter_run]
    simp [restWithParameter, restParameter, h1, h2])]
  by_cases h : flagTokenOK s
  · rw [if_pos h, if_pos h, restWithParameter_run]
    cases restWithParameter (flagRest s) with
    | none => rfl
    | some q => simp [List.replicate, List.set, take_token_rest]
  · rw [if_neg h, if_neg h]

/-! ### The classification of one record -/

theorem classifyInto_simple (tb : CaseTables) (metas : List CmdMeta) (j : JSONCmdModel)
    (a t b : Str) (h1 : expCmdSimple.FindStringSubmatch j.Argument = some [a, t, b]) :
    classifyInto tb metas j = some (metas ++ [newMeta tb (methodName b j) [] t "SIMPLE".toList
      j.Description j.Arguments]) := by
  simp [classifyInto, Regexp.MatchString, newMetaCmdSimple, newMetaCmd, h1]

theorem classifyInto_equalNoOptional (tb : CaseTables) (metas : List CmdMeta) (j : JSONCmdModel)
    (a t b q : Str) (h1 : expCmdSimple.FindStringSubmatch j.Argument = none)
    (h2 : expCmdEqualNoOptional.FindStringSubmatch j.Argument = some [a, t, b, q]) :
    classifyInto tb metas j = some (metas ++ [newMeta tb (methodName b j) q t
      "EQUAL_NO_OPTIONAL".toList j.Description j.Arguments]) := by
  simp [classifyInto, Regexp.MatchString, newMetaCmdEqualNoOptional, newMetaCmd, h1, h2]

theorem classifyInto_equalOptionalWithoutName (tb : CaseTables) (metas : List CmdMeta)
    (j : JSONCmdModel) (a t b : Str)
    (h1 : expCmdSimple.FindStringSubmatch j.Argument = none)
    (h2 : expCmdEqualNoOptional.FindStringSubmatch j.Argument = none)
    (h3 : expCmdEqualOptionalWithoutName.FindStringSubmatch j.Argument = some [a, t, b]) :
    classifyInto tb metas j = some (metas ++ [newMeta tb (methodName b j) "value".toList t
      "EQUAL_OPTIONAL_WITHOUT_NAME".toList j.Description j.Arguments]) := by
  simp [classifyInto, Regexp.MatchString, newMetaCmdEqualOptionalWithoutName, newMetaCmd,
    h1, h2, h3]

theorem classifyInto_equalWithoutName (tb : CaseTables) (metas : List CmdMeta)
    (j : JSONCmdModel) (a t b : Str)
    (h1 : expCmdSimple.FindStringSubmatch j.Argument = none)
    (h2 : expCmdEqualNoOptional.FindStringSubmatch j.Argument = none)
    (h3 : expCmdEqualOptionalWithoutName.FindStringSubmatch j.Argument = none)
    (h4 : expCmdEqualWithoutName.FindStringSubmatch j.Argument = some [a, t, b]) :
    classifyInto tb metas j = some (metas ++ [newMeta tb (methodName b j) "value".toList t
      "EQUAL_WITHOUT_NAME".toList j.Description j.Arguments]) := by
  simp [classifyInto, Regexp.MatchString, newMetaCmdEqualWithoutName, newMetaCmd,
    h1, h2, h3, h4]

theorem classifyInto_equalOptionalWithName (tb : CaseTables) (metas : List CmdMeta)
    (j : JSONCmdModel) (a t b q : Str)
    (h1 : expCmdSimple.FindStringSubmatch j.Argument = none)
    (h2 : expCmdEqualNoOptional.FindStringSubmatch j.Argument = none)
    (h3 : expCmdEqualOptionalWithoutName.FindStringSubmatch j.Argument = none)
    (h4 : expCmdEqualWithoutName.FindStringSubmatch j.Argument = none)
    (h5 : expCmdEqualOptionalWithName.FindStringSubmatch j.Argument = some [a, t, b, q]) :
    classifyInto tb metas j = some (metas ++ [newMeta tb (methodName b j) q t
      "EQUAL_OPTIONAL_WITH_NAME".toList j.Description j.Arguments]) := by
  simp [classifyInto, Regexp.MatchString, newMetaCmdEqualOptionalWithName, newMetaCmd,
    h1, h2, h3, h4, h5]

theorem classifyInto_withParameter (tb : CaseTables) (metas : List CmdMeta)
    (j : JSONCmdModel) (a t b q : Str)
    (h1 : expCmdSimple.FindStringSubmatch j.Argument = none)
    (h2 : expCmdEqualNoOptional.FindStringSubmatch j.Argument = none)
    (h3 : expCmdEqualOptionalWithoutName.FindStringSubmatch j.Argument = none)
    (h4 : expCmdEqualWithoutName.FindStringSubmatch j.Argument = none)
    (h5 : expCmdEqualOptionalWithName.FindStringSubmatch j.Argument = none)
    (h6 : expCmdWithParameter.FindStringSubmatch j.Argument = some [a, t, b, q]) :
    classifyInto tb metas j = some (metas ++ [newMeta tb (methodName b j) q t
      "WITH_PARAMETER".toList j.Description j.Arguments]) := by
  simp [classifyInto, Regexp.MatchString, newMetaCmdWithParameter, newMetaCmd,
    h1, h2, h3, h4, h5, h6]

/-- On a table of one record the result is the slice built by the loop: a
slice of one entry has one arrangement only. -/
theorem metas_single (tb : CaseTables) (srt : SortImpl) (j : JSONCmdModel) (m : CmdMeta)
    (h : classifyInto tb [] j = some [m]) :
    jsonCmdModelToCmdMetas tb srt [j] = some [m] := by
  simp only [jsonCmdModelToCmdMetas, classifyAll, h, Option.map_some']
  rw [List.perm_singleton.mp (srt.perm [m])]

/-! ### Raw syntaxes of a given form -/

theorem char_eq_of_toNat {c d : Char} (h : c.toNat = d.toNat) : c = d := by
  apply Char.ext
  apply UInt32.ext
  exact h

theorem nameChar_eq_clsFlag (c : Char) : nameChar c = clsFlag c := by
  have h1 : (c = '_') ↔ c.toNat = 95 :=
    ⟨fun h => by subst h; rfl, fun h => char_eq_of_toNat h⟩
  have h2 : (c = '-') ↔ c.toNat = 45 :=
    ⟨fun h => by subst h; rfl, fun h => char_eq_of_toNat h⟩
  simp only [nameChar, clsFlag, isWord, isDigit, h1, h2]
  rw [Bool.eq_iff_iff]
  simp only [Bool.or_eq_true, decide_eq_true_eq]
  omega

theorem takeWhile_append_stop (p : Char → Bool) (w rest : List Char)
    (hw : ∀ c ∈ w, p c = true) (hr : ∀ c ∈ rest.head?, p c = false) :
    (w ++ rest).takeWhile p = w ∧ (w ++ rest).dropWhile p = rest := by
  induction w with
  | nil =>
    cases rest with
    | nil => simp
    | cons d ds =>
      have hd : p d = false := hr d (by simp)
      simp [hd]
  | cons c cs ih =>
    have hc : p c = true := hw c (by simp)
    have ih1 := ih (fun x hx => hw x (by simp [hx]))
    simp [hc, ih1.1, ih1.2]

theorem flagTokenText_all_clsFlag {t : Str} (ht : FlagTokenText t) :
    ∀ c ∈ t, clsFlag c = true := by
  obtain ⟨b, _, hb, h⟩ := ht
  have hb1 : ∀ c ∈ b, clsFlag c = true := by
    intro c hc
    rw [← nameChar_eq_clsFlag]
    exact List.all_eq_true.mp hb c hc
  have hy : clsFlag '-' = true := by decide
  intro c hc
  rcases h with h | h
  · subst h
    rcases List.mem_cons.mp hc with h1 | h1
    · subst h1; exact hy
    · exact hb1 c h1
  · subst h
    rcases List.mem_cons.mp hc with h1 | h1
    · subst h1; exact hy
    · rcases List.mem_cons.mp h1 with h2 | h2
      · subst h2; exact hy
      · exact hb1 c h2

theorem flagTokenText_head {t : Str} (ht : FlagTokenText t) :
    t.head? = some '-' ∧ 2 ≤ t.length := by
  obtain ⟨b, hne, _, h⟩ := ht
  have hl : 1 ≤ b.length := by
    cases b with
    | nil => exact absurd rfl hne
    | cons c cs => simp
  rcases h with h | h
  · subst h; simp; omega
  · subst h; simp

/-- A raw syntax made of a flag token and a rest that does not go on in the
class `[\w\d\-]`: the token is what the patterns take as groups 1 and 2. -/
theorem token_split (t rest : Str) (ht : FlagTokenText t)
    (hr : ∀ c ∈ rest.head?, clsFlag c = false) :
    flagToken (t ++ rest) = t ∧ flagRest (t ++ rest) = rest ∧ flagTokenOK (t ++ rest) := by
  have h := takeWhile_append_stop clsFlag t rest (flagTokenText_all_clsFlag ht) hr
  refine ⟨h.1, h.2, ?_⟩
  unfold flagTokenOK flagToken
  rw [h.1]
  exact flagTokenText_head ht

theorem clsNameSpace_of_clsFlag {c : Char} (h : clsFlag c = true) : clsNameSpace c = true := by
  show (clsFlag c || decide (c.toNat = 32)) = true
  rw [h]; rfl

theorem clsNameParen_of_clsFlag {c : Char} (h : clsFlag c = true) : clsNameParen c = true := by
  show (clsFlag c || decide (c.toNat = 41)) = true
  rw [h]; rfl

theorem all_clsFlag_of_nameChar {p : Str} (hp : p.all nameChar = true) :
    ∀ c ∈ p, clsFlag c = true := by
  intro c hc
  rw [← nameChar_eq_clsFlag]
  exact List.all_eq_true.mp hp c hc

theorem find_expCmdSimple_rest (s : Str) (h : flagRest s ≠ []) :
    expCmdSimple.FindStringSubmatch s = none := by
  rw [find_expCmdSimple, if_neg (fun hh => h hh.2)]

theorem restParameter_shape (p : Str) (hp : p ≠ []) (hpc : p.all nameChar = true) :
    restParameter ('<' :: (p ++ ['>'])) = some p := by
  have h := takeWhile_append_stop clsNameParen p ['>']
    (fun c hc => clsNameParen_of_clsFlag (all_clsFlag_of_nameChar hpc c hc))
    (by intro c hc; simp at hc; subst hc; decide)
  simp [restParameter, h.1, h.2, hp]

theorem restEqualOptionalWithName_head (a : Char) (r : List Char) (ha : a ≠ '[') :
    restEqualOptionalWithName (a :: r) = none := by
  rcases r with _ | ⟨b, _ | ⟨c, r⟩⟩ <;> simp [restEqualOptionalWithName, ha]

theorem choiceChar_eq_clsChoice (c : Char) : choiceChar c = clsChoice c := by
  have h1 : (c = '_') ↔ c.toNat = 95 :=
    ⟨fun h => by subst h; rfl, fun h => char_eq_of_toNat h⟩
  have h2 : (c = '-') ↔ c.toNat = 45 :=
    ⟨fun h => by subst h; rfl, fun h => char_eq_of_toNat h⟩
  have h3 : (c = '|') ↔ c.toNat = 124 :=
    ⟨fun h => by subst h; rfl, fun h => char_eq_of_toNat h⟩
  have h4 : (c = '(') ↔ c.toNat = 40 :=
    ⟨fun h => by subst h; rfl, fun h => char_eq_of_toNat h⟩
  have h5 : (c = ')') ↔ c.toNat = 41 :=
    ⟨fun h => by subst h; rfl, fun h => char_eq_of_toNat h⟩
  simp only [choiceChar, nameChar, clsChoice, isWord, isDigit, h1, h2, h3, h4, h5]
  rw [Bool.eq_iff_iff]
  simp only [Bool.or_eq_true, decide_eq_true_eq]
  omega

theorem all_clsChoice_of_choiceChar {p : Str} (hp : p.all choiceChar = true) :
    ∀ c ∈ p, clsChoice c = true := by
  intro c hc
  rw [← choiceChar_eq_clsChoice]
  exact List.all_eq_true.mp hp c hc

theorem plusThenClose_cons (p q : Char → Bool) (a : Char) (rest : List Char) :
    plusThenClose p q (a :: rest) =
      (p a && (plusThenClose p q rest ||
        (match rest with
         | [b] => q b
         | _ => false))) := rfl

theorem plusThenClose_append (p q : Char → Bool) (c : Char) (hq : q c = true) :
    ∀ w : List Char, w ≠ [] → (∀ x ∈ w, p x = true) → plusThenClose p q (w ++ [c]) = true := by
  intro w
  induction w with
  | nil => intro h; exact absurd rfl h
  | cons a r ih =>
    intro _ hw
    have ha : p a = true := hw a (by simp)
    cases r with
    | nil => simp [plusThenClose, ha, hq]
    | cons b r1 =>
      have ih1 := ih (by simp) (fun x hx => hw x (by simp [hx]))
      simp only [List.cons_append] at ih1 ⊢
      rw [plusThenClose_cons, ha, ih1]
      rfl

/-- The generic argument name survives `newMeta` whatever the method name is. -/
theorem newMeta_value (tb : CaseTables) (raw cmd ty d a : Str) :
    (newMeta tb raw "value".toList cmd ty d a).Argument = "value".toList := by
  have e : toGoName tb "value".toList false = "value".toList := rfl
  simp only [newMeta, e]
  split
  · split <;> rfl
  · rename_i h; exact absurd (by decide) h

/-! ## The claims -/

/-- C3: for every flag token `t`, the raw syntax `t` alone is classified as
SIMPLE: `jsonCmdModelToCmdMetas` returns exactly one classified flag, whose
type is `SIMPLE`, whose `Cmd` is `t` and whose argument identifier is empty. -/
theorem C3_bare_flag_is_simple (tb : CaseTables) (srt : SortImpl) (t : Str)
    (ht : FlagTokenText t) (methodOverride arguments description : Str) :
    expCmdSimple.MatchString t = true ∧
    ∃ m : CmdMeta,
      jsonCmdModelToCmdMetas tb srt [⟨methodOverride, t, arguments, description⟩] = some [m] ∧
      m.CmdType = "SIMPLE".toList ∧ m.Cmd = t ∧ m.Argument = [] := by
  have hs := token_split t [] ht (by simp)
  rw [List.append_nil] at hs
  have hf : expCmdSimple.FindStringSubmatch t = some [t, t, flagBody t] := by
    rw [find_expCmdSimple, if_pos ⟨hs.2.2, hs.2.1⟩, hs.1]
  refine ⟨by simp [Regexp.MatchString, hf],
    newMeta tb (methodName (flagBody t) ⟨methodOverride, t, arguments, description⟩) [] t
      "SIMPLE".toList description arguments,
    metas_single tb srt _ _ ?_, rfl, rfl, rfl⟩
  exact classifyInto_simple tb [] ⟨methodOverride, t, arguments, description⟩ t t (flagBody t) hf

/-- C3 on `--quiet`. -/
theorem C3_witness :
    FlagTokenText "--quiet".toList ∧
    (expCmdSimple.MatchString "--quiet".toList = true ∧
    ∃ m : CmdMeta,
      jsonCmdModelToCmdMetas CaseTables.ascii insertionSortImpl
        [⟨[], "--quiet".toList, [], []⟩] = some [m] ∧
      m.CmdType = "SIMPLE".toList ∧ m.Cmd = "--quiet".toList ∧ m.Argument = []) :=
  ⟨⟨"quiet".toList, by decide, by decide, Or.inr rfl⟩,
    C3_bare_flag_is_simple CaseTables.ascii insertionSortImpl "--quiet".toList
      ⟨"quiet".toList, by decide, by decide, Or.inr rfl⟩ [] [] []⟩

/-- C1: for every flag token `t` and every non-empty placeholder `p` over
`[A-Za-z0-9_-]`, the raw syntax `t=<p>` is classified as EQUAL_NO_OPTIONAL,
`t[=<p>]` as EQUAL_OPTIONAL_WITH_NAME and `t <p>` as WITH_PARAMETER; each time
the pattern of the shape yields the sub-matches `t` (group 1) and `p` (group 3)
and `jsonCmdModelToCmdMetas` returns exactly one classified flag, built by
`newMeta` from the placeholder `p`, with the type of the shape and with `Cmd`
equal to `t`. -/
theorem C1_named_shapes (tb : CaseTables) (srt : SortImpl) (t p : Str)
    (ht : FlagTokenText t) (hp : p ≠ []) (hpc : p.all nameChar = true)
    (methodOverride arguments description : Str) :
    (expCmdEqualNoOptional.FindStringSubmatch (t ++ "=<".toList ++ p ++ ">".toList) =
        some [t ++ "=<".toList ++ p ++ ">".toList, t, flagBody t, p] ∧
      ∃ m : CmdMeta,
        jsonCmdModelToCmdMetas tb srt
            [⟨methodOverride, t ++ "=<".toList ++ p ++ ">".toList, arguments,
              description⟩] = some [m] ∧
        m = newMeta tb (if methodOverride.length = 0 then flagBody t else methodOverride) p t
          "EQUAL_NO_OPTIONAL".toList description arguments ∧
        m.CmdType = "EQUAL_NO_OPTIONAL".toList ∧ m.Cmd = t) ∧
    (expCmdEqualOptionalWithName.FindStringSubmatch (t ++ "[=<".toList ++ p ++ ">]".toList) =
        some [t ++ "[=<".toList ++ p ++ ">]".toList, t, flagBody t, p] ∧
      ∃ m : CmdMeta,
        jsonCmdModelToCmdMetas tb srt
            [⟨methodOverride, t ++ "[=<".toList ++ p ++ ">]".toList, arguments,
              description⟩] = some [m] ∧
        m = newMeta tb (if methodOverride.length = 0 then flagBody t else methodOverride) p t
          "EQUAL_OPTIONAL_WITH_NAME".toList description arguments ∧
        m.CmdType = "EQUAL_OPTIONAL_WITH_NAME".toList ∧ m.Cmd = t) ∧
    (expCmdWithParameter.FindStringSubmatch (t ++ " <".toList ++ p ++ ">".toList) =
        some [t ++ " <".toList ++ p ++ ">".toList, t, flagBody t, p] ∧
      ∃ m : CmdMeta,
        jsonCmdModelToCmdMetas tb srt
            [⟨methodOverride, t ++ " <".toList ++ p ++ ">".toList, arguments,
              description⟩] = some [m] ∧
        m = newMeta tb (if methodOverride.length = 0 then flagBody t else methodOverride) p t
          "WITH_PARAMETER".toList description arguments ∧
        m.CmdType = "WITH_PARAMETER".toList ∧ m.Cmd = t) := by
  have hcl := all_clsFlag_of_nameChar hpc
  refine ⟨?_, ?_, ?_⟩
  · have e : t ++ "=<".toList ++ p ++ ">".toList = t ++ ('=' :: '<' :: (p ++ ['>'])) := by
      rw [List.append_assoc, List.append_assoc]; rfl
    rw [e]
    have hs := token_split t ('=' :: '<' :: (p ++ ['>'])) ht
      (by intro c hc; simp at hc; subst hc; decide)
    have h1 := find_expCmdSimple_rest (t ++ ('=' :: '<' :: (p ++ ['>'])))
      (by rw [hs.2.1]; simp)
    have hq := takeWhile_append_stop clsNameSpace p ['>']
      (fun c hc => clsNameSpace_of_clsFlag (hcl c hc))
      (by intro c hc; simp at hc; subst hc; decide)
    have h2 : expCmdEqualNoOptional.FindStringSubmatch (t ++ ('=' :: '<' :: (p ++ ['>']))) =
        some [t ++ ('=' :: '<' :: (p ++ ['>'])), t, flagBody t, p] := by
      rw [find_expCmdEqualNoOptional, if_pos hs.2.2, hs.1, hs.2.1]
      simp [restEqualNoOptional, hq.1, hq.2, hp]
    exact ⟨h2, _, metas_single tb srt _ _
      (classifyInto_equalNoOptional tb [] ⟨methodOverride, _, arguments, description⟩ _ t
        (flagBody t) p h1 h2), rfl, rfl, rfl⟩
  · have e : t ++ "[=<".toList ++ p ++ ">]".toList =
        t ++ ('[' :: '=' :: '<' :: (p ++ ['>', ']'])) := by
      rw [List.append_assoc, List.append_assoc]; rfl
    rw [e]
    have hs := token_split t ('[' :: '=' :: '<' :: (p ++ ['>', ']'])) ht
      (by intro c hc; simp at hc; subst hc; decide)
    have h1 := find_expCmdSimple_rest (t ++ ('[' :: '=' :: '<' :: (p ++ ['>', ']'])))
      (by rw [hs.2.1]; simp)
    have h2 : expCmdEqualNoOptional.FindStringSubmatch
        (t ++ ('[' :: '=' :: '<' :: (p ++ ['>', ']']))) = none := by
      rw [find_expCmdEqualNoOptional, if_pos hs.2.2, hs.2.1]
      simp [restEqualNoOptional]
    have hlt : clsChoice '<' = false := by decide
    have h3 : expCmdEqualOptionalWithoutName.FindStringSubmatch
        (t ++ ('[' :: '=' :: '<' :: (p ++ ['>', ']']))) = none := by
      rw [find_expCmdEqualOptionalWithoutName, hs.2.1]
      simp [restEqualOptionalWithoutName, hlt]
    have h4 : expCmdEqualWithoutName.FindStringSubmatch
        (t ++ ('[' :: '=' :: '<' :: (p ++ ['>', ']']))) = none := by
      rw [find_expCmdEqualWithoutName, hs.2.1]
      simp [restEqualWithoutName]
    have hq := takeWhile_append_stop clsNameParen p ['>', ']']
      (fun c hc => clsNameParen_of_clsFlag (hcl c hc))
      (by intro c hc; simp at hc; subst hc; decide)
    have h5 : expCmdEqualOptionalWithName.FindStringSubmatch
        (t ++ ('[' :: '=' :: '<' :: (p ++ ['>', ']']))) =
        some [t ++ ('[' :: '=' :: '<' :: (p ++ ['>', ']'])), t, flagBody t, p] := by
      rw [find_expCmdEqualOptionalWithName, if_pos hs.2.2, hs.1, hs.2.1]
      simp [restEqualOptionalWithName, hq.1, hq.2, hp]
    exact ⟨h5, _, metas_single tb srt _ _
      (classifyInto_equalOptionalWithName tb [] ⟨methodOverride, _, arguments, description⟩ _ t
        (flagBody t) p h1 h2 h3 h4 h5), rfl, rfl, rfl⟩
  · have e : t ++ " <".toList ++ p ++ ">".toList = t ++ (' ' :: '<' :: (p ++ ['>'])) := by
      rw [List.append_assoc, List.append_assoc]; rfl
    rw [e]
    have hs := token_split t (' ' :: '<' :: (p ++ ['>'])) ht
      (by intro c hc; simp at hc; subst hc; decide)
    have h1 := find_expCmdSimple_rest (t ++ (' ' :: '<' :: (p ++ ['>'])))
      (by rw [hs.2.1]; simp)
    have h2 : expCmdEqualNoOptional.FindStringSubmatch
        (t ++ (' ' :: '<' :: (p ++ ['>']))) = none := by
      rw [find_expCmdEqualNoOptional, if_pos hs.2.2, hs.2.1]
      simp [restEqualNoOptional]
    have h3 : expCmdEqualOptionalWithoutName.FindStringSubmatch
        (t ++ (' ' :: '<' :: (p ++ ['>']))) = none := by
      rw [find_expCmdEqualOptionalWithoutName, hs.2.1]
      simp [restEqualOptionalWithoutName]
    have h4 : expCmdEqualWithoutName.FindStringSubmatch
        (t ++ (' ' :: '<' :: (p ++ ['>']))) = none := by
      rw [find_expCmdEqualWithoutName, hs.2.1]
      simp [restEqualWithoutName]
    have h5 : expCmdEqualOptionalWithName.FindStringSubmatch
        (t ++ (' ' :: '<' :: (p ++ ['>']))) = none := by
      rw [find_expCmdEqualOptionalWithName, if_pos hs.2.2, hs.2.1,
        restEqualOptionalWithName_head _ _ (by decide)]
      rfl
    have h6 : expCmdWithParameter.FindStringSubmatch (t ++ (' ' :: '<' :: (p ++ ['>']))) =
        some [t ++ (' ' :: '<' :: (p ++ ['>'])), t, flagBody t, p] := by
      rw [find_expCmdWithParameter, if_pos hs.2.2, hs.1, hs.2.1]
      simp [restWithParameter, restParameter_shape p hp hpc]
    exact ⟨h6, _, metas_single tb srt _ _
      (classifyInto_withParameter tb [] ⟨methodOverride, _, arguments, description⟩ _ t
        (flagBody t) p h1 h2 h3 h4 h5 h6), rfl, rfl, rfl⟩

/-- C2: for every flag token `t` and every non-empty choice text `c` over
`[A-Za-z0-9_-|()]`, the raw syntax `t[=c]` is classified as
EQUAL_OPTIONAL_WITHOUT_NAME and the raw syntaxes `t=(c)` and `t=[c]` as
EQUAL_WITHOUT_NAME; in the three cases the classified flag has `Cmd` equal to
`t` and the argument identifier `value`, whatever the method name is. -/
theorem C2_unnamed_shapes (tb : CaseTables) (srt : SortImpl) (t c : Str)
    (ht : FlagTokenText t) (hc : c ≠ []) (hcc : c.all choiceChar = true)
    (methodOverride arguments description : Str) :
    (∃ m : CmdMeta,
      jsonCmdModelToCmdMetas tb srt
          [⟨methodOverride, t ++ "[=".toList ++ c ++ "]".toList, arguments, description⟩] =
        some [m] ∧
      m.CmdType = "EQUAL_OPTIONAL_WITHOUT_NAME".toList ∧ m.Cmd = t ∧
        m.Argument = "value".toList) ∧
    (∃ m : CmdMeta,
      jsonCmdModelToCmdMetas tb srt
          [⟨methodOverride, t ++ "=(".toList ++ c ++ ")".toList, arguments, description⟩] =
        some [m] ∧
      m.CmdType = "EQUAL_WITHOUT_NAME".toList ∧ m.Cmd = t ∧ m.Argument = "value".toList) ∧
    (∃ m : CmdMeta,
      jsonCmdModelToCmdMetas tb srt
          [⟨methodOverride, t ++ "=[".toList ++ c ++ "]".toList, arguments, description⟩] =
        some [m] ∧
      m.CmdType = "EQUAL_WITHOUT_NAME".toList ∧ m.Cmd = t ∧ m.Argument = "value".toList) := by
  have hcl := all_clsChoice_of_choiceChar hcc
  refine ⟨?_, ?_, ?_⟩
  · have e : t ++ "[=".toList ++ c ++ "]".toList = t ++ ('[' :: '=' :: (c ++ [']'])) := by
      rw [List.append_assoc, List.append_assoc]; rfl
    rw [e]
    have hs := token_split t ('[' :: '=' :: (c ++ [']'])) ht
      (by intro x hx; simp at hx; subst hx; decide)
    have h1 := find_expCmdSimple_rest (t ++ ('[' :: '=' :: (c ++ [']'])))
      (by rw [hs.2.1]; simp)
    have h2 : expCmdEqualNoOptional.FindStringSubmatch
        (t ++ ('[' :: '=' :: (c ++ [']']))) = none := by
      rw [find_expCmdEqualNoOptional, if_pos hs.2.2, hs.2.1]
      simp [restEqualNoOptional]
    have hq := takeWhile_append_stop clsChoice c [']'] hcl
      (by intro x hx; simp at hx; subst hx; decide)
    have h3 : expCmdEqualOptionalWithoutName.FindStringSubmatch
        (t ++ ('[' :: '=' :: (c ++ [']']))) =
        some [t ++ ('[' :: '=' :: (c ++ [']'])), t, flagBody t] := by
      rw [find_expCmdEqualOptionalWithoutName, hs.1, hs.2.1, if_pos]
      refine ⟨hs.2.2, ?_⟩
      simp [restEqualOptionalWithoutName, hq.1, hq.2, hc]
    exact ⟨_, metas_single tb srt _ _
      (classifyInto_equalOptionalWithoutName tb [] ⟨methodOverride, _, arguments, description⟩
        _ t (flagBody t) h1 h2 h3), rfl, rfl, newMeta_value tb _ _ _ _ _⟩
  · have e : t ++ "=(".toList ++ c ++ ")".toList = t ++ ('=' :: '(' :: (c ++ [')'])) := by
      rw [List.append_assoc, List.append_assoc]; rfl
    rw [e]
    have hs := token_split t ('=' :: '(' :: (c ++ [')'])) ht
      (by intro x hx; simp at hx; subst hx; decide)
    have h1 := find_expCmdSimple_rest (t ++ ('=' :: '(' :: (c ++ [')'])))
      (by rw [hs.2.1]; simp)
    have h2 : expCmdEqualNoOptional.FindStringSubmatch
        (t ++ ('=' :: '(' :: (c ++ [')']))) = none := by
      rw [find_expCmdEqualNoOptional, if_pos hs.2.2, hs.2.1]
      simp [restEqualNoOptional]
    have h3 : expCmdEqualOptionalWithoutName.FindStringSubmatch
        (t ++ ('=' :: '(' :: (c ++ [')']))) = none := by
      rw [find_expCmdEqualOptionalWithoutName, hs.2.1]
      simp [restEqualOptionalWithoutName]
    have h4 : expCmdEqualWithoutName.FindStringSubmatch
        (t ++ ('=' :: '(' :: (c ++ [')']))) =
        some [t ++ ('=' :: '(' :: (c ++ [')'])), t, flagBody t] := by
      rw [find_expCmdEqualWithoutName, hs.1, hs.2.1, if_pos]
      refine ⟨hs.2.2, ?_⟩
      have hop : clsOpen '(' = true := by decide
      simp [restEqualWithoutName, hop,
        plusThenClose_append clsChoice clsClose ')' (by decide) c hc hcl]
    exact ⟨_, metas_single tb srt _ _
      (classifyInto_equalWithoutName tb [] ⟨methodOverride, _, arguments, description⟩
        _ t (flagBody t) h1 h2 h3 h4), rfl, rfl, newMeta_value tb _ _ _ _ _⟩
  · have e : t ++ "=[".toList ++ c ++ "]".toList = t ++ ('=' :: '[' :: (c ++ [']'])) := by
      rw [List.append_assoc, List.append_assoc]; rfl
    rw [e]
    have hs := token_split t ('=' :: '[' :: (c ++ [']'])) ht
      (by intro x hx; simp at hx; subst hx; decide)
    have h1 := find_expCmdSimple_rest (t ++ ('=' :: '[' :: (c ++ [']'])))
      (by rw [hs.2.1]; simp)
    have h2 : expCmdEqualNoOptional.FindStringSubmatch
        (t ++ ('=' :: '[' :: (c ++ [']']))) = none := by
      rw [find_expCmdEqualNoOptional, if_pos hs.2.2, hs.2.1]
      simp [restEqualNoOptional]
    have h3 : expCmdEqualOptionalWithoutName.FindStringSubmatch
        (t ++ ('=' :: '[' :: (c ++ [']']))) = none := by
      rw [find_expCmdEqualOptionalWithoutName, hs.2.1]
      simp [restEqualOptionalWithoutName]
    have h4 : expCmdEqualWithoutName.FindStringSubmatch
        (t ++ ('=' :: '[' :: (c ++ [']']))) =
        some [t ++ ('=' :: '[' :: (c ++ [']'])), t, flagBody t] := by
      rw [find_expCmdEqualWithoutName, hs.1, hs.2.1, if_pos]
      refine ⟨hs.2.2, ?_⟩
      have hop : clsOpen '[' = true := by decide
      simp [restEqualWithoutName, hop,
        plusThenClose_append clsChoice clsClose ']' (by decide) c hc hcl]
    exact ⟨_, metas_single tb srt _ _
      (classifyInto_equalWithoutName tb [] ⟨methodOverride, _, arguments, description⟩
        _ t (flagBody t) h1 h2 h3 h4), rfl, rfl, newMeta_value tb _ _ _ _ _⟩

/-- C1 on `--strategy=<strategy>`, `--log[=<n>]` and `-n <number>`. -/
theorem C1_witness :
    (FlagTokenText "--strategy".toList ∧ FlagTokenText "--log".toList ∧
      FlagTokenText "-n".toList) ∧
    (expCmdEqualNoOptional.FindStringSubmatch "--strategy=<strategy>".toList =
        some ["--strategy=<strategy>".toList, "--strategy".toList, "strategy".toList,
          "strategy".toList] ∧
      ∃ m : CmdMeta,
        jsonCmdModelToCmdMetas CaseTables.ascii insertionSortImpl
            [⟨[], "--strategy=<strategy>".toList, [], []⟩] = some [m] ∧
        m = newMeta CaseTables.ascii "strategy".toList "strategy".toList "--strategy".toList
          "EQUAL_NO_OPTIONAL".toList [] [] ∧
        m.CmdType = "EQUAL_NO_OPTIONAL".toList ∧ m.Cmd = "--strategy".toList) ∧
    (expCmdEqualOptionalWithName.FindStringSubmatch "--log[=<n>]".toList =
        some ["--log[=<n>]".toList, "--log".toList, "log".toList, "n".toList] ∧
      ∃ m : CmdMeta,
        jsonCmdModelToCmdMetas CaseTables.ascii insertionSortImpl
            [⟨[], "--log[=<n>]".toList, [], []⟩] = some [m] ∧
        m = newMeta CaseTables.ascii "log".toList "n".toList "--log".toList
          "EQUAL_OPTIONAL_WITH_NAME".toList [] [] ∧
        m.CmdType = "EQUAL_OPTIONAL_WITH_NAME".toList ∧ m.Cmd = "--log".toList) ∧
    (expCmdWithParameter.FindStringSubmatch "-n <number>".toList =
        some ["-n <number>".toList, "-n".toList, "n".toList, "number".toList] ∧
      ∃ m : CmdMeta,
        jsonCmdModelToCmdMetas CaseTables.ascii insertionSortImpl
            [⟨[], "-n <number>".toList, [], []⟩] = some [m] ∧
        m = newMeta CaseTables.ascii "n".toList "number".toList "-n".toList
          "WITH_PARAMETER".toList [] [] ∧
        m.CmdType = "WITH_PARAMETER".toList ∧ m.Cmd = "-n".toList) :=
  ⟨⟨⟨"strategy".toList, by decide, by decide, Or.inr rfl⟩,
      ⟨"log".toList, by decide, by decide, Or.inr rfl⟩,
      ⟨"n".toList, by decide, by decide, Or.inl rfl⟩⟩,
    (C1_named_shapes CaseTables.ascii insertionSortImpl "--strategy".toList "strategy".toList
      ⟨"strategy".toList, by decide, by decide, Or.inr rfl⟩ (by decide) (by decide) [] [] []).1,
    (C1_named_shapes CaseTables.ascii insertionSortImpl "--log".toList "n".toList
      ⟨"log".toList, by decide, by decide, Or.inr rfl⟩ (by decide) (by decide) [] [] []).2.1,
    (C1_named_shapes CaseTables.ascii insertionSortImpl "-n".toList "number".toList
      ⟨"n".toList, by decide, by decide, Or.inl rfl⟩ (by decide) (by decide) [] [] []).2.2⟩

/-- C2 on `--no-recurse-submodules[=yes|on-demand|no]`, `--sign=(true|false|if-asked)`
and `--recurse-submodules-default=[yes|on-demand]`. -/
theorem C2_witness :
    (FlagTokenText "--no-recurse-submodules".toList ∧ FlagTokenText "--sign".toList ∧
      FlagTokenText "--recurse-submodules-default".toList) ∧
    (∃ m : CmdMeta,
      jsonCmdModelToCmdMetas CaseTables.ascii insertionSortImpl
          [⟨[], "--no-recurse-submodules[=yes|on-demand|no]".toList, [], []⟩] = some [m] ∧
      m.CmdType = "EQUAL_OPTIONAL_WITHOUT_NAME".toList ∧
        m.Cmd = "--no-recurse-submodules".toList ∧ m.Argument = "value".toList) ∧
    (∃ m : CmdMeta,
      jsonCmdModelToCmdMetas CaseTables.ascii insertionSortImpl
          [⟨[], "--sign=(true|false|if-asked)".toList, [], []⟩] = some [m] ∧
      m.CmdType = "EQUAL_WITHOUT_NAME".toList ∧ m.Cmd = "--sign".toList ∧
        m.Argument = "value".toList) ∧
    (∃ m : CmdMeta,
      jsonCmdModelToCmdMetas CaseTables.ascii insertionSortImpl
          [⟨[], "--recurse-submodules-default=[yes|on-demand]".toList, [], []⟩] = some [m] ∧
      m.CmdType = "EQUAL_WITHOUT_NAME".toList ∧
        m.Cmd = "--recurse-submodules-default".toList ∧ m.Argument = "value".toList) :=
  ⟨⟨⟨"no-recurse-submodules".toList, by decide, by decide, Or.inr rfl⟩,
      ⟨"sign".toList, by decide, by decide, Or.inr rfl⟩,
      ⟨"recurse-submodules-default".toList, by decide, by decide, Or.inr rfl⟩⟩,
    (C2_unnamed_shapes CaseTables.ascii insertionSortImpl "--no-recurse-submodules".toList
      "yes|on-demand|no".toList
      ⟨"no-recurse-submodules".toList, by decide, by decide, Or.inr rfl⟩
      (by decide) (by decide) [] [] []).1,
    (C2_unnamed_shapes CaseTables.ascii insertionSortImpl "--sign".toList
      "true|false|if-asked".toList ⟨"sign".toList, by decide, by decide, Or.inr rfl⟩
      (by decide) (by decide) [] [] []).2.1,
    (C2_unnamed_shapes CaseTables.ascii insertionSortImpl "--recurse-submodules-default".toList
      "yes|on-demand".toList
      ⟨"recurse-submodules-default".toList, by decide, by decide, Or.inr rfl⟩
      (by decide) (by decide) [] [] []).2.2⟩

/-! ### The six patterns exclude one another -/

theorem match_expCmdSimple (s : Str) (h : expCmdSimple.MatchString s = true) :
    shapeKey (flagRest s) = 1 ∧
      expCmdSimple.FindStringSubmatch s = some [s, flagToken s, flagBody (flagToken s)] := by
  unfold Regexp.MatchString at h
  rw [find_expCmdSimple] at h ⊢
  by_cases hc : flagTokenOK s ∧ flagRest s = []
  · rw [if_pos hc]; rw [hc.2]; exact ⟨rfl, rfl⟩
  · rw [if_neg hc] at h; exact absurd h (by simp)

theorem match_expCmdEqualNoOptional (s : Str) (h : expCmdEqualNoOptional.MatchString s = true) :
    shapeKey (flagRest s) = 2 ∧ ∃ q, expCmdEqualNoOptional.FindStringSubmatch s =
      some [s, flagToken s, flagBody (flagToken s), q] := by
  unfold Regexp.MatchString at h
  rw [find_expCmdEqualNoOptional] at h ⊢
  by_cases hc : flagTokenOK s
  · rw [if_pos hc] at h ⊢
    rcases hr : flagRest s with _ | ⟨a, _ | ⟨b, r⟩⟩
    · rw [hr] at h; simp [restEqualNoOptional] at h
    · rw [hr] at h; simp [restEqualNoOptional] at h
    · rw [hr] at h
      cases hq : restEqualNoOptional (a :: b :: r) with
      | none => rw [hq] at h; simp at h
      | some q =>
        refine ⟨?_, q, rfl⟩
        simp only [restEqualNoOptional] at hq
        split at hq
        · rename_i hh
          obtain ⟨ha, hb, _⟩ := hh
          subst ha; subst hb
          rfl
        · exact absurd hq (by simp)
  · rw [if_neg hc] at h; exact absurd h (by simp)

theorem match_expCmdEqualOptionalWithoutName (s : Str)
    (h : expCmdEqualOptionalWithoutName.MatchString s = true) :
    shapeKey (flagRest s) = 3 ∧ expCmdEqualOptionalWithoutName.FindStringSubmatch s =
      some [s, flagToken s, flagBody (flagToken s)] := by
  unfold Regexp.MatchString at h
  rw [find_expCmdEqualOptionalWithoutName] at h ⊢
  by_cases hc : flagTokenOK s ∧ restEqualOptionalWithoutName (flagRest s) = true
  · rw [if_pos hc]
    refine ⟨?_, rfl⟩
    have h2 := hc.2
    rcases hr : flagRest s with _ | ⟨a, _ | ⟨b, _ | ⟨c, r⟩⟩⟩
    · rw [hr] at h2; simp [restEqualOptionalWithoutName] at h2
    · rw [hr] at h2; simp [restEqualOptionalWithoutName] at h2
    · rw [hr] at h2; simp [restEqualOptionalWithoutName] at h2
    · rw [hr] at h2
      simp only [restEqualOptionalWithoutName, decide_eq_true_eq] at h2
      obtain ⟨ha, hb, htw, _⟩ := h2
      subst ha; subst hb
      have hcl : clsChoice c = true := by
        by_contra hn
        exact htw (by simp [hn])
      have hne : c ≠ '<' := by
        intro e; subst e; exact absurd hcl (by decide)
      simp [shapeKey, hne]
  · rw [if_neg hc] at h; exact absurd h (by simp)

theorem match_expCmdEqualWithoutName (s : Str)
    (h : expCmdEqualWithoutName.MatchString s = true) :
    shapeKey (flagRest s) = 4 ∧ expCmdEqualWithoutName.FindStringSubmatch s =
      some [s, flagToken s, flagBody (flagToken s)] := by
  unfold Regexp.MatchString at h
  rw [find_expCmdEqualWithoutName] at h ⊢
  by_cases hc : flagTokenOK s ∧ restEqualWithoutName (flagRest s) = true
  · rw [if_pos hc]
    refine ⟨?_, rfl⟩
    have h2 := hc.2
    rcases hr : flagRest s with _ | ⟨a, _ | ⟨b, r⟩⟩
    · rw [hr] at h2; simp [restEqualWithoutName] at h2
    · rw [hr] at h2; simp [restEqualWithoutName] at h2
    · rw [hr] at h2
      simp only [restEqualWithoutName, Bool.and_eq_true, decide_eq_true_eq] at h2
      obtain ⟨⟨ha, hb⟩, _⟩ := h2
      subst ha
      have hne : b ≠ '<' := by
        intro e; subst e; exact absurd hb (by decide)
      simp [shapeKey, hne]
  · rw [if_neg hc] at h; exact absurd h (by simp)

theorem match_expCmdEqualOptionalWithName (s : Str)
    (h : expCmdEqualOptionalWithName.MatchString s = true) :
    shapeKey (flagRest s) = 5 ∧ ∃ q, expCmdEqualOptionalWithName.FindStringSubmatch s =
      some [s, flagToken s, flagBody (flagToken s), q] := by
  unfold Regexp.MatchString at h
  rw [find_expCmdEqualOptionalWithName] at h ⊢
  by_cases hc : flagTokenOK s
  · rw [if_pos hc] at h ⊢
    rcases hr : flagRest s with _ | ⟨a, _ | ⟨b, _ | ⟨c, r⟩⟩⟩
    · rw [hr] at h; simp [restEqualOptionalWithName] at h
    · rw [hr] at h; simp [restEqualOptionalWithName] at h
    · rw [hr] at h; simp [restEqualOptionalWithName] at h
    · rw [hr] at h
      cases hq : restEqualOptionalWithName (a :: b :: c :: r) with
      | none => rw [hq] at h; simp at h
      | some q =>
        refine ⟨?_, q, rfl⟩
        simp only [restEqualOptionalWithName] at hq
        split at hq
        · rename_i hh
          obtain ⟨ha, hb, hc1, _⟩ := hh
          subst ha; subst hb; subst hc1
          rfl
        · exact absurd hq (by simp)
  · rw [if_neg hc] at h; exact absurd h (by simp)

theorem match_expCmdWithParameter (s : Str)
    (h : expCmdWithParameter.MatchString s = true) :
    shapeKey (flagRest s) = 6 ∧ ∃ q, expCmdWithParameter.FindStringSubmatch s =
      some [s, flagToken s, flagBody (flagToken s), q] := by
  unfold Regexp.MatchString at h
  rw [find_expCmdWithParameter] at h ⊢
  by_cases hc : flagTokenOK s
  · rw [if_pos hc] at h ⊢
    rcases hr : flagRest s with _ | ⟨a, r⟩
    · rw [hr] at h; simp [restWithParameter] at h
    · rw [hr] at h
      cases hq : restWithParameter (a :: r) with
      | none => rw [hq] at h; simp at h
      | some q =>
        refine ⟨?_, q, rfl⟩
        by_cases ha : a = ' '
        · simp [shapeKey, ha]
        · simp only [restWithParameter, if_neg ha, restParameter] at hq
          split at hq
          · rename_i hh
            simp [shapeKey, hh.1]
          · exact absurd hq (by simp)
  · rw [if_neg hc] at h; exact absurd h (by simp)

theorem find_none_of_not_match (e : Regexp) (s : Str) (h : e.MatchString s = false) :
    e.FindStringSubmatch s = none := by
  unfold Regexp.MatchString at h
  cases hf : e.FindStringSubmatch s with
  | none => rfl
  | some m => rw [hf] at h; simp at h

/-- At most one of the six patterns matches a raw syntax. -/
theorem shapes_filter_le_one (s : Str) :
    (shapes.filter (fun e => e.1.MatchString s)).length ≤ 1 := by
  have k1 := fun h => (match_expCmdSimple s h).1
  have k2 := fun h => (match_expCmdEqualNoOptional s h).1
  have k3 := fun h => (match_expCmdEqualOptionalWithoutName s h).1
  have k4 := fun h => (match_expCmdEqualWithoutName s h).1
  have k5 := fun h => (match_expCmdEqualOptionalWithName s h).1
  have k6 := fun h => (match_expCmdWithParameter s h).1
  cases b1 : expCmdSimple.MatchString s <;>
  cases b2 : expCmdEqualNoOptional.MatchString s <;>
  cases b3 : expCmdEqualOptionalWithoutName.MatchString s <;>
  cases b4 : expCmdEqualWithoutName.MatchString s <;>
  cases b5 : expCmdEqualOptionalWithName.MatchString s <;>
  cases b6 : expCmdWithParameter.MatchString s <;>
  first
    | (simp [shapes, List.filter, b1, b2, b3, b4, b5, b6]; done)
    | (exfalso
       have e1 := fun h => k1 (b1.trans h)
       have e2 := fun h => k2 (b2.trans h)
       have e3 := fun h => k3 (b3.trans h)
       have e4 := fun h => k4 (b4.trans h)
       have e5 := fun h => k5 (b5.trans h)
       have e6 := fun h => k6 (b6.trans h)
       simp at e1 e2 e3 e4 e5 e6
       omega)

theorem find_eq_of_filter_le_one {α : Type} (p : α → Bool) (l1 l2 : List α)
    (hp : List.Perm l1 l2) (h : (l2.filter p).length ≤ 1) : l1.find? p = l2.find? p := by
  rw [← List.filter_head?, ← List.filter_head?]
  have hf : List.Perm (l1.filter p) (l2.filter p) := hp.filter p
  rcases hl : l2.filter p with _ | ⟨a, _ | ⟨b, r⟩⟩
  · rw [hl] at hf; rw [List.perm_nil.mp hf]
  · rw [hl] at hf; rw [List.perm_singleton.mp hf]
  · rw [hl] at h; simp at h

/-- What the body of the classification loop does with a record: nothing when
no pattern matches, and otherwise it appends one classified flag, whose type is
that of the first matching pattern and whose `Cmd` is the flag token. -/
theorem classifyInto_cases (tb : CaseTables) (metas : List CmdMeta) (j : JSONCmdModel) :
    (shapeIn shapes j.Argument = none ∧ classifyInto tb metas j = some metas) ∨
    (∃ ty raw, shapeIn shapes j.Argument = some ty ∧
      classifyInto tb metas j = some (metas ++
        [newMeta tb (methodName (flagBody (flagToken j.Argument)) j) raw
          (flagToken j.Argument) ty j.Description j.Arguments])) := by
  cases b1 : expCmdSimple.MatchString j.Argument with
  | true =>
    right
    refine ⟨_, _, ?_, classifyInto_simple tb metas j _ _ _ (match_expCmdSimple _ b1).2⟩
    simp [shapeIn, shapes, List.find?, b1]
  | false =>
    have f1 := find_none_of_not_match _ _ b1
    cases b2 : expCmdEqualNoOptional.MatchString j.Argument with
    | true =>
      right
      obtain ⟨q, hq⟩ := (match_expCmdEqualNoOptional _ b2).2
      refine ⟨_, _, ?_, classifyInto_equalNoOptional tb metas j _ _ _ q f1 hq⟩
      simp [shapeIn, shapes, List.find?, b1, b2]
    | false =>
      have f2 := find_none_of_not_match _ _ b2
      cases b3 : expCmdEqualOptionalWithoutName.MatchString j.Argument with
      | true =>
        right
        refine ⟨_, _, ?_, classifyInto_equalOptionalWithoutName tb metas j _ _ _ f1 f2
          (match_expCmdEqualOptionalWithoutName _ b3).2⟩
        simp [shapeIn, shapes, List.find?, b1, b2, b3]
      | false =>
        have f3 := find_none_of_not_match _ _ b3
        cases b4 : expCmdEqualWithoutName.MatchString j.Argument with
        | true =>
          right
          refine ⟨_, _, ?_, classifyInto_equalWithoutName tb metas j _ _ _ f1 f2 f3
            (match_expCmdEqualWithoutName _ b4).2⟩
          simp [shapeIn, shapes, List.find?, b1, b2, b3, b4]
        | false =>
          have f4 := find_none_of_not_match _ _ b4
          cases b5 : expCmdEqualOptionalWithName.MatchString j.Argument with
          | true =>
            right
            obtain ⟨q, hq⟩ := (match_expCmdEqualOptionalWithName _ b5).2
            refine ⟨_, _, ?_,
              classifyInto_equalOptionalWithName tb metas j _ _ _ q f1 f2 f3 f4 hq⟩
            simp [shapeIn, shapes, List.find?, b1, b2, b3, b4, b5]
          | false =>
            have f5 := find_none_of_not_match _ _ b5
            cases b6 : expCmdWithParameter.MatchString j.Argument with
            | true =>
              right
              obtain ⟨q, hq⟩ := (match_expCmdWithParameter _ b6).2
              refine ⟨_, _, ?_,
                classifyInto_withParameter tb metas j _ _ _ q f1 f2 f3 f4 f5 hq⟩
              simp [shapeIn, shapes, List.find?, b1, b2, b3, b4, b5, b6]
            | false =>
              left
              refine ⟨by simp [shapeIn, shapes, List.find?, b1, b2, b3, b4, b5, b6], ?_⟩
              simp [classifyInto, b1, b2, b3, b4, b5, b6]

/-- C4: a raw flag syntax matches at most one of the six patterns.  So the type
found by the checks does not depend on their order, and the loop of
`jsonCmdModelToCmdMetas` either appends nothing (no pattern matches) or appends
one classified flag whose type is the one of the only matching pattern. -/
theorem C4_at_most_one_shape (s : Str) :
    (shapes.filter (fun e => e.1.MatchString s)).length ≤ 1 ∧
    (∀ order : List (Regexp × Str), List.Perm order shapes →
      shapeIn order s = shapeIn shapes s) ∧
    (∀ (tb : CaseTables) (metas : List CmdMeta) (j : JSONCmdModel), j.Argument = s →
      (shapeIn shapes s = none ∧ classifyInto tb metas j = some metas) ∨
      (∃ m : CmdMeta, shapeIn shapes s = some m.CmdType ∧
        classifyInto tb metas j = some (metas ++ [m]))) := by
  refine ⟨shapes_filter_le_one s, ?_, ?_⟩
  · intro order hp
    unfold shapeIn
    rw [find_eq_of_filter_le_one _ order shapes hp (shapes_filter_le_one s)]
  · intro tb metas j hj
    subst hj
    rcases classifyInto_cases tb metas j with h | ⟨ty, raw, h1, h2⟩
    · exact Or.inl h
    · exact Or.inr ⟨_, h1, h2⟩

/-- C4 on `--log[=<n>]`, with the six checks made in the reverse order. -/
theorem C4_witness :
    (shapes.filter (fun e => e.1.MatchString "--log[=<n>]".toList)).length ≤ 1 ∧
    (List.Perm shapes.reverse shapes ∧
      shapeIn shapes.reverse "--log[=<n>]".toList = shapeIn shapes "--log[=<n>]".toList) ∧
    ((shapeIn shapes "--log[=<n>]".toList = none ∧
        classifyInto CaseTables.ascii [] ⟨[], "--log[=<n>]".toList, [], []⟩ = some []) ∨
      (∃ m : CmdMeta, shapeIn shapes "--log[=<n>]".toList = some m.CmdType ∧
        classifyInto CaseTables.ascii [] ⟨[], "--log[=<n>]".toList, [], []⟩ =
          some ([] ++ [m]))) :=
  ⟨(C4_at_most_one_shape "--log[=<n>]".toList).1,
    ⟨List.reverse_perm shapes,
      (C4_at_most_one_shape "--log[=<n>]".toList).2.1 shapes.reverse (List.reverse_perm shapes)⟩,
    (C4_at_most_one_shape "--log[=<n>]".toList).2.2 CaseTables.ascii []
      ⟨[], "--log[=<n>]".toList, [], []⟩ rfl⟩

/-! ### Name derivation on kebab-case words -/

theorem joinHyphen_cons (w : Str) (ws : List Str) :
    joinHyphen (w :: ws) = w ++ hyphenWords ws := by
  induction ws generalizing w with
  | nil => simp [joinHyphen, hyphenWords]
  | cons w2 ws ih => simp [joinHyphen, hyphenWords, ih w2]

theorem toUpperRune_lower (tb : CaseTables) (c : Char) (h : isLowerLetter c = true) :
    toUpperRune tb c = Char.ofNat (c.toNat - 32) := by
  simp only [isLowerLetter, decide_eq_true_eq] at h
  have h1 : c.toNat < 128 := by omega
  simp [toUpperRune, h1, h]

theorem ne_hyphen_of_lower {c : Char} (h : isLowerLetter c = true) : c ≠ '-' := by
  intro e; subst e; exact absurd h (by decide)

theorem dropWhile_eq_self (p : Char → Bool) (l : List Char) (h : ∀ c ∈ l, p c = false) :
    l.dropWhile p = l := by
  cases l with
  | nil => rfl
  | cons c cs => simp [List.dropWhile, h c (by simp)]

/-- `strings.TrimSpace` leaves a text without white space as it is. -/
theorem trimSpace_eq_self (s : Str) (h : ∀ c ∈ s, isSpace c = false) : trimSpace s = s := by
  unfold trimSpace
  rw [dropWhile_eq_self isSpace s h,
    dropWhile_eq_self isSpace s.reverse (fun c hc => h c (List.mem_reverse.mp hc)),
    List.reverse_reverse]

/-- `strings.Replace` leaves a text without space as it is. -/
theorem replaceSpaces_eq_self (s : Str) (h : ∀ c ∈ s, c ≠ ' ') : replaceSpaces s = s := by
  unfold replaceSpaces
  induction s with
  | nil => rfl
  | cons c cs ih =>
    have hc : c ≠ ' ' := h c (by simp)
    simp only [List.map_cons, if_neg hc]
    rw [ih (fun x hx => h x (by simp [hx]))]

/-- The loop of `toGoName` copies a run of letters that are not the first rune
to be upper-cased. -/
theorem toGoNameLoop_word (tb : CaseTables) (upperFirst : Bool) (w : Str)
    (hw : ∀ c ∈ w, c ≠ '-') :
    ∀ (i : Nat) (acc rest : Str), ¬ (i = 0 ∧ upperFirst = true) →
      toGoNameLoop tb upperFirst i false acc (w ++ rest) =
        toGoNameLoop tb upperFirst (i + w.length) false (acc ++ w) rest := by
  induction w with
  | nil => intro i acc rest _; simp
  | cons c cs ih =>
    intro i acc rest hi
    have hc : c ≠ '-' := hw c (by simp)
    have h1 : ¬ (i + 1 = 0 ∧ upperFirst = true) := by omega
    simp only [List.cons_append, toGoNameLoop, if_neg hi, if_neg hc, Bool.false_eq_true,
      if_false, List.append_eq]
    rw [ih (fun x hx => hw x (by simp [hx])) (i + 1) (acc ++ [c]) rest h1]
    simp [Nat.add_assoc, Nat.add_comm 1]

/-- The loop of `toGoName` on words that each follow a hyphen. -/
theorem toGoNameLoop_hyphenWords (tb : CaseTables) (upperFirst : Bool) (ws : List Str)
    (hws : ∀ w ∈ ws, w ≠ [] ∧ ∀ c ∈ w, isLowerLetter c = true) :
    ∀ (i : Nat) (acc : Str), ¬ (i = 0 ∧ upperFirst = true) →
      toGoNameLoop tb upperFirst i false acc (hyphenWords ws) = acc ++ camelWords ws := by
  induction ws with
  | nil => intro i acc _; simp [hyphenWords, camelWords, toGoNameLoop]
  | cons w ws ih =>
    intro i acc hi
    obtain ⟨hne, hlow⟩ := hws w (by simp)
    cases w with
    | nil => exact absurd rfl hne
    | cons c cs =>
      have h1 : ¬ (i + 1 = 0 ∧ upperFirst = true) := by omega
      have h2 : ¬ (i + 1 + 1 = 0 ∧ upperFirst = true) := by omega
      have hcs : ∀ x ∈ cs, x ≠ '-' := fun x hx => ne_hyphen_of_lower (hlow x (by simp [hx]))
      simp only [hyphenWords, List.cons_append, toGoNameLoop, if_neg hi, if_neg h1,
        Bool.false_eq_true, if_false, if_true, List.append_eq]
      rw [toGoNameLoop_word tb upperFirst cs hcs _ _ _ h2,
        ih (fun x hx => hws x (by simp [hx])) _ _ (by omega),
        toUpperRune_lower tb c (hlow c (by simp))]
      simp [camelWords, capitalize]

theorem mem_hyphenWords (ws : List Str) (hws : ∀ w ∈ ws, ∀ c ∈ w, isLowerLetter c = true) :
    ∀ c ∈ hyphenWords ws, isLowerLetter c = true ∨ c = '-' := by
  induction ws with
  | nil => intro c hc; simp [hyphenWords] at hc
  | cons w ws ih =>
    intro c hc
    simp only [hyphenWords, List.mem_cons, List.mem_append] at hc
    rcases hc with h | h | h
    · exact Or.inr h
    · exact Or.inl (hws w (by simp) c h)
    · exact ih (fun x hx => hws x (by simp [hx])) c h

theorem not_space_of_lower_or_hyphen {c : Char} (h : isLowerLetter c = true ∨ c = '-') :
    isSpace c = false ∧ c ≠ ' ' := by
  rcases h with h | h
  · simp only [isLowerLetter, decide_eq_true_eq] at h
    constructor
    · simp only [isSpace, Bool.or_eq_false_iff, decide_eq_false_iff_not]
      omega
    · intro e; subst e; simp at h
  · subst h; exact ⟨by decide, by decide⟩

/-- C5: for every non-empty list of non-empty words of lowercase ASCII letters
joined by single hyphens, `toGoName(..., true)` is the words one after the
other, each with its first letter in upper case, and `toGoName(..., false)` is
the first word unchanged followed by the other words, each with its first
letter in upper case. -/
theorem C5_toGoName_kebab (tb : CaseTables) (w : Str) (ws : List Str)
    (h : ∀ x ∈ w :: ws, x ≠ [] ∧ ∀ c ∈ x, isLowerLetter c = true) :
    toGoName tb (joinHyphen (w :: ws)) true = camelWords (w :: ws) ∧
    toGoName tb (joinHyphen (w :: ws)) false = w ++ camelWords ws := by
  have hws : ∀ x ∈ ws, x ≠ [] ∧ ∀ c ∈ x, isLowerLetter c = true :=
    fun x hx => h x (by simp [hx])
  obtain ⟨hne, hlow⟩ := h w (by simp)
  have hmem : ∀ c ∈ joinHyphen (w :: ws), isLowerLetter c = true ∨ c = '-' := by
    intro c hc
    rw [joinHyphen_cons, List.mem_append] at hc
    rcases hc with hc | hc
    · exact Or.inl (hlow c hc)
    · exact mem_hyphenWords ws (fun x hx => (hws x hx).2) c hc
  have e1 : trimSpace (joinHyphen (w :: ws)) = joinHyphen (w :: ws) :=
    trimSpace_eq_self _ (fun c hc => (not_space_of_lower_or_hyphen (hmem c hc)).1)
  have e2 : replaceSpaces (joinHyphen (w :: ws)) = joinHyphen (w :: ws) :=
    replaceSpaces_eq_self _ (fun c hc => (not_space_of_lower_or_hyphen (hmem c hc)).2)
  have hw : ∀ c ∈ w, c ≠ '-' := fun c hc => ne_hyphen_of_lower (hlow c hc)
  unfold toGoName
  rw [e1, e2, joinHyphen_cons]
  constructor
  · cases w with
    | nil => exact absurd rfl hne
    | cons c cs =>
      simp only [List.cons_append, toGoNameLoop, and_self, if_true, List.append_eq]
      rw [toGoNameLoop_word tb true cs (fun x hx => hw x (by simp [hx])) _ _ _ (by omega),
        toGoNameLoop_hyphenWords tb true ws hws _ _ (by omega),
        toUpperRune_lower tb c (hlow c (by simp))]
      simp [camelWords, capitalize]
  · rw [toGoNameLoop_word tb false w hw _ _ _ (by simp),
      toGoNameLoop_hyphenWords tb false ws hws _ _ (by simp)]
    simp

/-- C5 on `dry-run` and on `force`. -/
theorem C5_witness :
    (∀ x ∈ ["dry".toList, "run".toList], x ≠ [] ∧ ∀ c ∈ x, isLowerLetter c = true) ∧
    (toGoName CaseTables.ascii "dry-run".toList true = "DryRun".toList ∧
      toGoName CaseTables.ascii "dry-run".toList false = "dryRun".toList) ∧
    toGoName CaseTables.ascii "force".toList true = "Force".toList :=
  ⟨by decide,
    C5_toGoName_kebab CaseTables.ascii "dry".toList ["run".toList] (by decide),
    (C5_toGoName_kebab CaseTables.ascii "force".toList [] (by decide)).1⟩

/-! ### Name derivation on any text -/

theorem noDoubleHyphen_tail {a : Char} {t : List Char} (h : NoDoubleHyphen (a :: t)) :
    NoDoubleHyphen t := by
  cases t with
  | nil => rfl
  | cons b r =>
    simp only [NoDoubleHyphen, noDoubleHyphen, Bool.and_eq_true] at h
    exact h.2

theorem noDoubleHyphen_head {a b : Char} {t : List Char} (h : NoDoubleHyphen (a :: b :: t))
    (ha : a = '-') : b ≠ '-' := by
  intro hb
  simp [NoDoubleHyphen, noDoubleHyphen, ha, hb] at h

theorem toGoNameLoop_cons (tb : CaseTables) (upperFirst : Bool) (i : Nat) (isToUpper : Bool)
    (camelCase : Str) (runeValue : Char) (rest : List Char) :
    toGoNameLoop tb upperFirst i isToUpper camelCase (runeValue :: rest) =
      if i = 0 ∧ upperFirst = true then
        toGoNameLoop tb upperFirst (i + 1) isToUpper (camelCase ++ [toUpperRune tb runeValue]) rest
      else if isToUpper = true then
        toGoNameLoop tb upperFirst (i + 1) false (camelCase ++ [toUpperRune tb runeValue]) rest
      else if runeValue = '-' then
        toGoNameLoop tb upperFirst (i + 1) true camelCase rest
      else
        toGoNameLoop tb upperFirst (i + 1) isToUpper (camelCase ++ [runeValue]) rest := rfl

theorem toGoNameRule_cons (tb : CaseTables) (upperFirst : Bool) (prev : Option Char) (r : Char)
    (rest : List Char) :
    toGoNameRule tb upperFirst prev (r :: rest) =
      (if r = '-' then []
        else [if prev = some '-' ∨ (prev = none ∧ upperFirst = true) then toUpperRune tb r
          else r]) ++ toGoNameRule tb upperFirst (some r) rest := rfl

theorem toGoNameLoop_rule (tb : CaseTables) (upperFirst : Bool) :
    ∀ (rest : List Char) (prev : Option Char) (i : Nat) (acc : Str),
      (i = 0 ↔ prev = none) → NoDoubleHyphen (prev.toList ++ rest) →
      (upperFirst = true → prev = none → rest.head? ≠ some '-') →
      toGoNameLoop tb upperFirst i (decide (prev = some '-')) acc rest =
        acc ++ toGoNameRule tb upperFirst prev rest := by
  intro rest
  induction rest with
  | nil => intro prev i acc _ _ _; simp [toGoNameLoop, toGoNameRule]
  | cons r rest ih =>
    intro prev i acc hi hch hfirst
    have hnext : (i + 1 = 0 ↔ some r = (none : Option Char)) := by simp
    have hch1 : NoDoubleHyphen ((some r).toList ++ rest) := by
      cases prev with
      | none => exact hch
      | some q => exact noDoubleHyphen_tail hch
    have ih1 : ∀ (b : Bool) (acc1 : Str), b = decide (some r = some '-') →
        toGoNameLoop tb upperFirst (i + 1) b acc1 rest =
          acc1 ++ toGoNameRule tb upperFirst (some r) rest := by
      intro b acc1 hb
      rw [hb]
      exact ih (some r) (i + 1) acc1 hnext hch1 (by intro _ h; simp at h)
    rw [toGoNameLoop_cons, toGoNameRule_cons]
    by_cases h0 : i = 0 ∧ upperFirst = true
    · have hp : prev = none := hi.mp h0.1
      have hr : r ≠ '-' := by
        intro e
        exact hfirst h0.2 hp (by simp [e])
      have hd : decide (prev = some '-') = false := by simp [hp]
      rw [if_pos h0, if_neg hr, if_pos (Or.inr ⟨hp, h0.2⟩), hd, ih1 false _ (by simp [hr])]
      simp
    · rw [if_neg h0]
      by_cases hpv : prev = some '-'
      · have hr : r ≠ '-' := by
          rw [hpv] at hch
          exact noDoubleHyphen_head hch rfl
        rw [if_pos (decide_eq_true hpv), if_neg hr, if_pos (Or.inl hpv),
          ih1 false _ (by simp [hr])]
        simp
      · have hup : ¬ (prev = some '-' ∨ (prev = none ∧ upperFirst = true)) := by
          intro h
          rcases h with h | h
          · exact hpv h
          · exact h0 ⟨hi.mpr h.1, h.2⟩
        have hd : decide (prev = some '-') = false := decide_eq_false hpv
        rw [hd, if_neg (by simp)]
        by_cases hr : r = '-'
        · rw [if_pos hr, if_pos hr, ih1 true _ (by simp [hr])]
          simp
        · rw [if_neg hr, if_neg hr, if_neg hup, ih1 false _ (by simp [hr])]
          simp

theorem toUpperRune_ne (tb : CaseTables)
    (htb : ∀ c : Char, 128 ≤ c.toNat → tb.upper c ≠ '-' ∧ tb.upper c ≠ ' ')
    (r : Char) (h1 : r ≠ '-') (h2 : r ≠ ' ') :
    toUpperRune tb r ≠ '-' ∧ toUpperRune tb r ≠ ' ' := by
  unfold toUpperRune
  split
  · split
    · rename_i _ hl
      obtain ⟨ha, hb⟩ := hl
      generalize hn : r.toNat = n at ha hb
      interval_cases n <;> exact ⟨by decide, by decide⟩
    · exact ⟨h1, h2⟩
  · rename_i hge
    exact htb r (by omega)

theorem toGoNameRule_mem (tb : CaseTables) (upperFirst : Bool)
    (htb : ∀ c : Char, 128 ≤ c.toNat → tb.upper c ≠ '-' ∧ tb.upper c ≠ ' ') :
    ∀ (t : List Char) (prev : Option Char), (∀ c ∈ t, c ≠ ' ') →
      ∀ x ∈ toGoNameRule tb upperFirst prev t, x ≠ '-' ∧ x ≠ ' ' := by
  intro t
  induction t with
  | nil => intro prev _ x hx; simp [toGoNameRule] at hx
  | cons r rest ih =>
    intro prev ht x hx
    rw [toGoNameRule_cons, List.mem_append] at hx
    rcases hx with hx | hx
    · by_cases hr : r = '-'
      · rw [if_pos hr] at hx; simp at hx
      · rw [if_neg hr] at hx
        have hsp : r ≠ ' ' := ht r (by simp)
        split at hx
        · simp only [List.mem_singleton] at hx
          rw [hx]
          exact toUpperRune_ne tb htb r hr hsp
        · simp only [List.mem_singleton] at hx
          rw [hx]
          exact ⟨hr, hsp⟩
    · exact ih (some r) (fun c hc => ht c (by simp [hc])) x hx

theorem replaceSpaces_no_space (s : Str) : ∀ c ∈ replaceSpaces s, c ≠ ' ' := by
  intro c hc
  simp only [replaceSpaces, List.mem_map] at hc
  obtain ⟨d, _, hd⟩ := hc
  by_cases h : d = ' '
  · rw [if_pos h] at hd; rw [← hd]; decide
  · rw [if_neg h] at hd; rw [← hd]; exact h

theorem toUpperRune_ne_space (tb : CaseTables)
    (htb : ∀ c : Char, 128 ≤ c.toNat → tb.upper c ≠ '-' ∧ tb.upper c ≠ ' ')
    (r : Char) (h : r ≠ ' ') : toUpperRune tb r ≠ ' ' := by
  unfold toUpperRune
  split
  · split
    · rename_i _ hl
      obtain ⟨ha, hb⟩ := hl
      generalize hn : r.toNat = n at ha hb
      interval_cases n <;> decide
    · exact h
  · rename_i hge
    exact (htb r (by omega)).2

/-- The loop of `toGoName` puts no space into `camelCase` when it reads none. -/
theorem toGoNameLoop_no_space (tb : CaseTables) (upperFirst : Bool)
    (htb : ∀ c : Char, 128 ≤ c.toNat → tb.upper c ≠ '-' ∧ tb.upper c ≠ ' ') :
    ∀ (rest : List Char) (i : Nat) (b : Bool) (acc : Str),
      (∀ c ∈ acc, c ≠ ' ') → (∀ c ∈ rest, c ≠ ' ') →
      ∀ x ∈ toGoNameLoop tb upperFirst i b acc rest, x ≠ ' ' := by
  intro rest
  induction rest with
  | nil => intro i b acc hacc _ x hx; exact hacc x hx
  | cons r rest ih =>
    intro i b acc hacc hrest x hx
    have hr : r ≠ ' ' := hrest r (by simp)
    have hrest1 : ∀ c ∈ rest, c ≠ ' ' := fun c hc => hrest c (by simp [hc])
    have hup : ∀ c ∈ acc ++ [toUpperRune tb r], c ≠ ' ' := by
      intro c hc
      rcases List.mem_append.mp hc with h | h
      · exact hacc c h
      · rw [List.mem_singleton] at h
        rw [h]
        exact toUpperRune_ne_space tb htb r hr
    have hsame : ∀ c ∈ acc ++ [r], c ≠ ' ' := by
      intro c hc
      rcases List.mem_append.mp hc with h | h
      · exact hacc c h
      · rw [List.mem_singleton] at h
        rw [h]
        exact hr
    rw [toGoNameLoop_cons] at hx
    split_ifs at hx
    · exact ih _ _ _ hup hrest1 x hx
    · exact ih _ _ _ hup hrest1 x hx
    · exact ih _ _ _ hacc hrest1 x hx
    · exact ih _ _ _ hsame hrest1 x hx

/-- The loop of `toGoName` appends to `camelCase` nothing but characters that
it reads, as they are or upper-cased. -/
theorem toGoNameLoop_mem (tb : CaseTables) (upperFirst : Bool) :
    ∀ (rest : List Char) (i : Nat) (b : Bool) (acc : Str),
      ∀ x ∈ toGoNameLoop tb upperFirst i b acc rest,
        x ∈ acc ∨ ∃ c ∈ rest, x = c ∨ x = toUpperRune tb c := by
  intro rest
  induction rest with
  | nil => intro i b acc x hx; exact Or.inl hx
  | cons r rest ih =>
    intro i b acc x hx
    have hup : ∀ i1 b1, x ∈ toGoNameLoop tb upperFirst i1 b1 (acc ++ [toUpperRune tb r]) rest →
        x ∈ acc ∨ ∃ c ∈ r :: rest, x = c ∨ x = toUpperRune tb c := by
      intro i1 b1 h
      rcases ih i1 b1 _ x h with h1 | ⟨c, hc, h1⟩
      · rcases List.mem_append.mp h1 with h2 | h2
        · exact Or.inl h2
        · exact Or.inr ⟨r, by simp, Or.inr (List.mem_singleton.mp h2)⟩
      · exact Or.inr ⟨c, by simp [hc], h1⟩
    rw [toGoNameLoop_cons] at hx
    split_ifs at hx
    · exact hup _ _ hx
    · exact hup _ _ hx
    · rcases ih _ _ _ x hx with h1 | ⟨c, hc, h1⟩
      · exact Or.inl h1
      · exact Or.inr ⟨c, by simp [hc], h1⟩
    · rcases ih _ _ _ x hx with h1 | ⟨c, hc, h1⟩
      · rcases List.mem_append.mp h1 with h2 | h2
        · exact Or.inl h2
        · exact Or.inr ⟨r, by simp, Or.inl (List.mem_singleton.mp h2)⟩
      · exact Or.inr ⟨c, by simp [hc], h1⟩

/-- C6, as the code has it.  For every text and either value of `upperFirst`
the result of `toGoName` holds no space, and each of its characters is a
character of the trimmed form of the text (the white space at both ends
removed, every space read as a hyphen), as it is or upper-cased.  And when the
trimmed form has no two hyphens side by side and, when `upperFirst` is set,
does not begin with a hyphen, `toGoName` removes every hyphen, upper-cases the
character that follows a hyphen and the first character when `upperFirst` is
set, and copies every other character; the result then holds no hyphen.  The
case tables outside ASCII are taken to yield neither a hyphen nor a space, as
those of Unicode. -/
theorem C6_toGoName_rule (tb : CaseTables) (s : Str) (upperFirst : Bool)
    (htb : ∀ c : Char, 128 ≤ c.toNat → tb.upper c ≠ '-' ∧ tb.upper c ≠ ' ') :
    ' ' ∉ toGoName tb s upperFirst ∧
    (∀ x ∈ toGoName tb s upperFirst,
      ∃ c ∈ replaceSpaces (trimSpace s), x = c ∨ x = toUpperRune tb c) ∧
    (NoDoubleHyphen (replaceSpaces (trimSpace s)) →
      (upperFirst = true → (replaceSpaces (trimSpace s)).head? ≠ some '-') →
      toGoName tb s upperFirst = toGoNameRule tb upperFirst none (replaceSpaces (trimSpace s)) ∧
      '-' ∉ toGoName tb s upperFirst) := by
  refine ⟨?_, ?_, ?_⟩
  · intro h
    exact toGoNameLoop_no_space tb upperFirst htb (replaceSpaces (trimSpace s)) 0 false []
      (by simp) (replaceSpaces_no_space _) ' ' h rfl
  · intro x hx
    rcases toGoNameLoop_mem tb upperFirst (replaceSpaces (trimSpace s)) 0 false [] x hx with h | h
    · simp at h
    · exact h
  · intro hch hfirst
    have e : toGoName tb s upperFirst =
        toGoNameRule tb upperFirst none (replaceSpaces (trimSpace s)) := by
      unfold toGoName
      have h := toGoNameLoop_rule tb upperFirst (replaceSpaces (trimSpace s)) none 0 []
        (by simp) (by simpa using hch) (fun hu _ => hfirst hu)
      simpa using h
    have hm := toGoNameRule_mem tb upperFirst htb (replaceSpaces (trimSpace s)) none
      (replaceSpaces_no_space _)
    rw [e]
    exact ⟨rfl, fun h => (hm _ h).1 rfl⟩

/-- C6 as amended, on ` dry run-now ` for a method name, and on `a--b`, where
only the part on the space applies. -/
theorem C6_witness :
    (∀ c : Char, 128 ≤ c.toNat →
      CaseTables.ascii.upper c ≠ '-' ∧ CaseTables.ascii.upper c ≠ ' ') ∧
    NoDoubleHyphen (replaceSpaces (trimSpace " dry run-now ".toList)) ∧
    (true = true → (replaceSpaces (trimSpace " dry run-now ".toList)).head? ≠ some '-') ∧
    toGoName CaseTables.ascii " dry run-now ".toList true = "DryRunNow".toList ∧
    ' ' ∉ toGoName CaseTables.ascii " dry run-now ".toList true ∧
    (toGoName CaseTables.ascii " dry run-now ".toList true =
        toGoNameRule CaseTables.ascii true none
          (replaceSpaces (trimSpace " dry run-now ".toList)) ∧
      '-' ∉ toGoName CaseTables.ascii " dry run-now ".toList true) ∧
    ' ' ∉ toGoName CaseTables.ascii "a--b".toList false :=
  have htb : ∀ c : Char, 128 ≤ c.toNat →
      CaseTables.ascii.upper c ≠ '-' ∧ CaseTables.ascii.upper c ≠ ' ' := by
    intro c hc
    constructor
    · intro e
      have e1 : c = '-' := e
      rw [e1] at hc; simp at hc
    · intro e
      have e1 : c = ' ' := e
      rw [e1] at hc; simp at hc
  ⟨htb, by decide, by decide, by decide,
    (C6_toGoName_rule CaseTables.ascii " dry run-now ".toList true htb).1,
    (C6_toGoName_rule CaseTables.ascii " dry run-now ".toList true htb).2.2 (by decide)
      (by decide),
    (C6_toGoName_rule CaseTables.ascii "a--b".toList false htb).1⟩

/-- C6 fails as stated: two hyphens side by side leave a hyphen in the result,
and so does a hyphen at the start of a method name; and the first character of
a method name, which follows no hyphen, is not copied but upper-cased. -/
theorem C6_counterexample :
    toGoName CaseTables.ascii "a--b".toList false = "a-b".toList ∧
    '-' ∈ toGoName CaseTables.ascii "a--b".toList false ∧
    toGoName CaseTables.ascii "-a".toList true = "-a".toList ∧
    toGoName CaseTables.ascii "ab".toList true = "Ab".toList :=
  ⟨rfl, by decide, rfl, rfl⟩

/-! ### The first character of a derived name -/

/-- The loop of `toGoName` only appends to `camelCase`. -/
theorem toGoNameLoop_acc (tb : CaseTables) (upperFirst : Bool) :
    ∀ (rest : List Char) (i : Nat) (b : Bool) (acc : Str),
      toGoNameLoop tb upperFirst i b acc rest =
        acc ++ toGoNameLoop tb upperFirst i b [] rest := by
  intro rest
  induction rest with
  | nil => intro i b acc; simp [toGoNameLoop]
  | cons r rest ih =>
    intro i b acc
    rw [toGoNameLoop_cons, toGoNameLoop_cons]
    by_cases h0 : i = 0 ∧ upperFirst = true
    · rw [if_pos h0, if_pos h0, ih _ _ (acc ++ _), ih _ _ ([] ++ _)]; simp
    · rw [if_neg h0, if_neg h0]
      by_cases hb : b = true
      · rw [if_pos hb, if_pos hb, ih _ _ (acc ++ _), ih _ _ ([] ++ _)]; simp
      · rw [if_neg hb, if_neg hb]
        by_cases hr : r = '-'
        · rw [if_pos hr, if_pos hr, ih _ _ acc]
        · rw [if_neg hr, if_neg hr, ih _ _ (acc ++ _), ih _ _ ([] ++ _)]; simp

theorem dropWhile_append_last (p : Char → Bool) (c : Char) (hc : p c = false) :
    ∀ l : List Char, ∃ l1, (l ++ [c]).dropWhile p = l1 ++ [c] := by
  intro l
  induction l with
  | nil => exact ⟨[], by simp [hc]⟩
  | cons a r ih =>
    by_cases ha : p a = true
    · obtain ⟨l1, h⟩ := ih
      exact ⟨l1, by simp [ha, h]⟩
    · exact ⟨a :: r, by simp [ha]⟩

/-- `strings.TrimSpace` and `strings.Replace` keep a first character that is
not white space. -/
theorem kebabTrim_head (c : Char) (cs : Str) (hc : isSpace c = false) :
    ∃ t, replaceSpaces (trimSpace (c :: cs)) = c :: t := by
  have hsp : c ≠ ' ' := by
    intro e; subst e; exact absurd hc (by decide)
  obtain ⟨l1, h1⟩ := dropWhile_append_last isSpace c hc cs.reverse
  refine ⟨replaceSpaces l1.reverse, ?_⟩
  unfold trimSpace
  rw [List.dropWhile_cons_of_neg (by simp [hc]), List.reverse_cons, h1]
  simp [replaceSpaces, hsp]

/-- C7, as the code has it: `toGoName` never lower-cases.  For a text whose
first character `c` is not white space, `toGoName(.., false)` begins with `c`
itself unless `c` is a hyphen (so it begins with a lowercase letter when the
text does, and with an uppercase letter when the text does), and
`toGoName(.., true)` begins with `c` upper-cased. -/
theorem C7_first_character (tb : CaseTables) (c : Char) (cs : Str) (hc : isSpace c = false) :
    (c ≠ '-' → ∃ t, toGoName tb (c :: cs) false = c :: t) ∧
    (∃ t, toGoName tb (c :: cs) true = toUpperRune tb c :: t) := by
  obtain ⟨t, ht⟩ := kebabTrim_head c cs hc
  constructor
  · intro hy
    refine ⟨toGoNameLoop tb false 1 false [] t, ?_⟩
    unfold toGoName
    rw [ht, toGoNameLoop_cons, if_neg (by simp), if_neg (by simp), if_neg hy, toGoNameLoop_acc]
    rfl
  · refine ⟨toGoNameLoop tb true 1 false [] t, ?_⟩
    unfold toGoName
    rw [ht, toGoNameLoop_cons, if_pos ⟨rfl, rfl⟩, toGoNameLoop_acc]
    rfl

/-- C7 as amended, on the placeholder `number` and the flag text `dry-run`. -/
theorem C7_witness :
    isSpace 'n' = false ∧ isSpace 'd' = false ∧
    (('n' ≠ '-' → ∃ t, toGoName CaseTables.ascii "number".toList false = 'n' :: t) ∧
      (∃ t, toGoName CaseTables.ascii "dry-run".toList true =
        toUpperRune CaseTables.ascii 'd' :: t)) :=
  ⟨by decide, by decide,
    (C7_first_character CaseTables.ascii 'n' "umber".toList (by decide)).1,
    (C7_first_character CaseTables.ascii 'd' "ry-run".toList (by decide)).2⟩

/-- C7 fails as stated: the placeholder `Foo` of `--x=<Foo>` is accepted by a
named shape and its argument identifier begins with an uppercase letter, and so
does that of the placeholder `-a` of `--x=<-a>`. -/
theorem C7_counterexample :
    expCmdEqualNoOptional.FindStringSubmatch "--x=<Foo>".toList =
      some ["--x=<Foo>".toList, "--x".toList, "x".toList, "Foo".toList] ∧
    toGoName CaseTables.ascii "Foo".toList false = "Foo".toList ∧
    expCmdEqualNoOptional.FindStringSubmatch "--x=<-a>".toList =
      some ["--x=<-a>".toList, "--x".toList, "x".toList, "-a".toList] ∧
    toGoName CaseTables.ascii "-a".toList false = "A".toList :=
  ⟨by decide, rfl, by decide, rfl⟩

/-! ### Collision rule, override and order -/

/-- C8: the collision rule of `newMeta`.  For every raw method name `m` and
every non-empty raw argument `a`: if `toGoName(a, false)` and `toGoName(m, true)`
are equal once lower-cased (the test of the code for equality up to case), the
argument identifier is `value`, and otherwise it is `toGoName(a, false)`; when
`a` is empty the argument identifier is empty. -/
theorem C8_collision_rule (tb : CaseTables) (m a cmd cmdType description arguments : Str) :
    (a ≠ [] → toLower tb (toGoName tb a false) = toLower tb (toGoName tb m true) →
      (newMeta tb m a cmd cmdType description arguments).Argument = "value".toList) ∧
    (a ≠ [] → toLower tb (toGoName tb a false) ≠ toLower tb (toGoName tb m true) →
      (newMeta tb m a cmd cmdType description arguments).Argument = toGoName tb a false) ∧
    (newMeta tb m [] cmd cmdType description arguments).Argument = [] := by
  refine ⟨?_, ?_, ?_⟩
  · intro ha h
    have hl : a.length ≠ 0 := by
      cases a with
      | nil => exact absurd rfl ha
      | cons c cs => simp
    simp only [newMeta]
    rw [if_pos hl, if_pos h.symm]
  · intro ha h
    have hl : a.length ≠ 0 := by
      cases a with
      | nil => exact absurd rfl ha
      | cons c cs => simp
    simp only [newMeta]
    rw [if_pos hl, if_neg (fun e => h e.symm)]
  · simp [newMeta]

/-- C8 on `--strategy=<strategy>`: method `Strategy`, argument `value`. -/
theorem C8_witness :
    ("strategy".toList ≠ [] ∧
      toLower CaseTables.ascii (toGoName CaseTables.ascii "strategy".toList false) =
        toLower CaseTables.ascii (toGoName CaseTables.ascii "strategy".toList true)) ∧
    (newMeta CaseTables.ascii "strategy".toList "strategy".toList "--strategy".toList
      "EQUAL_NO_OPTIONAL".toList [] []).Argument = "value".toList ∧
    jsonCmdModelToCmdMetas CaseTables.ascii insertionSortImpl
        [⟨[], "--strategy=<strategy>".toList, [], []⟩] =
      some [⟨"EQUAL_NO_OPTIONAL".toList, "Strategy".toList, "value".toList,
        "--strategy".toList, [[]], []⟩] :=
  ⟨⟨by decide, by decide⟩,
    (C8_collision_rule CaseTables.ascii "strategy".toList "strategy".toList "--strategy".toList
      "EQUAL_NO_OPTIONAL".toList [] []).1 (by decide) (by decide),
    by decide⟩

/-- The method name of every entry that the loop appends: the override when the
record has one, else group 2 of the flag token, through `toGoName`. -/
theorem classifyInto_method (tb : CaseTables) (metas : List CmdMeta) (j : JSONCmdModel)
    (h : shapeIn shapes j.Argument ≠ none) :
    ∃ m : CmdMeta, classifyInto tb metas j = some (metas ++ [m]) ∧
      m.Method = toGoName tb (methodName (flagBody (flagToken j.Argument)) j) true := by
  rcases classifyInto_cases tb metas j with h1 | ⟨ty, raw, _, h2⟩
  · exact absurd h1.1 h
  · exact ⟨_, h2, rfl⟩

/-- C9, as the code has it: for every flag record whose `method_name` is not
empty and whose syntax matches a shape, the method name of the classified flag
is `toGoName(method_name, true)`: the override replaces the text of the flag
token but goes through the same derivation. -/
theorem C9_override_is_derived (tb : CaseTables) (srt : SortImpl) (j : JSONCmdModel)
    (hm : j.MethodName ≠ []) (hs : shapeIn shapes j.Argument ≠ none) :
    ∃ m : CmdMeta, jsonCmdModelToCmdMetas tb srt [j] = some [m] ∧
      m.Method = toGoName tb j.MethodName true := by
  obtain ⟨m, h1, h2⟩ := classifyInto_method tb [] j hs
  refine ⟨m, metas_single tb srt j m h1, ?_⟩
  have hl : ¬ j.MethodName.length = 0 := by
    cases hj : j.MethodName with
    | nil => exact absurd hj hm
    | cons c cs => simp
  rw [h2, methodName, if_neg hl]

/-- C9 as amended, on `--quiet` with the override `dry-run`. -/
theorem C9_witness :
    ("dry-run".toList ≠ [] ∧ shapeIn shapes "--quiet".toList ≠ none) ∧
    ∃ m : CmdMeta,
      jsonCmdModelToCmdMetas CaseTables.ascii insertionSortImpl
        [⟨"dry-run".toList, "--quiet".toList, [], []⟩] = some [m] ∧
      m.Method = toGoName CaseTables.ascii "dry-run".toList true :=
  ⟨⟨by decide, by decide⟩,
    C9_override_is_derived CaseTables.ascii insertionSortImpl
      ⟨"dry-run".toList, "--quiet".toList, [], []⟩ (by decide) (by decide)⟩

/-- C9 fails as stated: the override `dry-run` on `--quiet` gives the method
`DryRun`, not the override as written. -/
theorem C9_counterexample :
    jsonCmdModelToCmdMetas CaseTables.ascii insertionSortImpl
        [⟨"dry-run".toList, "--quiet".toList, [], []⟩] =
      some [⟨"SIMPLE".toList, "DryRun".toList, [], "--quiet".toList, [[]], []⟩] ∧
    "DryRun".toList ≠ "dry-run".toList :=
  ⟨by decide, by decide⟩

/-- The classification loop never fails. -/
theorem classifyAll_some (tb : CaseTables) :
    ∀ (models : List JSONCmdModel) (metas : List CmdMeta),
      ∃ r, classifyAll tb metas models = some r := by
  intro models
  induction models with
  | nil => intro metas; exact ⟨metas, rfl⟩
  | cons j rest ih =>
    intro metas
    rcases classifyInto_cases tb metas j with h | ⟨ty, raw, _, h⟩
    · obtain ⟨r, hr⟩ := ih metas
      exact ⟨r, by simp [classifyAll, h.2, hr]⟩
    · obtain ⟨r, hr⟩ := ih (metas ++
        [newMeta tb (methodName (flagBody (flagToken j.Argument)) j) raw (flagToken j.Argument)
          ty j.Description j.Arguments])
      exact ⟨r, by simp [classifyAll, h, hr]⟩

/-- C10: for every list of flag records, `jsonCmdModelToCmdMetas` returns a
list in ascending order of `Method`: every entry is at most the entries after
it, and so each entry is at most the next one. -/
theorem C10_sorted_by_method (tb : CaseTables) (srt : SortImpl)
    (jsonCmdModels : List JSONCmdModel) :
    ∃ metas : List CmdMeta, jsonCmdModelToCmdMetas tb srt jsonCmdModels = some metas ∧
      List.Pairwise (fun x y => x.Method ≤ y.Method) metas ∧
      List.Chain' (fun x y => x.Method ≤ y.Method) metas := by
  obtain ⟨r, hr⟩ := classifyAll_some tb jsonCmdModels []
  have hp : List.Pairwise (fun x y : CmdMeta => x.Method ≤ y.Method) (srt.sort r) := by
    refine List.Pairwise.imp ?_ (srt.ordered r)
    intro x y hxy
    simp only [ByMethodName.Less, decide_eq_false_iff_not, not_lt] at hxy
    exact hxy
  exact ⟨srt.sort r, by simp [jsonCmdModelToCmdMetas, hr], hp, List.Pairwise.chain' hp⟩

/-! ### Records that match no pattern -/

theorem classifyInto_map (tb : CaseTables) (metas : List CmdMeta) (j : JSONCmdModel) :
    classifyInto tb metas j = (classifyInto tb [] j).map (fun l => metas ++ l) := by
  unfold classifyInto
  split_ifs <;> simp [Option.map_map, Function.comp_def]

/-- The body of the loop never fails, and it appends to `metas` what it appends
to the empty slice. -/
theorem classifyInto_append (tb : CaseTables) (metas : List CmdMeta) (j : JSONCmdModel) :
    classifyInto tb metas j = some (metas ++ entries tb j) := by
  rw [classifyInto_map]
  rcases classifyInto_cases tb [] j with h | ⟨ty, raw, _, h⟩
  · simp [entries, h.2]
  · simp [entries, h]

/-- The loop of `jsonCmdModelToCmdMetas` never fails: it returns the entries of
the records, in the order of the table. -/
theorem classifyAll_eq (tb : CaseTables) :
    ∀ (models : List JSONCmdModel) (metas : List CmdMeta),
      classifyAll tb metas models = some (metas ++ models.flatMap (entries tb)) := by
  intro models
  induction models with
  | nil => intro metas; simp [classifyAll]
  | cons j rest ih =>
    intro metas
    simp only [classifyAll, classifyInto_append, ih, List.flatMap_cons, List.append_assoc]

theorem jsonCmdModelToCmdMetas_eq (tb : CaseTables) (srt : SortImpl)
    (models : List JSONCmdModel) :
    jsonCmdModelToCmdMetas tb srt models = some (srt.sort (models.flatMap (entries tb))) := by
  simp [jsonCmdModelToCmdMetas, classifyAll_eq]

/-- A record that matches a pattern has one entry, and the others have none. -/
theorem entries_length (tb : CaseTables) (j : JSONCmdModel) :
    (entries tb j).length = if matchesSome j = true then 1 else 0 := by
  unfold entries matchesSome classifyInto
  cases b1 : expCmdSimple.MatchString j.Argument
  · cases b2 : expCmdEqualNoOptional.MatchString j.Argument
    · cases b3 : expCmdEqualOptionalWithoutName.MatchString j.Argument
      · cases b4 : expCmdEqualWithoutName.MatchString j.Argument
        · cases b5 : expCmdEqualOptionalWithName.MatchString j.Argument
          · cases b6 : expCmdWithParameter.MatchString j.Argument
            · simp
            · obtain ⟨q, hq⟩ := (match_expCmdWithParameter _ b6).2
              simp [newMetaCmdWithParameter, newMetaCmd, hq]
          · obtain ⟨q, hq⟩ := (match_expCmdEqualOptionalWithName _ b5).2
            simp [newMetaCmdEqualOptionalWithName, newMetaCmd, hq]
        · simp [newMetaCmdEqualWithoutName, newMetaCmd, (match_expCmdEqualWithoutName _ b4).2]
      · simp [newMetaCmdEqualOptionalWithoutName, newMetaCmd,
          (match_expCmdEqualOptionalWithoutName _ b3).2]
    · obtain ⟨q, hq⟩ := (match_expCmdEqualNoOptional _ b2).2
      simp [newMetaCmdEqualNoOptional, newMetaCmd, hq]
  · simp [newMetaCmdSimple, newMetaCmd, (match_expCmdSimple _ b1).2]

theorem flatMap_entries_filter (tb : CaseTables) (models : List JSONCmdModel) :
    (models.filter matchesSome).flatMap (entries tb) = models.flatMap (entries tb) ∧
    (models.flatMap (entries tb)).length = (models.filter matchesSome).length := by
  induction models with
  | nil => simp
  | cons j rest ih =>
    have hl := entries_length tb j
    by_cases hm : matchesSome j = true
    · rw [if_pos hm] at hl
      simp only [List.filter_cons, hm, if_true, List.flatMap_cons, ih.1, List.length_append,
        List.length_cons, ih.2, hl]
      exact ⟨trivial, by omega⟩
    · rw [if_neg hm] at hl
      have he : entries tb j = [] := List.length_eq_zero.mp hl
      simp only [List.filter_cons, hm, Bool.false_eq_true, if_false, List.flatMap_cons, he,
        List.nil_append, ih.1, ih.2]
      exact ⟨trivial, trivial⟩

/-- C11: a flag record whose syntax matches none of the six patterns is
skipped without effect on the others.  For every list of flag records,
`jsonCmdModelToCmdMetas` returns a permutation of the classified flags of the
records that match some pattern, taken in the order of the table; its length
is the number of matching records; and it returns the same on the list from
which the records that match no pattern are removed. -/
theorem C11_unmatched_records_skipped (tb : CaseTables) (srt : SortImpl)
    (jsonCmdModels : List JSONCmdModel) :
    ∃ metas : List CmdMeta, jsonCmdModelToCmdMetas tb srt jsonCmdModels = some metas ∧
      List.Perm metas ((jsonCmdModels.filter matchesSome).flatMap (entries tb)) ∧
      (∀ j ∈ jsonCmdModels.filter matchesSome, (entries tb j).length = 1) ∧
      metas.length = (jsonCmdModels.filter matchesSome).length ∧
      jsonCmdModelToCmdMetas tb srt (jsonCmdModels.filter matchesSome) = some metas := by
  have hf := flatMap_entries_filter tb jsonCmdModels
  refine ⟨_, jsonCmdModelToCmdMetas_eq tb srt jsonCmdModels, ?_, ?_, ?_, ?_⟩
  · rw [hf.1]; exact srt.perm _
  · intro j hj
    rw [entries_length, if_pos (List.mem_filter.mp hj).2]
  · rw [(srt.perm _).length_eq, hf.2]
  · rw [jsonCmdModelToCmdMetas_eq, hf.1]

/-! ### The operands of the generated bodies -/

theorem nameChar_plain {c : Char} (h : nameChar c = true) :
    c ≠ '%' ∧ c ≠ '"' ∧ c ≠ '\\' ∧ c ≠ '\n' ∧ c ≠ ' ' := by
  refine ⟨?_, ?_, ?_, ?_, ?_⟩ <;> (intro e; subst e; exact absurd h (by decide))

theorem lit_typeOf (param : Option Str) (w : Str) (hw : w.all nameChar = true) :
    (GoExpr.lit w).typeOf param = some .string ∧
    (GoExpr.lit (w ++ "=%s".toList)).typeOf param = some .string := by
  have h1 : ∀ c ∈ w, ¬ ((c == '"' || c == '\\' || c == '\n') = true) := by
    intro c hc
    have h := nameChar_plain (List.all_eq_true.mp hw c hc)
    simp [h.2.1, h.2.2.1, h.2.2.2.1]
  constructor
  · simp only [GoExpr.typeOf]
    rw [if_neg]
    intro h
    obtain ⟨c, hc, hb⟩ := List.any_eq_true.mp h
    exact h1 c hc hb
  · simp only [GoExpr.typeOf]
    rw [if_neg]
    intro h
    obtain ⟨c, hc, hb⟩ := List.any_eq_true.mp h
    rcases List.mem_append.mp hc with hc | hc
    · exact h1 c hc hb
    · have hc' : c = '=' ∨ c = '%' ∨ c = 's' := by simpa using hc
      rcases hc' with e | e | e <;> (subst e; exact absurd hb (by decide))

/-! ### The generated functions of `add` -/

/-- C13: each of the 13 option functions of package `add`, applied to an
accumulator whose `AddOptions` appends one token, appends exactly its long flag
and leaves the tokens accumulated before as they are; so `DryRun` then `Force`
on an empty accumulator give `--dry-run`, `--force`. -/
theorem C13_add_functions {σ : Type} (A : Accumulator σ) (g : σ) :
    A.Options (add.All A g) = A.Options g ++ ["--all".toList] ∧
    A.Options (add.DryRun A g) = A.Options g ++ ["--dry-run".toList] ∧
    A.Options (add.Edit A g) = A.Options g ++ ["--edit".toList] ∧
    A.Options (add.Force A g) = A.Options g ++ ["--force".toList] ∧
    A.Options (add.IgnoreErrors A g) = A.Options g ++ ["--ignore-errors".toList] ∧
    A.Options (add.IgnoreMissing A g) = A.Options g ++ ["--ignore-missing".toList] ∧
    A.Options (add.IntentToAdd A g) = A.Options g ++ ["--intent-to-add".toList] ∧
    A.Options (add.Interactive A g) = A.Options g ++ ["--interactive".toList] ∧
    A.Options (add.NoAll A g) = A.Options g ++ ["--no-all".toList] ∧
    A.Options (add.Patch A g) = A.Options g ++ ["--patch".toList] ∧
    A.Options (add.Refresh A g) = A.Options g ++ ["--refresh".toList] ∧
    A.Options (add.Update A g) = A.Options g ++ ["--update".toList] ∧
    A.Options (add.Verbose A g) = A.Options g ++ ["--verbose".toList] ∧
    (A.Options g = [] →
      A.Options (add.Force A (add.DryRun A g)) = ["--dry-run".toList, "--force".toList]) := by
  refine ⟨A.append _ _, A.append _ _, A.append _ _, A.append _ _, A.append _ _, A.append _ _, A.append _ _, A.append _ _, A.append _ _, A.append _ _, A.append _ _, A.append _ _, A.append _ _, ?_⟩
  intro h
  show A.Options (A.AddOptions (A.AddOptions g _) _) = _
  rw [A.append, A.append, h]
  rfl

/-- C13 on the empty list of tokens. -/
theorem C13_witness :
    listAccumulator.Options ([] : List Str) = [] ∧
    listAccumulator.Options (add.Force listAccumulator (add.DryRun listAccumulator [])) =
      ["--dry-run".toList, "--force".toList] :=
  ⟨rfl, (C13_add_functions listAccumulator []).2.2.2.2.2.2.2.2.2.2.2.2.2 rfl⟩

/-! ### The loop of `main` -/

theorem mainLoop_cons (tb : CaseTables) (srt : SortImpl) (out : Outside)
    (done : List (Str × Str)) (jsonModel : JSONModel) (rest : List JSONModel) :
    mainLoop tb srt out done (jsonModel :: rest) =
      if jsonModel.CommandName.length ≠ 0 ∧ jsonModel.Enabled = true then
        match newGenCmdModel tb srt jsonModel with
        | none => done
        | some cmdModel =>
          match generateFileContent out cmdModel with
          | none => done
          | some data =>
            if out.writeFile done (genFilePath jsonModel.CommandName) data then
              mainLoop tb srt out (done ++ [(genFilePath jsonModel.CommandName, data)]) rest
            else done ++ [(genFilePath jsonModel.CommandName, data)]
      else mainLoop tb srt out done rest := rfl

/-- Every write of the loop of `main` is either one made before or the write
of the path of a record that is enabled and has a name. -/
theorem mainLoop_mem (tb : CaseTables) (srt : SortImpl) (out : Outside) :
    ∀ (table : List JSONModel) (done : List (Str × Str)),
      ∀ call ∈ mainLoop tb srt out done table, call ∈ done ∨
        ∃ jm ∈ table, jm.Enabled = true ∧ jm.CommandName ≠ [] ∧
          call.1 = genFilePath jm.CommandName := by
  intro table
  induction table with
  | nil => intro done call h; exact Or.inl h
  | cons jm rest ih =>
    intro done call h
    rw [mainLoop_cons] at h
    by_cases hc : jm.CommandName.length ≠ 0 ∧ jm.Enabled = true
    · have hne : jm.CommandName ≠ [] := fun e => hc.1 (by rw [e]; rfl)
      rw [if_pos hc] at h
      cases hg : newGenCmdModel tb srt jm with
      | none => rw [hg] at h; exact Or.inl h
      | some cmdModel =>
        rw [hg] at h
        cases hd : generateFileContent out cmdModel with
        | none => simp only [hd] at h; exact Or.inl h
        | some data =>
          simp only [hd] at h
          have hnew : ∀ c ∈ done ++ [(genFilePath jm.CommandName, data)], c ∈ done ∨
              ∃ j ∈ jm :: rest, j.Enabled = true ∧ j.CommandName ≠ [] ∧
                c.1 = genFilePath j.CommandName := by
            intro c hcm
            rcases List.mem_append.mp hcm with h1 | h1
            · exact Or.inl h1
            · rw [List.mem_singleton] at h1
              exact Or.inr ⟨jm, by simp, hc.2, hne, by rw [h1]⟩
          by_cases hw : out.writeFile done (genFilePath jm.CommandName) data = true
          · rw [if_pos hw] at h
            rcases ih _ call h with h1 | ⟨j, hj, h2⟩
            · exact hnew call h1
            · exact Or.inr ⟨j, by simp [hj], h2⟩
          · rw [if_neg hw] at h
            exact hnew call h
    · rw [if_neg hc] at h
      rcases ih done call h with h1 | ⟨j, hj, h2⟩
      · exact Or.inl h1
      · exact Or.inr ⟨j, by simp [hj], h2⟩

/-- The records that are not enabled can be taken out of the table: the loop
of `main` makes the same writes. -/
theorem mainLoop_filter (tb : CaseTables) (srt : SortImpl) (out : Outside) :
    ∀ (table : List JSONModel) (done : List (Str × Str)),
      mainLoop tb srt out done (table.filter (fun jm => jm.Enabled)) =
        mainLoop tb srt out done table := by
  intro table
  induction table with
  | nil => intro done; rfl
  | cons jm rest ih =>
    intro done
    by_cases he : jm.Enabled = true
    · rw [List.filter_cons_of_pos he, mainLoop_cons, mainLoop_cons]
      by_cases hc : jm.CommandName.length ≠ 0 ∧ jm.Enabled = true
      · rw [if_pos hc, if_pos hc]
        simp only [ih]
      · rw [if_neg hc, if_neg hc, ih]
    · rw [List.filter_cons_of_neg he, mainLoop_cons, if_neg (fun h => he h.2), ih]

theorem genFilePath_injective (a b : Str) (h : genFilePath a = genFilePath b) : a = b := by
  have hl : a.length = b.length := by
    have := congrArg List.length h
    simp only [genFilePath, List.length_append] at this
    omega
  unfold genFilePath at h
  simp only [List.append_assoc] at h
  have h1 := List.append_cancel_left h
  exact (List.append_inj h1 hl).1

/-- C14, as the code has it.  Every write of the loop of `main` has the path
`../<name>/<name>_gen.go` of a record of the table whose `enabled` field is
true and whose command name is not empty; the writes are the same when the
records that are not enabled are taken out of the table; and the path of a
record that is not enabled is not written, provided that no enabled record
with a name has the same command name. -/
theorem C14_disabled_no_output (tb : CaseTables) (srt : SortImpl) (out : Outside)
    (table : List JSONModel) :
    (∀ call ∈ mainLoop tb srt out [] table,
      ∃ jm ∈ table, jm.Enabled = true ∧ jm.CommandName ≠ [] ∧
        call.1 = genFilePath jm.CommandName) ∧
    mainLoop tb srt out [] (table.filter (fun jm => jm.Enabled)) =
      mainLoop tb srt out [] table ∧
    (∀ jm ∈ table, jm.Enabled = false →
      (∀ jm2 ∈ table, jm2.Enabled = true → jm2.CommandName ≠ [] →
        jm2.CommandName ≠ jm.CommandName) →
      genFilePath jm.CommandName ∉ (mainLoop tb srt out [] table).map Prod.fst) := by
  have h1 : ∀ call ∈ mainLoop tb srt out [] table,
      ∃ jm ∈ table, jm.Enabled = true ∧ jm.CommandName ≠ [] ∧
        call.1 = genFilePath jm.CommandName := by
    intro call hc
    rcases mainLoop_mem tb srt out table [] call hc with h | h
    · simp at h
    · exact h
  refine ⟨h1, mainLoop_filter tb srt out table [], ?_⟩
  intro jm _ _ hother hmem
  obtain ⟨call, hcall, hpath⟩ := List.mem_map.mp hmem
  obtain ⟨jm2, hj2, he2, hn2, hp2⟩ := h1 call hcall
  rw [hpath] at hp2
  exact hother jm2 hj2 he2 hn2 (genFilePath_injective _ _ hp2).symm

/-- C14 as amended, on a table with the record `add` not enabled, a record
without name enabled and the record `log` enabled. -/
theorem C14_witness :
    mainLoop CaseTables.ascii insertionSortImpl ⟨fun m => some m.Name, fun _ _ _ => true⟩ []
        [⟨"add".toList, false, []⟩, ⟨[], true, []⟩, ⟨"log".toList, true, []⟩] =
      [("../log/log_gen.go".toList, "log".toList)] ∧
    genFilePath "add".toList ∉
      (mainLoop CaseTables.ascii insertionSortImpl ⟨fun m => some m.Name, fun _ _ _ => true⟩ []
        [⟨"add".toList, false, []⟩, ⟨[], true, []⟩, ⟨"log".toList, true, []⟩]).map Prod.fst :=
  ⟨by decide,
    (C14_disabled_no_output CaseTables.ascii insertionSortImpl
      ⟨fun m => some m.Name, fun _ _ _ => true⟩
      [⟨"add".toList, false, []⟩, ⟨[], true, []⟩, ⟨"log".toList, true, []⟩]).2.2
      ⟨"add".toList, false, []⟩ (by decide) rfl (by decide)⟩

/-- C14 fails as stated: in a table with the record `add` once not enabled and
once enabled, the path `../add/add_gen.go`, which is the path of the record
that is not enabled, is written. -/
theorem C14_counterexample :
    (⟨"add".toList, false, []⟩ : JSONModel) ∈
      [(⟨"add".toList, false, []⟩ : JSONModel), ⟨"add".toList, true, []⟩] ∧
    (⟨"add".toList, false, []⟩ : JSONModel).Enabled = false ∧
    genFilePath (⟨"add".toList, false, []⟩ : JSONModel).CommandName =
      "../add/add_gen.go".toList ∧
    mainLoop CaseTables.ascii insertionSortImpl ⟨fun m => some m.Name, fun _ _ _ => true⟩ []
        [⟨"add".toList, false, []⟩, ⟨"add".toList, true, []⟩] =
      [("../add/add_gen.go".toList, "add".toList)] ∧
    genFilePath (⟨"add".toList, false, []⟩ : JSONModel).CommandName ∈
      (mainLoop CaseTables.ascii insertionSortImpl ⟨fun m => some m.Name, fun _ _ _ => true⟩ []
        [⟨"add".toList, false, []⟩, ⟨"add".toList, true, []⟩]).map Prod.fst := by
  decide

/-! ### The collision rule on the generic name -/

/-- C15 fails on the code: for `--value=<value>` the method is `Value` and the
argument identifier, replaced by the generic name, is `value` again, equal to
the method name up to case.  The generic name is the only way to the
collision: a classified argument identifier that equals the method name up to
case makes the method name equal to `value` up to case. -/
theorem C15_collision_on_value :
    (jsonCmdModelToCmdMetas CaseTables.ascii insertionSortImpl
        [⟨[], "--value=<value>".toList, [], []⟩] =
      some [⟨"EQUAL_NO_OPTIONAL".toList, "Value".toList, "value".toList, "--value".toList,
        [[]], []⟩] ∧
      toLower CaseTables.ascii "value".toList = toLower CaseTables.ascii "Value".toList) ∧
    (∀ (tb : CaseTables) (rawMethodName rawArg cmd cmdType description arguments : Str),
      (newMeta tb rawMethodName rawArg cmd cmdType description arguments).Argument ≠ [] →
      toLower tb (newMeta tb rawMethodName rawArg cmd cmdType description arguments).Argument =
        toLower tb (newMeta tb rawMethodName rawArg cmd cmdType description arguments).Method →
      toLower tb (newMeta tb rawMethodName rawArg cmd cmdType description arguments).Method =
        toLower tb "value".toList) := by
  refine ⟨⟨by decide, by decide⟩, ?_⟩
  intro tb m a cmd ty d args hne hcol
  simp only [newMeta] at hne hcol ⊢
  by_cases hl : a.length ≠ 0
  · rw [if_pos hl] at hne hcol
    by_cases hc : toLower tb (toGoName tb m true) = toLower tb (toGoName tb a false)
    · rw [if_pos hc] at hcol
      exact hcol.symm
    · rw [if_neg hc] at hcol
      exact absurd hcol.symm hc
  · rw [if_neg hl] at hne
    exact absurd rfl hne

/-! ### The order of the table -/

/-- A slice without two entries of the same method name has one ordered
arrangement only. -/
theorem sorted_perm_unique (l1 l2 : List CmdMeta) (hp : List.Perm l1 l2)
    (hd : l1.Pairwise (fun x y => x.Method ≠ y.Method))
    (h1 : l1.Pairwise (fun x y => ByMethodName.Less y x = false))
    (h2 : l2.Pairwise (fun x y => ByMethodName.Less y x = false)) : l1 = l2 := by
  have hd2 : l2.Pairwise (fun x y => x.Method ≠ y.Method) :=
    (hp.pairwise_iff (fun h => Ne.symm h)).mp hd
  have strict : ∀ l : List CmdMeta, l.Pairwise (fun x y => x.Method ≠ y.Method) →
      l.Pairwise (fun x y => ByMethodName.Less y x = false) →
      l.Pairwise (fun x y => x.Method < y.Method) := by
    intro l ha hb
    refine List.Pairwise.imp ?_ (ha.and hb)
    intro x y hxy
    have hle : ¬ (y.Method < x.Method) := by
      simpa [ByMethodName.Less] using hxy.2
    exact lt_of_le_of_ne (not_lt.mp hle) hxy.1
  haveI : IsAntisymm CmdMeta (fun x y => x.Method < y.Method) :=
    ⟨fun a b hab hba => absurd hba (lt_asymm hab)⟩
  exact List.eq_of_perm_of_sorted hp (strict l1 hd h1) (strict l2 hd2 h2)

/-- C16: the classified output does not depend on the order of the table.  For
every list of flag records whose classified flags have pairwise distinct method
names, and every permutation of the list, `jsonCmdModelToCmdMetas` returns the
same list of classified flags. -/
theorem C16_order_independent (tb : CaseTables) (srt : SortImpl)
    (table permuted : List JSONCmdModel) (hp : List.Perm permuted table)
    (hd : (table.flatMap (entries tb)).Pairwise (fun x y => x.Method ≠ y.Method)) :
    jsonCmdModelToCmdMetas tb srt permuted = jsonCmdModelToCmdMetas tb srt table := by
  rw [jsonCmdModelToCmdMetas_eq, jsonCmdModelToCmdMetas_eq]
  have hpe : List.Perm (permuted.flatMap (entries tb)) (table.flatMap (entries tb)) :=
    hp.flatMap_right (entries tb)
  have hps : List.Perm (srt.sort (permuted.flatMap (entries tb)))
      (srt.sort (table.flatMap (entries tb))) :=
    ((srt.perm _).trans hpe).trans (srt.perm _).symm
  have hds : (srt.sort (permuted.flatMap (entries tb))).Pairwise
      (fun x y => x.Method ≠ y.Method) :=
    (((srt.perm _).trans hpe).pairwise_iff (fun h => Ne.symm h)).mpr hd
  rw [sorted_perm_unique _ _ hps hds (srt.ordered _) (srt.ordered _)]

/-- C16 on the table `--verbose`, `--all` and its other order. -/
theorem C16_witness :
    (List.Perm [(⟨[], "--all".toList, [], []⟩ : JSONCmdModel), ⟨[], "--verbose".toList, [], []⟩]
        [⟨[], "--verbose".toList, [], []⟩, ⟨[], "--all".toList, [], []⟩] ∧
      (([(⟨[], "--verbose".toList, [], []⟩ : JSONCmdModel),
          ⟨[], "--all".toList, [], []⟩]).flatMap (entries CaseTables.ascii)).Pairwise
        (fun x y => x.Method ≠ y.Method)) ∧
    jsonCmdModelToCmdMetas CaseTables.ascii insertionSortImpl
        [⟨[], "--all".toList, [], []⟩, ⟨[], "--verbose".toList, [], []⟩] =
      jsonCmdModelToCmdMetas CaseTables.ascii insertionSortImpl
        [⟨[], "--verbose".toList, [], []⟩, ⟨[], "--all".toList, [], []⟩] :=
  ⟨⟨List.Perm.swap _ _ [], by decide⟩,
    C16_order_independent CaseTables.ascii insertionSortImpl
      [⟨[], "--verbose".toList, [], []⟩, ⟨[], "--all".toList, [], []⟩]
      [⟨[], "--all".toList, [], []⟩, ⟨[], "--verbose".toList, [], []⟩]
      (List.Perm.swap _ _ []) (by decide)⟩

/-! ### The generated file of `add` and the generator -/

theorem entries_simple_of_find (tb : CaseTables) (j : JSONCmdModel) (t b : Str)
    (hf : expCmdSimple.FindStringSubmatch j.Argument = some [j.Argument, t, b]) :
    entries tb j =
      [newMeta tb (methodName b j) [] t "SIMPLE".toList j.Description j.Arguments] := by
  simp [entries, classifyInto_simple tb [] j _ _ _ hf]

theorem addGen_find :
    ∀ e ∈ addGen, expCmdSimple.FindStringSubmatch e.2 = some [e.2, e.2, flagBody e.2] := by
  decide

theorem addGen_method (tb : CaseTables) :
    ∀ e ∈ addGen, toGoName tb (flagBody e.2) true = e.1 := by
  intro e he
  simp only [addGen, List.mem_cons, List.mem_singleton, List.not_mem_nil, or_false] at he
  rcases he with h | h | h | h | h | h | h | h | h | h | h | h | h <;> (subst h; rfl)

theorem addGen_sorted : (addGen.map Prod.fst).Pairwise (fun x y => x < y) := by
  decide

/-- `sort.Sort` leaves a slice in strictly ascending order of `Method` as it is. -/
theorem sort_eq_self (srt : SortImpl) (l : List CmdMeta)
    (h : l.Pairwise (fun x y => x.Method < y.Method)) : srt.sort l = l := by
  have hne : l.Pairwise (fun x y => x.Method ≠ y.Method) := h.imp (fun hxy => ne_of_lt hxy)
  have hle : l.Pairwise (fun x y => ByMethodName.Less y x = false) :=
    h.imp (fun hxy => by simp [ByMethodName.Less, le_of_lt hxy])
  exact sorted_perm_unique _ _ (srt.perm l)
    (((srt.perm l).pairwise_iff (fun h => Ne.symm h)).mpr hne) (srt.ordered l) hle

theorem flatMap_map_single {α β γ : Type} (rec : α → β) (ent : β → List γ) (f : α → γ) :
    ∀ l : List α, (∀ e ∈ l, ent (rec e) = [f e]) → (l.map rec).flatMap ent = l.map f := by
  intro l
  induction l with
  | nil => intro _; rfl
  | cons a r ih =>
    intro h
    rw [List.map_cons, List.flatMap_cons, h a (by simp), ih (fun e he => h e (by simp [he]))]
    rfl

/-- C17: the checked-in generated file of `add` agrees with the generator.  For
each of its 13 functions, the flag token it emits, classified as a raw syntax
with no override, gives a SIMPLE classified flag whose method is the name of
the function and whose `Cmd` is the token, and the template renders it as that
function, below the comment lines of the description and of the arguments
text; and on the 13 records `jsonCmdModelToCmdMetas` returns the classified
flags in the order of the functions in the file. -/
theorem C17_add_gen_agrees (tb : CaseTables) (srt : SortImpl) (other : Str → Str × Str) :
    (∀ e ∈ addGen, ∃ m : CmdMeta,
      jsonCmdModelToCmdMetas tb srt [⟨[], e.2, (other e.2).1, (other e.2).2⟩] = some [m] ∧
      m.CmdType = "SIMPLE".toList ∧ m.Method = e.1 ∧ m.Cmd = e.2 ∧
      fileTemplateBranch m =
        some ⟨commentLines e.1 0 (splitLines (other e.2).2) ++ [(other e.2).1], e.1, none,
          [.addOptions (.lit e.2)]⟩) ∧
    ∃ metas : List CmdMeta, jsonCmdModelToCmdMetas tb srt (addRecords other) = some metas ∧
      shown metas = addGen.map (fun e => ("SIMPLE".toList, e.1, e.2)) := by
  have hent : ∀ e ∈ addGen,
      entries tb (⟨[], e.2, (other e.2).1, (other e.2).2⟩ : JSONCmdModel) =
        [newMeta tb (flagBody e.2) [] e.2 "SIMPLE".toList (other e.2).2 (other e.2).1] := by
    intro e he
    exact entries_simple_of_find tb ⟨[], e.2, (other e.2).1, (other e.2).2⟩ e.2 (flagBody e.2)
      (addGen_find e he)
  constructor
  · intro e he
    refine ⟨newMeta tb (flagBody e.2) [] e.2 "SIMPLE".toList (other e.2).2 (other e.2).1,
      ?_, rfl, addGen_method tb e he, rfl, ?_⟩
    · rw [jsonCmdModelToCmdMetas_eq, List.flatMap_cons, List.flatMap_nil, List.append_nil,
        hent e he, List.perm_singleton.mp (srt.perm _)]
    · have hm : (newMeta tb (flagBody e.2) [] e.2 "SIMPLE".toList (other e.2).2
          (other e.2).1).Method = e.1 := addGen_method tb e he
      unfold fileTemplateBranch
      rw [if_pos (show (newMeta tb (flagBody e.2) [] e.2 "SIMPLE".toList (other e.2).2
        (other e.2).1).CmdType = "SIMPLE".toList from rfl)]
      unfold templateCmdSimple templateComments
      rw [hm]
      rfl
  · have hpre : (addRecords other).flatMap (entries tb) =
        addGen.map (fun e =>
          newMeta tb (flagBody e.2) [] e.2 "SIMPLE".toList (other e.2).2 (other e.2).1) :=
      flatMap_map_single _ _ _ addGen hent
    have hmeth : (addGen.map (fun e =>
          newMeta tb (flagBody e.2) [] e.2 "SIMPLE".toList (other e.2).2 (other e.2).1)).map
          (fun m => m.Method) = addGen.map Prod.fst := by
      rw [List.map_map]
      exact List.map_congr_left (fun e he => addGen_method tb e he)
    have hsorted : (addGen.map (fun e =>
          newMeta tb (flagBody e.2) [] e.2 "SIMPLE".toList (other e.2).2 (other e.2).1)).Pairwise
          (fun x y => x.Method < y.Method) := by
      have h := addGen_sorted
      rw [← hmeth, List.pairwise_map] at h
      exact h
    refine ⟨_, jsonCmdModelToCmdMetas_eq tb srt _, ?_⟩
    rw [hpre, sort_eq_self srt _ hsorted, shown, List.map_map]
    exact List.map_congr_left (fun e he => by
      show ("SIMPLE".toList, toGoName tb (flagBody e.2) true, e.2) = _
      rw [addGen_method tb e he])

/-! ### The type of a classified flag and the import of `fmt` -/

/-- The type found by the six checks in the order of the source. -/
theorem shapeIn_shapes (s : Str) :
    shapeIn shapes s =
      if expCmdSimple.MatchString s = true then some "SIMPLE".toList
      else if expCmdEqualNoOptional.MatchString s = true then some "EQUAL_NO_OPTIONAL".toList
      else if expCmdEqualOptionalWithoutName.MatchString s = true then
        some "EQUAL_OPTIONAL_WITHOUT_NAME".toList
      else if expCmdEqualWithoutName.MatchString s = true then some "EQUAL_WITHOUT_NAME".toList
      else if expCmdEqualOptionalWithName.MatchString s = true then
        some "EQUAL_OPTIONAL_WITH_NAME".toList
      else if expCmdWithParameter.MatchString s = true then some "WITH_PARAMETER".toList
      else none := by
  cases b1 : expCmdSimple.MatchString s <;>
  cases b2 : expCmdEqualNoOptional.MatchString s <;>
  cases b3 : expCmdEqualOptionalWithoutName.MatchString s <;>
  cases b4 : expCmdEqualWithoutName.MatchString s <;>
  cases b5 : expCmdEqualOptionalWithName.MatchString s <;>
  cases b6 : expCmdWithParameter.MatchString s <;>
  simp [shapeIn, shapes, List.find?, b1, b2, b3, b4, b5, b6]

/-- An entry of a record has the type found by the six checks, and the flag
token as `Cmd`. -/
theorem entries_mem (tb : CaseTables) (j : JSONCmdModel) (m : CmdMeta) (h : m ∈ entries tb j) :
    shapeIn shapes j.Argument = some m.CmdType ∧ m.Cmd = flagToken j.Argument := by
  rcases classifyInto_cases tb [] j with h1 | ⟨ty, raw, h1, h2⟩
  · simp [entries, h1.2] at h
  · simp only [entries, h2, Option.getD_some, List.nil_append, List.mem_singleton] at h
    subst h
    exact ⟨h1, rfl⟩

/-- A record whose raw syntax has a type has an entry of that type. -/
theorem entries_of_shape (tb : CaseTables) (j : JSONCmdModel) (ty : Str)
    (h : shapeIn shapes j.Argument = some ty) : ∃ m ∈ entries tb j, m.CmdType = ty := by
  rcases classifyInto_cases tb [] j with h1 | ⟨ty1, raw, h1, h2⟩
  · rw [h1.1] at h; exact absurd h (by simp)
  · rw [h1] at h
    refine ⟨newMeta tb (methodName (flagBody (flagToken j.Argument)) j) raw
      (flagToken j.Argument) ty1 j.Description j.Arguments, by simp [entries, h2], ?_⟩
    exact Option.some.inj h

/-- The test of `hasImportFMT` on one record, made without the precedence of
the classifier, holds exactly when the record has an entry whose template
calls `fmt.Sprintf`. -/
theorem importTest_iff (tb : CaseTables) (j : JSONCmdModel) :
    (expCmdEqualNoOptional.MatchString j.Argument ||
        expCmdEqualOptionalWithoutName.MatchString j.Argument ||
        expCmdEqualWithoutName.MatchString j.Argument ||
        expCmdEqualOptionalWithName.MatchString j.Argument) = true ↔
      ∃ m ∈ entries tb j, m.CmdType ∈ fmtTypes := by
  have k1 := fun h => (match_expCmdSimple j.Argument h).1
  have k2 := fun h => (match_expCmdEqualNoOptional j.Argument h).1
  have k3 := fun h => (match_expCmdEqualOptionalWithoutName j.Argument h).1
  have k4 := fun h => (match_expCmdEqualWithoutName j.Argument h).1
  have k5 := fun h => (match_expCmdEqualOptionalWithName j.Argument h).1
  have hs := shapeIn_shapes j.Argument
  constructor
  · intro h
    simp only [Bool.or_eq_true] at h
    have hty : ∃ ty ∈ fmtTypes, shapeIn shapes j.Argument = some ty := by
      cases b1 : expCmdSimple.MatchString j.Argument with
      | true =>
        exfalso
        have e1 := k1 b1
        rcases h with ((h | h) | h) | h
        · have := k2 h; omega
        · have := k3 h; omega
        · have := k4 h; omega
        · have := k5 h; omega
      | false =>
        rw [b1] at hs
        simp only [Bool.false_eq_true, if_false] at hs
        cases b2 : expCmdEqualNoOptional.MatchString j.Argument with
        | true =>
          rw [b2] at hs
          exact ⟨_, by decide, hs⟩
        | false =>
          rw [b2] at hs
          simp only [Bool.false_eq_true, if_false] at hs
          cases b3 : expCmdEqualOptionalWithoutName.MatchString j.Argument with
          | true =>
            rw [b3] at hs
            exact ⟨_, by decide, hs⟩
          | false =>
            rw [b3] at hs
            simp only [Bool.false_eq_true, if_false] at hs
            cases b4 : expCmdEqualWithoutName.MatchString j.Argument with
            | true =>
              rw [b4] at hs
              exact ⟨_, by decide, hs⟩
            | false =>
              rw [b4] at hs
              simp only [Bool.false_eq_true, if_false] at hs
              cases b5 : expCmdEqualOptionalWithName.MatchString j.Argument with
              | true =>
                rw [b5] at hs
                exact ⟨_, by decide, hs⟩
              | false =>
                rw [b2, b3, b4, b5] at h
                simp at h
    obtain ⟨ty, hmem, hsh⟩ := hty
    obtain ⟨m, hm, hmt⟩ := entries_of_shape tb j ty hsh
    exact ⟨m, hm, by rw [hmt]; exact hmem⟩
  · rintro ⟨m, hm, hty⟩
    have hsh := (entries_mem tb j m hm).1
    rw [hs] at hsh
    simp only [Bool.or_eq_true]
    by_cases b1 : expCmdSimple.MatchString j.Argument = true
    · rw [if_pos b1] at hsh
      rw [← Option.some.inj hsh] at hty
      exact absurd hty (by decide)
    · rw [if_neg b1] at hsh
      by_cases b2 : expCmdEqualNoOptional.MatchString j.Argument = true
      · exact Or.inl (Or.inl (Or.inl b2))
      · rw [if_neg b2] at hsh
        by_cases b3 : expCmdEqualOptionalWithoutName.MatchString j.Argument = true
        · exact Or.inl (Or.inl (Or.inr b3))
        · rw [if_neg b3] at hsh
          by_cases b4 : expCmdEqualWithoutName.MatchString j.Argument = true
          · exact Or.inl (Or.inr b4)
          · rw [if_neg b4] at hsh
            by_cases b5 : expCmdEqualOptionalWithName.MatchString j.Argument = true
            · exact Or.inr b5
            · rw [if_neg b5] at hsh
              by_cases b6 : expCmdWithParameter.MatchString j.Argument = true
              · rw [if_pos b6] at hsh
                rw [← Option.some.inj hsh] at hty
                exact absurd hty (by decide)
              · rw [if_neg b6] at hsh
                exact absurd hsh (by simp)

theorem hasImportFMT_iff (tb : CaseTables) (models : List JSONCmdModel) :
    hasImportFMT models = true ↔ ∃ j ∈ models, ∃ m ∈ entries tb j, m.CmdType ∈ fmtTypes := by
  induction models with
  | nil => simp [hasImportFMT]
  | cons j rest ih =>
    have hj := importTest_iff tb j
    unfold hasImportFMT
    by_cases ht : (expCmdEqualNoOptional.MatchString j.Argument ||
        expCmdEqualOptionalWithoutName.MatchString j.Argument ||
        expCmdEqualWithoutName.MatchString j.Argument ||
        expCmdEqualOptionalWithName.MatchString j.Argument) = true
    · rw [if_pos ht]
      exact ⟨fun _ => ⟨j, by simp, hj.mp ht⟩, fun _ => rfl⟩
    · rw [if_neg ht, ih]
      constructor
      · rintro ⟨j2, hj2, h⟩
        exact ⟨j2, by simp [hj2], h⟩
      · rintro ⟨j2, hj2, h⟩
        rcases List.mem_cons.mp hj2 with e | e
        · subst e; exact absurd (hj.mpr h) ht
        · exact ⟨j2, e, h⟩

/-- C18: the import of `fmt` is asked for exactly when it is used.  For every
list of flag records, `hasImportFMT` is true if and only if the list returned
by `jsonCmdModelToCmdMetas` holds a classified flag of type EQUAL_NO_OPTIONAL,
EQUAL_OPTIONAL_WITHOUT_NAME, EQUAL_WITHOUT_NAME or EQUAL_OPTIONAL_WITH_NAME. -/
theorem C18_import_fmt_iff_used (tb : CaseTables) (srt : SortImpl)
    (jsonCmdModels : List JSONCmdModel) :
    ∃ metas : List CmdMeta, jsonCmdModelToCmdMetas tb srt jsonCmdModels = some metas ∧
      (hasImportFMT jsonCmdModels = true ↔ ∃ m ∈ metas, m.CmdType ∈ fmtTypes) := by
  refine ⟨_, jsonCmdModelToCmdMetas_eq tb srt jsonCmdModels, ?_⟩
  rw [hasImportFMT_iff tb]
  constructor
  · rintro ⟨j, hj, m, hm, hty⟩
    exact ⟨m, (srt.perm _).mem_iff.mpr (List.mem_flatMap.mpr ⟨j, hj, hm⟩), hty⟩
  · rintro ⟨m, hm, hty⟩
    obtain ⟨j, hj, hmj⟩ := List.mem_flatMap.mp ((srt.perm _).mem_iff.mp hm)
    exact ⟨j, hj, m, hmj, hty⟩

/-! ### The flag token of a classified flag -/

/-- Whichever pattern matches, the flag token begins with a hyphen and holds a
character more. -/
theorem flagTokenOK_of_shape (s : Str) (h : shapeIn shapes s ≠ none) : flagTokenOK s := by
  by_contra hn
  apply h
  have f1 : expCmdSimple.MatchString s = false := by
    simp [Regexp.MatchString, find_expCmdSimple, hn]
  have f2 : expCmdEqualNoOptional.MatchString s = false := by
    simp [Regexp.MatchString, find_expCmdEqualNoOptional, hn]
  have f3 : expCmdEqualOptionalWithoutName.MatchString s = false := by
    simp [Regexp.MatchString, find_expCmdEqualOptionalWithoutName, hn]
  have f4 : expCmdEqualWithoutName.MatchString s = false := by
    simp [Regexp.MatchString, find_expCmdEqualWithoutName, hn]
  have f5 : expCmdEqualOptionalWithName.MatchString s = false := by
    simp [Regexp.MatchString, find_expCmdEqualOptionalWithName, hn]
  have f6 : expCmdWithParameter.MatchString s = false := by
    simp [Regexp.MatchString, find_expCmdWithParameter, hn]
  rw [shapeIn_shapes, f1, f2, f3, f4, f5, f6]
  rfl

theorem mem_takeWhile (p : Char → Bool) :
    ∀ l : List Char, ∀ c ∈ l.takeWhile p, p c = true := by
  intro l
  induction l with
  | nil => intro c h; simp at h
  | cons a r ih =>
    intro c h
    by_cases ha : p a = true
    · rw [List.takeWhile_cons_of_pos ha] at h
      rcases List.mem_cons.mp h with e | e
      · rw [e]; exact ha
      · exact ih c e
    · rw [List.takeWhile_cons_of_neg ha] at h
      simp at h

/-- C19: for every flag record and every classified flag that
`jsonCmdModelToCmdMetas` produces from it, `Cmd` is a prefix of the raw syntax
of the record, begins with a hyphen, has two characters at least and is made
of `[A-Za-z0-9_-]`; so it holds no double quote, backslash, space or newline
and can stand as it is in the string literal of the generated code. -/
theorem C19_cmd_is_flag_token (tb : CaseTables) (srt : SortImpl)
    (jsonCmdModels : List JSONCmdModel) :
    ∃ metas : List CmdMeta, jsonCmdModelToCmdMetas tb srt jsonCmdModels = some metas ∧
      ∀ m ∈ metas, ∃ j ∈ jsonCmdModels, m ∈ entries tb j ∧
        m.Cmd <+: j.Argument ∧ m.Cmd.head? = some '-' ∧ 2 ≤ m.Cmd.length ∧
        m.Cmd.all nameChar = true ∧
        '"' ∉ m.Cmd ∧ '\\' ∉ m.Cmd ∧ ' ' ∉ m.Cmd ∧ '\n' ∉ m.Cmd ∧
        (GoExpr.lit m.Cmd).typeOf none = some .string := by
  refine ⟨_, jsonCmdModelToCmdMetas_eq tb srt jsonCmdModels, ?_⟩
  intro m hm
  obtain ⟨j, hj, hmj⟩ := List.mem_flatMap.mp ((srt.perm _).mem_iff.mp hm)
  obtain ⟨hsh, hcmd⟩ := entries_mem tb j m hmj
  have hok := flagTokenOK_of_shape j.Argument (by rw [hsh]; simp)
  have hall : m.Cmd.all nameChar = true := by
    rw [List.all_eq_true]
    intro c hc
    rw [hcmd] at hc
    rw [nameChar_eq_clsFlag]
    exact mem_takeWhile clsFlag _ c hc
  have hplain := fun c hc => nameChar_plain (List.all_eq_true.mp hall c hc)
  refine ⟨j, hj, hmj, ?_, ?_, ?_, hall, ?_, ?_, ?_, ?_, (lit_typeOf none m.Cmd hall).1⟩
  · rw [hcmd]; exact List.takeWhile_prefix clsFlag
  · rw [hcmd]; exact hok.1
  · rw [hcmd]; exact hok.2
  · exact fun h => (hplain _ h).2.1 rfl
  · exact fun h => (hplain _ h).2.2.1 rfl
  · exact fun h => (hplain _ h).2.2.2.2 rfl
  · exact fun h => (hplain _ h).2.2.2.1 rfl

/-! ### No sub-match out of range, no unknown type -/

/-- C20: classification never reads a sub-match out of range and never gives
an unknown type.  Whenever one of the six patterns matches a raw syntax, the
sub-matches of that pattern are there, three of them for SIMPLE and the two
shapes without a name (indices 0 to 2) and four for the three shapes with a
name (indices 0 to 3), so the builder of the shape returns its classified
flag; `jsonCmdModelToCmdMetas` always returns a list; and the type of every
classified flag is one of the six that `fileTemplate` handles, so that its
branch ` BUG` is never taken. -/
theorem C20_no_panic_no_bug (tb : CaseTables) (srt : SortImpl) :
    (∀ j : JSONCmdModel,
      (expCmdSimple.MatchString j.Argument = true →
        (∃ sub, expCmdSimple.FindStringSubmatch j.Argument = some sub ∧ sub.length = 3) ∧
        (newMetaCmdSimple tb j).isSome = true) ∧
      (expCmdEqualNoOptional.MatchString j.Argument = true →
        (∃ sub, expCmdEqualNoOptional.FindStringSubmatch j.Argument = some sub ∧
          sub.length = 4) ∧
        (newMetaCmdEqualNoOptional tb j).isSome = true) ∧
      (expCmdEqualOptionalWithoutName.MatchString j.Argument = true →
        (∃ sub, expCmdEqualOptionalWithoutName.FindStringSubmatch j.Argument = some sub ∧
          sub.length = 3) ∧
        (newMetaCmdEqualOptionalWithoutName tb j).isSome = true) ∧
      (expCmdEqualWithoutName.MatchString j.Argument = true →
        (∃ sub, expCmdEqualWithoutName.FindStringSubmatch j.Argument = some sub ∧
          sub.length = 3) ∧
        (newMetaCmdEqualWithoutName tb j).isSome = true) ∧
      (expCmdEqualOptionalWithName.MatchString j.Argument = true →
        (∃ sub, expCmdEqualOptionalWithName.FindStringSubmatch j.Argument = some sub ∧
          sub.length = 4) ∧
        (newMetaCmdEqualOptionalWithName tb j).isSome = true) ∧
      (expCmdWithParameter.MatchString j.Argument = true →
        (∃ sub, expCmdWithParameter.FindStringSubmatch j.Argument = some sub ∧
          sub.length = 4) ∧
        (newMetaCmdWithParameter tb j).isSome = true)) ∧
    (∀ jsonCmdModels : List JSONCmdModel,
      ∃ metas : List CmdMeta, jsonCmdModelToCmdMetas tb srt jsonCmdModels = some metas ∧
        ∀ m ∈ metas, m.CmdType ∈ knownTypes ∧ (fileTemplateBranch m).isSome = true) := by
  constructor
  · intro j
    refine ⟨?_, ?_, ?_, ?_, ?_, ?_⟩
    · intro h
      have hf := (match_expCmdSimple _ h).2
      exact ⟨⟨_, hf, rfl⟩, by simp [newMetaCmdSimple, newMetaCmd, hf]⟩
    · intro h
      obtain ⟨q, hf⟩ := (match_expCmdEqualNoOptional _ h).2
      exact ⟨⟨_, hf, rfl⟩, by simp [newMetaCmdEqualNoOptional, newMetaCmd, hf]⟩
    · intro h
      have hf := (match_expCmdEqualOptionalWithoutName _ h).2
      exact ⟨⟨_, hf, rfl⟩, by simp [newMetaCmdEqualOptionalWithoutName, newMetaCmd, hf]⟩
    · intro h
      have hf := (match_expCmdEqualWithoutName _ h).2
      exact ⟨⟨_, hf, rfl⟩, by simp [newMetaCmdEqualWithoutName, newMetaCmd, hf]⟩
    · intro h
      obtain ⟨q, hf⟩ := (match_expCmdEqualOptionalWithName _ h).2
      exact ⟨⟨_, hf, rfl⟩, by simp [newMetaCmdEqualOptionalWithName, newMetaCmd, hf]⟩
    · intro h
      obtain ⟨q, hf⟩ := (match_expCmdWithParameter _ h).2
      exact ⟨⟨_, hf, rfl⟩, by simp [newMetaCmdWithParameter, newMetaCmd, hf]⟩
  · intro models
    refine ⟨_, jsonCmdModelToCmdMetas_eq tb srt models, ?_⟩
    intro m hm
    obtain ⟨j, _, hmj⟩ := List.mem_flatMap.mp ((srt.perm _).mem_iff.mp hm)
    have hsh := (entries_mem tb j m hmj).1
    rw [shapeIn_shapes] at hsh
    have hty : m.CmdType ∈ knownTypes := by
      split_ifs at hsh <;> (rw [← Option.some.inj hsh]; decide)
    refine ⟨hty, ?_⟩
    simp only [knownTypes, List.mem_cons, List.mem_singleton, List.not_mem_nil, or_false] at hty
    unfold fileTemplateBranch
    rcases hty with h | h | h | h | h | h <;> (rw [h]; rfl)

/-! ### The functions of a generated file -/

end Generator
